import Mathlib

/-!
Image-Processor: the `Matrix` class and the filters built on it.

A shallow embedding of `Matrix.cpp` and `Filters.cpp`, in two layers that share the control
flow of the code.

Common to both layers:

* `exit(EXIT_FAILURE)` after a message on `cerr` is an `Except.error` carrying the message kind.
  Behaviour that C++ leaves undefined (a raw read or write outside an allocated array, an integer
  division by zero, a negative array size, a conversion of a `float` that is no `int`) is the
  separate error `Fatal.undefinedBehaviour`, so a theorem that a run succeeds also says that
  none of these happens.  An allocation of a size that is not negative succeeds.
* A reference (`float &`) is the offset of a cell in the buffer; a mutating method returns the
  updated object.

The machine layer (`Binary32`, `wrapInt32`, `Matrix32` and the functions whose names end in
`32`) has the types of the program:

* `float` is `Binary32`: a finite value, which is a rational, plus or minus infinity, or a NaN.
  The results of `+`, `*` and `/` are the exact results rounded to nearest with ties to even
  (`roundBinary32`: 24 significant bits, gradual underflow below `2^-126`, an infinity from
  `2^128 - 2^103` on); each operation is rounded on its own, with no fused multiply-add and no
  wider intermediate format.  A comparison with a NaN is false, except `!=`.  The two zeros are
  one value: the sign of a zero shows only in a division by it and in its text, and the code
  of this layer divides by no zero that could be negative and writes no text.
* `int` is `Int`, and the `int` products and sums whose operands the code does not bound are
  reduced by `wrapInt32` (32 bits, two's complement): the size `rows * cols`, the offset
  `i * cols + j`, the neighbour `i + k`, the tables of `quantization`.  A loop counter stays
  below its bound and is not reduced.

The exact layer (`Matrix`, with cells in `ℚ` and `int` as `Int`) is the same code with exact
arithmetic: no rounding, no infinity, no NaN, no wrap.  It carries the claims whose statements
do not depend on how the arithmetic rounds (C3, C4, C10, C11, C13, C14, C16, C18, C19, C20,
C21): comparisons, `rintf`, the tables and the indices of `quantization`, the streams, and
filters on cells for which every step is exact or only the range of the result is claimed.  The
claims that depend on rounding, on an infinity or a NaN, or on the range of `int` (C1, C2, C5,
C6, C7, C8, C9, C12, C15, C17) are settled on the machine layer.
-/

namespace ImageProcessor

/-- The ways a run stops without a result. -/
inductive Fatal where
  /-- The message "Invalid matrix dimensions." followed by `exit(EXIT_FAILURE)`. -/
  | invalidDimensions
  /-- The message "Index out of range." followed by `exit(EXIT_FAILURE)`. -/
  | indexOutOfRange
  /-- The message "Division by zero." followed by `exit(EXIT_FAILURE)`. -/
  | divisionByZero
  /-- The message "Error loading from input stream." followed by `exit(EXIT_FAILURE)`. -/
  | streamError
  /-- Not a message of the program: the run reached behaviour that C++ leaves undefined. -/
  | undefinedBehaviour
  deriving DecidableEq, Repr

/-- The text the program writes to `cerr` before it exits (none for undefined behaviour). -/
def Fatal.message : Fatal → String
  | .invalidDimensions => "Invalid matrix dimensions.\n"
  | .indexOutOfRange => "Index out of range.\n"
  | .divisionByZero => "Division by zero.\n"
  | .streamError => "Error loading from input stream.\n"
  | .undefinedBehaviour => ""

instance instDecidableEqExcept {ε α : Type} [DecidableEq ε] [DecidableEq α] :
    DecidableEq (Except ε α)
  | .ok a, .ok b => if h : a = b then isTrue (by rw [h]) else isFalse (by intro e; cases e; exact h rfl)
  | .error a, .error b =>
    if h : a = b then isTrue (by rw [h]) else isFalse (by intro e; cases e; exact h rfl)
  | .ok _, .error _ => isFalse (by intro e; cases e)
  | .error _, .ok _ => isFalse (by intro e; cases e)

/-- The members of `class Matrix` (Matrix.h, lines 24-25): the buffer and the three `int`s. -/
structure Matrix where
  _matrix : List ℚ
  _rows : Int
  _cols : Int
  _len : Int
  deriving DecidableEq, Repr

/-- The class invariant: what every constructor establishes and every method keeps. -/
def Matrix.WF (m : Matrix) : Prop :=
  1 ≤ m._rows ∧ 1 ≤ m._cols ∧ m._len = m._rows * m._cols ∧ (m._matrix.length : Int) = m._len

instance (m : Matrix) : Decidable m.WF := by unfold Matrix.WF; infer_instance

/-- The value a cell of a fresh `new float[n]` holds before anything is stored in it.  C++ leaves
it indeterminate; a fixed non-zero value keeps the zero-fill of the constructor observable. -/
def indeterminate : ℚ := -1

/-- The buffer `new float[n]`. -/
def newFloatArray (n : Int) : List ℚ := List.replicate n.toNat indeterminate

/-- The loop `for (int i = lo; i < hi; i++) body`: the body runs for `i = lo, lo+1, .., hi-1` in
this order, on the state the previous round left; the first error ends the run. -/
def forInt {σ : Type} (lo hi : Int) (body : Int → σ → Except Fatal σ) (s : σ) : Except Fatal σ :=
  (List.range (hi - lo).toNat).foldlM (fun s (n : Nat) => body (lo + (n : Int)) s) s

/-- A raw read `_matrix[p]` of the buffer. -/
def Matrix.load (m : Matrix) (p : Nat) : Except Fatal ℚ :=
  match m._matrix[p]? with
  | some v => .ok v
  | none => .error .undefinedBehaviour

/-- A raw write `_matrix[p] = v` of the buffer. -/
def Matrix.store (m : Matrix) (p : Nat) (v : ℚ) : Except Fatal Matrix :=
  if p < m._matrix.length then .ok { m with _matrix := m._matrix.set p v }
  else .error .undefinedBehaviour

/-- The mutable `float &Matrix::operator[](const int k)` (Matrix.cpp, lines 297-305): the
reference to cell `k`. -/
def Matrix.opIndex (m : Matrix) (k : Int) : Except Fatal Nat :=
  if 0 ≤ k ∧ k < m._len then .ok k.toNat else .error .indexOutOfRange

/-- The read-only `float Matrix::operator[](const int k) const` (Matrix.cpp, lines 308-316). -/
def Matrix.opIndexConst (m : Matrix) (k : Int) : Except Fatal ℚ :=
  if 0 ≤ k ∧ k < m._len then m.load k.toNat else .error .indexOutOfRange

/-- The mutable `float &Matrix::operator()(const int i, const int j)` (Matrix.cpp,
lines 275-283). -/
def Matrix.opCall (m : Matrix) (i j : Int) : Except Fatal Nat :=
  if 0 ≤ i ∧ i < m._rows ∧ 0 ≤ j ∧ j < m._cols then m.opIndex (i * m._cols + j)
  else .error .indexOutOfRange

/-- The read-only `float Matrix::operator()(const int i, const int j) const` (Matrix.cpp,
lines 286-294).  Its last conjunct is `_cols`, an `int` used as a condition: true when it is
not zero. -/
def Matrix.opCallConst (m : Matrix) (i j : Int) : Except Fatal ℚ :=
  if 0 ≤ i ∧ i < m._rows ∧ 0 ≤ j ∧ m._cols ≠ 0 then m.opIndexConst (i * m._cols + j)
  else .error .indexOutOfRange

/-- The statement `m[k] = v;` on a mutable matrix. -/
def Matrix.assign (m : Matrix) (k : Int) (v : ℚ) : Except Fatal Matrix := do
  let p ← m.opIndex k
  m.store p v

/-- An rvalue use of `m[k]` on a mutable matrix: the reference, then the read through it. -/
def Matrix.read (m : Matrix) (k : Int) : Except Fatal ℚ := do
  let p ← m.opIndex k
  m.load p

/-- The constructor `Matrix::Matrix(int rows, int cols)` (Matrix.cpp, lines 29-44). -/
def Matrix.ctor (rows cols : Int) : Except Fatal Matrix :=
  if rows < 1 ∨ cols < 1 then .error .invalidDimensions
  else
    let this : Matrix :=
      { _matrix := newFloatArray (rows * cols), _rows := rows, _cols := cols, _len := rows * cols }
    forInt 0 this._len (fun i this => this.assign i 0) this

/-- The copy constructor `Matrix::Matrix(const Matrix &m)` (Matrix.cpp, lines 50-56). -/
def Matrix.copy (m : Matrix) : Except Fatal Matrix := do
  let this ← Matrix.ctor m._rows m._cols
  forInt 0 this._len (fun i this => do
    let v ← m.opIndexConst i
    this.assign i v) this

/-- The accessor `Matrix::getRows` (Matrix.cpp, lines 63-66). -/
def Matrix.getRows (m : Matrix) : Int := m._rows

/-- The accessor `Matrix::getCols` (Matrix.cpp, lines 68-71). -/
def Matrix.getCols (m : Matrix) : Int := m._cols

/-- The sum `Matrix::operator+(const Matrix &other) const` (Matrix.cpp, lines 242-255). -/
def Matrix.opAdd (this other : Matrix) : Except Fatal Matrix :=
  if this._rows = other._rows ∧ this._cols = other._cols then do
    let newMatrix ← this.copy
    forInt 0 this._len (fun i newMatrix => do
      let v ← other.opIndexConst i
      let p ← newMatrix.opIndex i
      let old ← newMatrix.load p
      newMatrix.store p (old + v)) newMatrix
  else .error .invalidDimensions

/-- The macro `TOTAL_COLORS_SUM` (Filters.cpp, line 15). -/
def TOTAL_COLORS_SUM : Int := 256

/-- The macro `LAST_COLOR` (Filters.cpp, line 16). -/
def LAST_COLOR : Int := 255

/-- The macro `FIRST_COLOR` (Filters.cpp, line 17). -/
def FIRST_COLOR : Int := 0

/-- The macro `CENTER_OF_B` (Filters.cpp, line 22). -/
def CENTER_OF_B : Int := 1

/-- The C library function `rintf` in the default rounding mode: the nearest integer, and of two
nearest ones the even one. -/
def rintf (x : ℚ) : ℚ :=
  let f : Int := ⌊x⌋
  if x - f < 1 / 2 then f
  else if 1 / 2 < x - f then f + 1
  else if f % 2 = 0 then f
  else f + 1

/-- The conversion `(int) x` of a `float`: the fractional part is dropped. -/
def floatToInt (x : ℚ) : Int := if 0 ≤ x then ⌊x⌋ else ⌈x⌉

/-- A raw read `a[i]` of an `int` array. -/
def intArrayGet (a : List Int) (i : Int) : Except Fatal Int :=
  if 0 ≤ i then
    match a[i.toNat]? with
    | some v => .ok v
    | none => .error .undefinedBehaviour
  else .error .undefinedBehaviour

/-- A raw write `a[i] = v` of an `int` array. -/
def intArraySet (a : List Int) (i : Int) (v : Int) : Except Fatal (List Int) :=
  if 0 ≤ i ∧ i.toNat < a.length then .ok (a.set i.toNat v) else .error .undefinedBehaviour

/-- The array `new int[n]`; its cells are indeterminate until written. -/
def newIntArray (n : Int) : Except Fatal (List Int) :=
  if 0 ≤ n then .ok (List.replicate n.toNat (-1)) else .error .undefinedBehaviour

/-- The `int` division `a / b` of C++. -/
def intDiv (a b : Int) : Except Fatal Int :=
  if b = 0 then .error .undefinedBehaviour else .ok (Int.tdiv a b)

/-- The filter `normalize` (Filters.cpp, lines 31-45); the result is the updated `image`. -/
def normalize (image : Matrix) : Except Fatal Matrix :=
  forInt 0 (image.getRows * image.getCols) (fun i image => do
    let v ← image.read i
    if v < (0 : Int) then image.assign i FIRST_COLOR
    else do
      let v ← image.read i
      if v ≥ TOTAL_COLORS_SUM then image.assign i LAST_COLOR
      else pure image) image

/-- The helper `calculateValue` (Filters.cpp, lines 47-64); the result is the updated
`newMatrix`. -/
def calculateValue (matA matB : Matrix) (i j : Int) (newMatrix : Matrix) : Except Fatal Matrix := do
  let newVal ← forInt (-1) 2 (fun k newVal =>
    forInt (-1) 2 (fun l newVal =>
      if i + k ≥ 0 ∧ j + l ≥ 0 ∧ i + k < matA.getRows ∧ j + l < matA.getCols then do
        let a ← matA.opCallConst (i + k) (j + l)
        let b ← matB.opCallConst (CENTER_OF_B + k) (CENTER_OF_B + l)
        pure (newVal + a * b)
      else pure newVal) newVal) (0 : ℚ)
  let p ← newMatrix.opCall i j
  newMatrix.store p (rintf newVal)

/-- The filter `convolution` (Filters.cpp, lines 72-83). -/
def convolution (matA matB : Matrix) : Except Fatal Matrix := do
  let newMatrix ← Matrix.ctor matA.getRows matA.getCols
  forInt 0 matA.getRows (fun i newMatrix =>
    forInt 0 matA.getCols (fun j newMatrix =>
      calculateValue matA matB i j newMatrix) newMatrix) newMatrix

/-- The filter `quantization` (Filters.cpp, lines 91-114). -/
def quantization (image : Matrix) (levels : Int) : Except Fatal Matrix := do
  let newImage ← Matrix.ctor image.getRows image.getCols
  let colors ← newIntArray (levels + 1)
  let colors ← forInt 0 (levels + 1) (fun i colors => do
    let w ← intDiv TOTAL_COLORS_SUM levels
    intArraySet colors i (i * w)) colors
  let averages ← newIntArray levels
  let averages ← forInt 0 levels (fun i averages => do
    let lo ← intArrayGet colors i
    let hi ← intArrayGet colors (i + 1)
    let avg ← intDiv (lo + hi - 1) 2
    intArraySet averages i avg) averages
  forInt 0 (image.getRows * image.getCols) (fun i newImage => do
    let v ← image.opIndexConst i
    let w ← intDiv TOTAL_COLORS_SUM levels
    if w = 0 then .error .undefinedBehaviour
    else do
      let indOfAvg := floatToInt (v / (w : ℚ))
      let avg ← intArrayGet averages indOfAvg
      newImage.assign i (avg : ℚ)) newImage

/-- The kernel of `blur`: a 3 x 3 matrix filled from `values` (Filters.cpp, lines 123-128). -/
def blurConvoluator : Except Fatal Matrix := do
  let convoluator ← Matrix.ctor 3 3
  let values : List Int := [1, 2, 1, 2, 4, 2, 1, 2, 1]
  forInt 0 9 (fun i convoluator => do
    let x ← intArrayGet values i
    convoluator.assign i (((1 : ℚ) / 16) * (x : ℚ))) convoluator

/-- The filter `blur` (Filters.cpp, lines 121-131). -/
def blur (image : Matrix) : Except Fatal Matrix := do
  let convoluator ← blurConvoluator
  let result ← convolution image convoluator
  let result ← normalize result
  result.copy

/-- The cell in row `i` and column `j` of a matrix, read from the row-major buffer. -/
def Matrix.cell (m : Matrix) (i j : Int) : ℚ := m._matrix.getD (i * m._cols + j).toNat 0

/-- Two matrices that agree on the three `int`s and on the size of the buffer. -/
def Matrix.SameShape (s m : Matrix) : Prop :=
  s._rows = m._rows ∧ s._cols = m._cols ∧ s._len = m._len ∧ s._matrix.length = m._matrix.length

/-- A 2 x 2 matrix holding 1, 2, 3, 4 in row-major order. -/
def example2x2 : Matrix := { _matrix := [1, 2, 3, 4], _rows := 2, _cols := 2, _len := 4 }

/-- The 1 x 1 matrix holding `v`. -/
def singleCell (v : ℚ) : Matrix := { _matrix := [v], _rows := 1, _cols := 1, _len := 1 }

/-- The 3 x 3 matrix whose nine cells all hold `c`. -/
def uniform3x3 (c : ℚ) : Matrix :=
  { _matrix := [c, c, c, c, c, c, c, c, c], _rows := 3, _cols := 3, _len := 9 }

/-- The offsets `(k, l)` in {-1, 0, 1} x {-1, 0, 1} whose neighbour `(i + k, j + l)` of the cell
`(i, j)` lies inside `A`. -/
def window (A : Matrix) (i j : Int) : Finset (Int × Int) :=
  (({-1, 0, 1} : Finset Int) ×ˢ ({-1, 0, 1} : Finset Int)).filter
    (fun p => 0 ≤ i + p.1 ∧ i + p.1 < A._rows ∧ 0 ≤ j + p.2 ∧ j + p.2 < A._cols)

/-- The sum the specification gives for cell `(i, j)` of a convolution of `A` with the 3 x 3
kernel `B`: the products `A(i + k, j + l) * B(1 + k, 1 + l)` over the offsets of the window. -/
def stencilSum (A B : Matrix) (i j : Int) : ℚ :=
  ∑ p ∈ window A i j, A.cell (i + p.1) (j + p.2) * B.cell (1 + p.1) (1 + p.2)

/-- One term of the stencil: the product for the offset `(k, l)`, or 0 when the neighbour is
outside `A`. -/
def stencilTerm (A B : Matrix) (i j k l : Int) : ℚ :=
  if 0 ≤ i + k ∧ i + k < A._rows ∧ 0 ≤ j + l ∧ j + l < A._cols then
    A.cell (i + k) (j + l) * B.cell (1 + k) (1 + l)
  else 0

/-- The kernel that `blur` builds: `[[1, 2, 1], [2, 4, 2], [1, 2, 1]] / 16`. -/
def blurKernel : Matrix :=
  { _matrix := [1 / 16, 2 / 16, 1 / 16, 2 / 16, 4 / 16, 2 / 16, 1 / 16, 2 / 16, 1 / 16],
    _rows := 3, _cols := 3, _len := 9 }

/-- What `normalize` does to one cell. -/
def clampCell (v : ℚ) : ℚ := if v < 0 then 0 else if 256 ≤ v then 255 else v

/-- The cell at flat offset `k` of a matrix. -/
def Matrix.flat (m : Matrix) (k : Int) : ℚ := m._matrix.getD k.toNat 0


/-- The macro `END_OF_ROW` (Matrix.cpp, line 13). -/
def END_OF_ROW : Int := 0

/-- The macro `MINIMAL_MATRIX_SIZE` (Matrix.cpp, line 14). -/
def MINIMAL_MATRIX_SIZE : Int := 1

/-- A loop whose body may `return`: the state of the loop is `none` while no round has returned
and `some r` once a round has returned `r`; the rounds after that do nothing. -/
def forIntReturn {ρ : Type} (lo hi : Int) (body : Int → Except Fatal (Option ρ)) :
    Except Fatal (Option ρ) :=
  forInt lo hi (fun i (returned : Option ρ) =>
    match returned with
    | some r => .ok (some r)
    | none => body i) none

/-- The comparison `Matrix::operator==` (Matrix.cpp, lines 319-333). -/
def Matrix.opEq (this other : Matrix) : Except Fatal Bool :=
  if this._rows ≠ other._rows ∨ this._cols ≠ other._cols ∨ this._len ≠ other._len then .ok false
  else do
    let returned ← forIntReturn 0 this._len (fun i => do
      let a ← this.opIndexConst i
      let b ← other.opIndexConst i
      if a ≠ b then .ok (some false) else .ok none)
    match returned with
    | some r => .ok r
    | none => .ok true

/-- The comparison `Matrix::operator!=` (Matrix.cpp, lines 336-350). -/
def Matrix.opNe (this other : Matrix) : Except Fatal Bool :=
  if this._rows ≠ other._rows ∨ this._cols ≠ other._cols ∨ this._len ≠ other._len then .ok true
  else do
    let returned ← forIntReturn 0 this._len (fun i => do
      let a ← this.opIndexConst i
      let b ← other.opIndexConst i
      if a ≠ b then .ok (some true) else .ok none)
    match returned with
    | some r => .ok r
    | none => .ok false

/-- An input stream as `operator>>` sees it: whether `is.good()` holds at the call, and the
`float`s that the successive extractions `is >> val` deliver before one of them fails. -/
structure InputStream where
  good : Bool
  tokens : List ℚ

/-- The extraction `operator>>(std::istream &is, Matrix &matrix)` (Matrix.cpp, lines 353-368);
the result is the updated `matrix`.  The state of the `while` loop is the matrix and `inx`. -/
def opExtract (is : InputStream) (matrix : Matrix) : Except Fatal Matrix :=
  if !is.good then .error .streamError
  else do
    let final ← is.tokens.foldlM (fun (state : Matrix × Int) (val : ℚ) => do
      let matrix ← state.1.assign state.2 val
      pure (matrix, state.2 + 1)) (matrix, (0 : Int))
    pure final.1

/-- The `int` remainder `a % b` of C++. -/
def intMod (a b : Int) : Except Fatal Int :=
  if b = 0 then .error .undefinedBehaviour else .ok (Int.tmod a b)

/-- The insertion `operator<<(std::ostream &os, const Matrix &matrix)` (Matrix.cpp,
lines 371-386); the result is the text of the stream afterwards.  `fmt` is the text that
`os << x` writes for a `float` `x`; `endl` writes a newline. -/
def opInsert (fmt : ℚ → String) (os : String) (matrix : Matrix) : Except Fatal String :=
  forInt 0 matrix._len (fun i os => do
    let v ← matrix.opIndexConst i
    let os := os ++ fmt v
    let r ← intMod (i + 1) matrix._cols
    if r = END_OF_ROW ∧ (i + 1) ≠ matrix._len then .ok (os ++ "\n")
    else if (i + 1) ≠ matrix._len then .ok (os ++ " ")
    else .ok os) os

/-- The method `Matrix::print` (Matrix.cpp, lines 84-99): the same loop on `cout`. -/
def Matrix.print (fmt : ℚ → String) (cout : String) (m : Matrix) : Except Fatal String :=
  forInt 0 m._len (fun i cout => do
    let v ← m.opIndexConst i
    let cout := cout ++ fmt v
    let r ← intMod (i + 1) m._cols
    if r = END_OF_ROW ∧ (i + 1) ≠ m._len then .ok (cout ++ "\n")
    else if (i + 1) ≠ m._len then .ok (cout ++ " ")
    else .ok cout) cout

/-- A sample of `fmt` for the examples: the decimal numerator, which is what the default
formatting of C++ writes for an integer of at most six digits. -/
def fmtInteger (x : ℚ) : String := toString x.num


/-- The value the specification gives for a pixel `v` quantized to `levels` levels:
`(b + (b + w) - 1) div 2` with `w = 256 div levels`, `i = floor(v / w)` and `b = i * w`. -/
def bucketAverage (levels : Int) (v : ℚ) : Int :=
  let w : Int := 256 / levels
  let i : Int := ⌊v / (w : ℚ)⌋
  let b : Int := i * w
  (b + (b + w) - 1) / 2


/-- The 3 x 3 kernel whose centre entry `B(1, 1)` is 1 and whose other entries are 0. -/
def centerKernel : Matrix :=
  { _matrix := [0, 0, 0, 0, 1, 0, 0, 0, 0], _rows := 3, _cols := 3, _len := 9 }

/-- The text the specification puts after element `k` of a matrix with `r` rows and `c` columns:
a newline when `k + 1` is a multiple of `c` and `k + 1 < r * c`, a single space when `k + 1` is
not a multiple of `c` and `k + 1 < r * c`, and nothing when `k + 1 = r * c`. -/
def separatorAfter (r c k : Int) : String :=
  if (k + 1) % c = 0 ∧ k + 1 < r * c then "\n"
  else if ¬ (k + 1) % c = 0 ∧ k + 1 < r * c then " "
  else ""

/-- The text of the first `n` elements of a matrix in flat order, each followed by its
separator. -/
def renderedPrefix (fmt : ℚ → String) (m : Matrix) : Nat → String
  | 0 => ""
  | n + 1 => renderedPrefix fmt m n ++ (fmt (m.flat (n : Int)) ++
      separatorAfter m._rows m._cols (n : Int))

/-! The machine types: 32-bit `int` and binary32 `float` -/

/-- The largest value of an `int` (32 bits, two's complement). -/
def INT_MAX : Int := 2147483647

/-- The value a 32-bit `int` holds after an operation whose mathematical result is `x`: the
result is reduced modulo `2^32` into `-2^31 .. 2^31 - 1`.  (C++ leaves signed overflow
undefined; this is what the two's complement machine instruction delivers.) -/
def wrapInt32 (x : Int) : Int := (x + 2147483648) % 4294967296 - 2147483648

/-- A value of the type `float` (IEEE 754 binary32): a finite value, which is a rational, one of
the two infinities, or a NaN.  The two zeros are one value `finite 0`: the sign of a zero shows
only in a division by it and in its text, and the embedded code divides by no zero that could be
negative. -/
inductive Binary32 where
  | finite (q : ℚ)
  | posInf
  | negInf
  | nan
  deriving DecidableEq, Repr

/-- The power `2^e` as a rational. -/
def twoPow (e : Int) : ℚ :=
  if 0 ≤ e then ((2 ^ e.toNat : Nat) : ℚ) else 1 / ((2 ^ (-e).toNat : Nat) : ℚ)

/-- The number of halvings that bring `n` below 2, at most `fuel` of them. -/
def halvings : Nat → Nat → Nat
  | 0, _ => 0
  | fuel + 1, n => if 2 ≤ n then halvings fuel (n / 2) + 1 else 0

/-- The exponent of a non-zero rational: the `e` with `2^e ≤ |x| < 2^(e+1)`.  The quotient of a
numerator in `[2^a, 2^(a+1))` by a denominator in `[2^b, 2^(b+1))` has exponent `a - b` or
`a - b - 1`. -/
def floorLog2 (x : ℚ) : Int :=
  let e : Int := (halvings x.num.natAbs x.num.natAbs : Int) - (halvings x.den x.den : Int)
  if twoPow e ≤ |x| then e else e - 1

/-- The rounding of an exact result to binary32, to nearest with ties to even: 24 significant
bits, the least exponent -126 (below it the spacing stays `2^-149`), and a result of magnitude
`2^128` or more is an infinity. -/
def roundBinary32 (x : ℚ) : Binary32 :=
  if x = 0 then .finite 0
  else
    let e : Int := max (floorLog2 x) (-126)
    let ulp : ℚ := twoPow (e - 23)
    let y : ℚ := rintf (x / ulp) * ulp
    if twoPow 128 ≤ |y| then (if 0 < x then .posInf else .negInf) else .finite y

/-- The `float` sum `a + b`. -/
def Binary32.add : Binary32 → Binary32 → Binary32
  | .finite a, .finite b => roundBinary32 (a + b)
  | .nan, _ => .nan
  | _, .nan => .nan
  | .posInf, .negInf => .nan
  | .negInf, .posInf => .nan
  | .posInf, _ => .posInf
  | _, .posInf => .posInf
  | .negInf, _ => .negInf
  | _, .negInf => .negInf

/-- The `float` product `a * b`. -/
def Binary32.mul : Binary32 → Binary32 → Binary32
  | .finite a, .finite b => roundBinary32 (a * b)
  | .nan, _ => .nan
  | _, .nan => .nan
  | .posInf, .finite b => if b = 0 then .nan else if 0 < b then .posInf else .negInf
  | .negInf, .finite b => if b = 0 then .nan else if 0 < b then .negInf else .posInf
  | .finite a, .posInf => if a = 0 then .nan else if 0 < a then .posInf else .negInf
  | .finite a, .negInf => if a = 0 then .nan else if 0 < a then .negInf else .posInf
  | .posInf, .posInf => .posInf
  | .posInf, .negInf => .negInf
  | .negInf, .posInf => .negInf
  | .negInf, .negInf => .posInf

/-- The `float` quotient `a / b`.  A zero divisor is taken as `+0`, which is what the conversion
of the `int` 0 gives. -/
def Binary32.div : Binary32 → Binary32 → Binary32
  | .finite a, .finite b =>
    if b = 0 then (if a = 0 then .nan else if 0 < a then .posInf else .negInf)
    else roundBinary32 (a / b)
  | .nan, _ => .nan
  | _, .nan => .nan
  | .finite _, _ => .finite 0
  | .posInf, .finite b => if 0 ≤ b then .posInf else .negInf
  | .negInf, .finite b => if 0 ≤ b then .negInf else .posInf
  | _, _ => .nan

/-- The comparison `a < b` of two `float`s; false when one is a NaN. -/
def Binary32.lt : Binary32 → Binary32 → Bool
  | .finite a, .finite b => decide (a < b)
  | .nan, _ => false
  | _, .nan => false
  | _, .negInf => false
  | .negInf, _ => true
  | .posInf, _ => false
  | _, .posInf => true

/-- The comparison `a >= b` of two `float`s; false when one is a NaN. -/
def Binary32.ge : Binary32 → Binary32 → Bool
  | .finite a, .finite b => decide (b ≤ a)
  | .nan, _ => false
  | _, .nan => false
  | _, .negInf => true
  | .posInf, _ => true
  | _, _ => false

/-- The comparison `a == b` of two `float`s; false when one is a NaN. -/
def Binary32.eq : Binary32 → Binary32 → Bool
  | .finite a, .finite b => decide (a = b)
  | .posInf, .posInf => true
  | .negInf, .negInf => true
  | _, _ => false

/-- The comparison `a != b` of two `float`s: the negation of `==`, so true when one is a NaN. -/
def Binary32.ne (a b : Binary32) : Bool := !(a.eq b)

/-- The conversion of an `int` to `float`. -/
def Binary32.ofInt (n : Int) : Binary32 := roundBinary32 (n : ℚ)

/-- The conversion `(int) x` of a `float`: the fractional part is dropped; C++ leaves the
conversion undefined when the result is not an `int` (a NaN, an infinity, a value out of range). -/
def Binary32.toInt : Binary32 → Except Fatal Int
  | .finite q =>
    if -2147483648 ≤ floatToInt q ∧ floatToInt q ≤ INT_MAX then .ok (floatToInt q)
    else .error .undefinedBehaviour
  | _ => .error .undefinedBehaviour

/-- The C library function `rintf` on a `float`, in the default rounding mode.  The nearest
integer of a finite `float` is a `float` (a `float` of magnitude `2^23` or more is an integer),
so nothing is rounded a second time. -/
def rintf32 : Binary32 → Binary32
  | .finite q => .finite (rintf q)
  | x => x

/-! The class `Matrix` on the machine types -/

/-- The members of `class Matrix` (Matrix.h, lines 24-25) with the machine types: a buffer of
binary32 cells and three 32-bit `int`s. -/
structure Matrix32 where
  _matrix : List Binary32
  _rows : Int
  _cols : Int
  _len : Int
  deriving DecidableEq, Repr

/-- The class invariant of the specification (at least one row and one column, a buffer of
`rows * cols` cells), for members that are `int`s: `_len`, hence each of the three, is at most
`INT_MAX`. -/
def Matrix32.WF (m : Matrix32) : Prop :=
  1 ≤ m._rows ∧ 1 ≤ m._cols ∧ m._len = m._rows * m._cols ∧ (m._matrix.length : Int) = m._len ∧
    m._len ≤ INT_MAX

instance (m : Matrix32) : Decidable m.WF := by unfold Matrix32.WF; infer_instance

/-- The buffer `new float[n]`; its cells are indeterminate until written (a fixed value other
than zero keeps the zero-fill of the constructor observable).  A negative `n`, which only an
overflowed product can give, makes the allocation fail. -/
def newFloatArray32 (n : Int) : Except Fatal (List Binary32) :=
  if 0 ≤ n then .ok (List.replicate n.toNat (.finite (-1))) else .error .undefinedBehaviour

/-- A raw read `_matrix[p]` of the buffer. -/
def Matrix32.load (m : Matrix32) (p : Nat) : Except Fatal Binary32 :=
  match m._matrix[p]? with
  | some v => .ok v
  | none => .error .undefinedBehaviour

/-- A raw write `_matrix[p] = v` of the buffer. -/
def Matrix32.store (m : Matrix32) (p : Nat) (v : Binary32) : Except Fatal Matrix32 :=
  if p < m._matrix.length then .ok { m with _matrix := m._matrix.set p v }
  else .error .undefinedBehaviour

/-- The mutable `float &Matrix::operator[](const int k)` (Matrix.cpp, lines 297-305): the
reference to cell `k`. -/
def Matrix32.opIndex (m : Matrix32) (k : Int) : Except Fatal Nat :=
  if 0 ≤ k ∧ k < m._len then .ok k.toNat else .error .indexOutOfRange

/-- The read-only `float Matrix::operator[](const int k) const` (Matrix.cpp, lines 308-316). -/
def Matrix32.opIndexConst (m : Matrix32) (k : Int) : Except Fatal Binary32 :=
  if 0 ≤ k ∧ k < m._len then m.load k.toNat else .error .indexOutOfRange

/-- The mutable `float &Matrix::operator()(const int i, const int j)` (Matrix.cpp,
lines 275-283). -/
def Matrix32.opCall (m : Matrix32) (i j : Int) : Except Fatal Nat :=
  if 0 ≤ i ∧ i < m._rows ∧ 0 ≤ j ∧ j < m._cols then m.opIndex (wrapInt32 (i * m._cols + j))
  else .error .indexOutOfRange

/-- The read-only `float Matrix::operator()(const int i, const int j) const` (Matrix.cpp,
lines 286-294).  Its last conjunct is `_cols`, an `int` used as a condition: true when it is
not zero. -/
def Matrix32.opCallConst (m : Matrix32) (i j : Int) : Except Fatal Binary32 :=
  if 0 ≤ i ∧ i < m._rows ∧ 0 ≤ j ∧ m._cols ≠ 0 then
    m.opIndexConst (wrapInt32 (i * m._cols + j))
  else .error .indexOutOfRange

/-- The statement `m[k] = v;` on a mutable matrix. -/
def Matrix32.assign (m : Matrix32) (k : Int) (v : Binary32) : Except Fatal Matrix32 := do
  let p ← m.opIndex k
  m.store p v

/-- An rvalue use of `m[k]` on a mutable matrix: the reference, then the read through it. -/
def Matrix32.read (m : Matrix32) (k : Int) : Except Fatal Binary32 := do
  let p ← m.opIndex k
  m.load p

/-- The constructor `Matrix::Matrix(int rows, int cols)` (Matrix.cpp, lines 29-44).  The
product `rows * cols` is an `int` product. -/
def Matrix32.ctor (rows cols : Int) : Except Fatal Matrix32 :=
  if rows < MINIMAL_MATRIX_SIZE ∨ cols < MINIMAL_MATRIX_SIZE then .error .invalidDimensions
  else do
    let _len : Int := wrapInt32 (rows * cols)
    let _matrix ← newFloatArray32 _len
    let this : Matrix32 := { _matrix := _matrix, _rows := rows, _cols := cols, _len := _len }
    forInt 0 this._len (fun i this => this.assign i (Binary32.ofInt 0)) this

/-- The default constructor `Matrix::Matrix()` (Matrix.cpp, line 47). -/
def Matrix32.default : Except Fatal Matrix32 :=
  Matrix32.ctor MINIMAL_MATRIX_SIZE MINIMAL_MATRIX_SIZE

/-- The copy constructor `Matrix::Matrix(const Matrix &m)` (Matrix.cpp, lines 50-56). -/
def Matrix32.copy (m : Matrix32) : Except Fatal Matrix32 := do
  let this ← Matrix32.ctor m._rows m._cols
  forInt 0 this._len (fun i this => do
    let v ← m.opIndexConst i
    this.assign i v) this

/-- The accessor `Matrix::getRows` (Matrix.cpp, lines 63-66). -/
def Matrix32.getRows (m : Matrix32) : Int := m._rows

/-- The accessor `Matrix::getCols` (Matrix.cpp, lines 68-71). -/
def Matrix32.getCols (m : Matrix32) : Int := m._cols

/-- The method `Matrix::vectorize` (Matrix.cpp, lines 74-79): `_cols = 1; _rows = _len;`; the
result is the updated object. -/
def Matrix32.vectorize (m : Matrix32) : Matrix32 := { m with _cols := 1, _rows := m._len }

/-- The assignment `Matrix::operator=(const Matrix &other)` (Matrix.cpp, lines 106-121); the
result is the updated `*this`.  `sameObject` says whether `this == &other`. -/
def Matrix32.opAssign (this other : Matrix32) (sameObject : Bool) : Except Fatal Matrix32 :=
  if sameObject then .ok this
  else do
    let _matrix ← newFloatArray32 other._len
    let this : Matrix32 :=
      { _matrix := _matrix, _rows := other._rows, _cols := other._cols, _len := other._len }
    forInt 0 this._len (fun i this => do
      let v ← other.opIndexConst i
      this.assign i v) this

/-- The product `Matrix::operator*(const Matrix &other) const` (Matrix.cpp, lines 128-147).
The statement `newMatrix(i, j) += a * b` rounds the product, then the sum. -/
def Matrix32.opMul (this other : Matrix32) : Except Fatal Matrix32 :=
  if this._cols = other._rows then do
    let newMatrix ← Matrix32.ctor this._rows other._cols
    forInt 0 this._rows (fun i newMatrix =>
      forInt 0 other._cols (fun j newMatrix =>
        forInt 0 this._cols (fun k newMatrix => do
          let a ← this.opCallConst i k
          let b ← other.opCallConst k j
          let p ← newMatrix.opCall i j
          let old ← newMatrix.load p
          newMatrix.store p (old.add (a.mul b))) newMatrix) newMatrix) newMatrix
  else .error .invalidDimensions

/-- The scaling `Matrix::operator*(const float scalar) const` (Matrix.cpp, lines 154-167). -/
def Matrix32.opMulScalar (this : Matrix32) (scalar : Binary32) : Except Fatal Matrix32 :=
  if scalar.eq (Binary32.ofInt 0) then Matrix32.ctor this._rows this._cols
  else do
    let newMatrix ← this.copy
    forInt 0 this._len (fun i newMatrix => do
      let p ← newMatrix.opIndex i
      let old ← newMatrix.load p
      newMatrix.store p (old.mul scalar)) newMatrix

/-- The friend `operator*(const float scalar, const Matrix &matrix)` (Matrix.cpp,
lines 174-187). -/
def scalarMul32 (scalar : Binary32) (matrix : Matrix32) : Except Fatal Matrix32 :=
  if scalar.eq (Binary32.ofInt 0) then Matrix32.ctor matrix._rows matrix._cols
  else do
    let newMatrix ← matrix.copy
    forInt 0 newMatrix._len (fun i newMatrix => do
      let p ← newMatrix.opIndex i
      let old ← newMatrix.load p
      newMatrix.store p (old.mul scalar)) newMatrix

/-- The compound `Matrix::operator*=(const Matrix &other)` (Matrix.cpp, lines 194-198): the
product, a temporary, is assigned to `*this`. -/
def Matrix32.opMulAssign (this other : Matrix32) : Except Fatal Matrix32 := do
  let product ← this.opMul other
  this.opAssign product false

/-- The compound `Matrix::operator*=(const float scalar)` (Matrix.cpp, lines 205-209). -/
def Matrix32.opMulScalarAssign (this : Matrix32) (scalar : Binary32) :
    Except Fatal Matrix32 := do
  let product ← this.opMulScalar scalar
  this.opAssign product false

/-- The division `Matrix::operator/(const float scalar) const` (Matrix.cpp, lines 216-232). -/
def Matrix32.opDiv (this : Matrix32) (scalar : Binary32) : Except Fatal Matrix32 :=
  if scalar.eq (Binary32.ofInt 0) then do
    forInt 0 this._len (fun i (_ : Unit) => do
      let v ← this.opIndexConst i
      if v.ne (Binary32.ofInt 0) then .error .divisionByZero else pure ()) ()
    this.copy
  else this.opMulScalar ((Binary32.ofInt 1).div scalar)

/-- The compound `Matrix::operator/=(const float scalar)` (Matrix.cpp, lines 235-239). -/
def Matrix32.opDivAssign (this : Matrix32) (scalar : Binary32) : Except Fatal Matrix32 := do
  let quotient ← this.opDiv scalar
  this.opAssign quotient false

/-- The sum `Matrix::operator+(const Matrix &other) const` (Matrix.cpp, lines 242-255). -/
def Matrix32.opAdd (this other : Matrix32) : Except Fatal Matrix32 :=
  if this._rows = other._rows ∧ this._cols = other._cols then do
    let newMatrix ← this.copy
    forInt 0 this._len (fun i newMatrix => do
      let v ← other.opIndexConst i
      let p ← newMatrix.opIndex i
      let old ← newMatrix.load p
      newMatrix.store p (old.add v)) newMatrix
  else .error .invalidDimensions

/-- The compound `Matrix::operator+=(const Matrix &other)` (Matrix.cpp, lines 258-262). -/
def Matrix32.opAddAssign (this other : Matrix32) : Except Fatal Matrix32 := do
  let sum ← this.opAdd other
  this.opAssign sum false

/-- The compound `Matrix::operator+=(const float scalar)` (Matrix.cpp, lines 265-272). -/
def Matrix32.opAddScalarAssign (this : Matrix32) (scalar : Binary32) : Except Fatal Matrix32 :=
  forInt 0 this._len (fun i this => do
    let p ← this.opIndex i
    let old ← this.load p
    this.store p (old.add scalar)) this

/-- The comparison `Matrix::operator==` (Matrix.cpp, lines 319-333). -/
def Matrix32.opEq (this other : Matrix32) : Except Fatal Bool :=
  if this._rows ≠ other._rows ∨ this._cols ≠ other._cols ∨ this._len ≠ other._len then .ok false
  else do
    let returned ← forIntReturn 0 this._len (fun i => do
      let a ← this.opIndexConst i
      let b ← other.opIndexConst i
      if a.ne b then .ok (some false) else .ok none)
    match returned with
    | some r => .ok r
    | none => .ok true

/-! The filters on the machine types -/

/-- The filter `normalize` (Filters.cpp, lines 31-45); the result is the updated `image`.  The
`int` constants are converted to `float` for the comparisons and the stores. -/
def normalize32 (image : Matrix32) : Except Fatal Matrix32 :=
  forInt 0 (wrapInt32 (image.getRows * image.getCols)) (fun i image => do
    let v ← image.read i
    if v.lt (Binary32.ofInt 0) then image.assign i (Binary32.ofInt FIRST_COLOR)
    else do
      let v ← image.read i
      if v.ge (Binary32.ofInt TOTAL_COLORS_SUM) then image.assign i (Binary32.ofInt LAST_COLOR)
      else pure image) image

/-- The helper `calculateValue` (Filters.cpp, lines 47-64); the result is the updated
`newMatrix`.  The statement `newVal += a * b` rounds the product, then the sum. -/
def calculateValue32 (matA matB : Matrix32) (i j : Int) (newMatrix : Matrix32) :
    Except Fatal Matrix32 := do
  let newVal ← forInt (-1) 2 (fun k newVal =>
    forInt (-1) 2 (fun l newVal =>
      if wrapInt32 (i + k) ≥ 0 ∧ wrapInt32 (j + l) ≥ 0 ∧ wrapInt32 (i + k) < matA.getRows ∧
          wrapInt32 (j + l) < matA.getCols then do
        let a ← matA.opCallConst (wrapInt32 (i + k)) (wrapInt32 (j + l))
        let b ← matB.opCallConst (CENTER_OF_B + k) (CENTER_OF_B + l)
        pure (newVal.add (a.mul b))
      else pure newVal) newVal) (Binary32.ofInt 0)
  let p ← newMatrix.opCall i j
  newMatrix.store p (rintf32 newVal)

/-- The filter `convolution` (Filters.cpp, lines 72-83). -/
def convolution32 (matA matB : Matrix32) : Except Fatal Matrix32 := do
  let newMatrix ← Matrix32.ctor matA.getRows matA.getCols
  forInt 0 matA.getRows (fun i newMatrix =>
    forInt 0 matA.getCols (fun j newMatrix =>
      calculateValue32 matA matB i j newMatrix) newMatrix) newMatrix

/-- The filter `quantization` (Filters.cpp, lines 91-114). -/
def quantization32 (image : Matrix32) (levels : Int) : Except Fatal Matrix32 := do
  let newImage ← Matrix32.ctor image.getRows image.getCols
  let colors ← newIntArray (wrapInt32 (levels + 1))
  let colors ← forInt 0 (wrapInt32 (levels + 1)) (fun i colors => do
    let w ← intDiv TOTAL_COLORS_SUM levels
    intArraySet colors i (wrapInt32 (i * w))) colors
  let averages ← newIntArray levels
  let averages ← forInt 0 levels (fun i averages => do
    let lo ← intArrayGet colors i
    let hi ← intArrayGet colors (wrapInt32 (i + 1))
    let avg ← intDiv (wrapInt32 (wrapInt32 (lo + hi) - 1)) 2
    intArraySet averages i avg) averages
  forInt 0 (wrapInt32 (image.getRows * image.getCols)) (fun i newImage => do
    let v ← image.opIndexConst i
    let w ← intDiv TOTAL_COLORS_SUM levels
    let indOfAvg ← (v.div (Binary32.ofInt w)).toInt
    let avg ← intArrayGet averages indOfAvg
    newImage.assign i (Binary32.ofInt avg)) newImage

/-- The kernel of `blur`: a 3 x 3 matrix filled from `values` (Filters.cpp, lines 123-128). -/
def blurConvoluator32 : Except Fatal Matrix32 := do
  let convoluator ← Matrix32.ctor 3 3
  let values : List Int := [1, 2, 1, 2, 4, 2, 1, 2, 1]
  forInt 0 9 (fun i convoluator => do
    let x ← intArrayGet values i
    convoluator.assign i (((Binary32.ofInt 1).div (Binary32.ofInt 16)).mul (Binary32.ofInt x)))
    convoluator

/-- The filter `blur` (Filters.cpp, lines 121-131). -/
def blur32 (image : Matrix32) : Except Fatal Matrix32 := do
  let convoluator ← blurConvoluator32
  let result ← convolution32 image convoluator
  let result ← normalize32 result
  result.copy

/-- A kernel of `sobel`: a 3 x 3 matrix filled from an `int` array scaled by 1/8 (Filters.cpp,
lines 140-145 and 147-152). -/
def sobelConvoluator32 (values : List Int) : Except Fatal Matrix32 := do
  let convoluator ← Matrix32.ctor 3 3
  forInt 0 9 (fun i convoluator => do
    let x ← intArrayGet values i
    convoluator.assign i (((Binary32.ofInt 1).div (Binary32.ofInt 8)).mul (Binary32.ofInt x)))
    convoluator

/-- The filter `sobel` (Filters.cpp, lines 138-156). -/
def sobel32 (image : Matrix32) : Except Fatal Matrix32 := do
  let xConvoluator ← sobelConvoluator32 [1, 0, -1, 2, 0, -2, 1, 0, -1]
  let xMat ← convolution32 image xConvoluator
  let yConvoluator ← sobelConvoluator32 [1, 2, 1, 0, 0, 0, -1, -2, -1]
  let yMat ← convolution32 image yConvoluator
  let result ← xMat.opAdd yMat
  let result ← normalize32 result
  result.copy

/-! Reading the results -/

/-- The cell at flat offset `k` of a matrix. -/
def Matrix32.flat (m : Matrix32) (k : Int) : Binary32 := m._matrix.getD k.toNat (.finite 0)

/-- The cell in row `i` and column `j` of a matrix, read from the row-major buffer. -/
def Matrix32.cell (m : Matrix32) (i j : Int) : Binary32 :=
  m._matrix.getD (i * m._cols + j).toNat (.finite 0)

/-- Two matrices that agree on the three `int`s and on the size of the buffer. -/
def Matrix32.SameShape (s m : Matrix32) : Prop :=
  s._rows = m._rows ∧ s._cols = m._cols ∧ s._len = m._len ∧ s._matrix.length = m._matrix.length

/-- The nine offsets `(k, l)` in the order in which `calculateValue` visits them. -/
def stencilOffsets : List (Int × Int) :=
  [(-1, -1), (-1, 0), (-1, 1), (0, -1), (0, 0), (0, 1), (1, -1), (1, 0), (1, 1)]

/-- One round of the inner loop of `calculateValue` for the offset `p = (k, l)`: when the
neighbour `(i + k, j + l)` lies inside `A`, the product `A(i + k, j + l) * B(1 + k, 1 + l)` is
rounded and added to `acc`, and the sum is rounded. -/
def stencilStep (A B : Matrix32) (i j : Int) (acc : Binary32) (p : Int × Int) : Binary32 :=
  if 0 ≤ i + p.1 ∧ i + p.1 < A._rows ∧ 0 ≤ j + p.2 ∧ j + p.2 < A._cols then
    acc.add ((A.cell (i + p.1) (j + p.2)).mul (B.cell (1 + p.1) (1 + p.2)))
  else acc

/-- The sum of the products `A(i + k, j + l) * B(1 + k, 1 + l)` over the offsets whose neighbour
lies inside `A`, accumulated in binary32 from 0 in the order of the loops. -/
def accumulatedStencil (A B : Matrix32) (i j : Int) : Binary32 :=
  stencilOffsets.foldl (stencilStep A B i j) (.finite 0)

/-- The sum of the first `n` products `A(i, k) * B(k, j)`, accumulated in binary32 from 0 in the
order `k = 0, 1, ..`: each product is rounded, then each partial sum. -/
def accumulatedDot (A B : Matrix32) (i j : Int) : Nat → Binary32
  | 0 => .finite 0
  | n + 1 => (accumulatedDot A B i j n).add ((A.cell i (n : Int)).mul (B.cell (n : Int) j))

/-- What `normalize` does to one cell. -/
def clampCell32 (v : Binary32) : Binary32 :=
  if v.lt (.finite 0) then .finite 0 else if v.ge (.finite 256) then .finite 255 else v


/-- The kernel that `blur` builds: `[[1, 2, 1], [2, 4, 2], [1, 2, 1]] / 16`; every entry is a
binary32 value. -/
def blurKernel32 : Matrix32 :=
  { _matrix := [.finite (1 / 16), .finite (2 / 16), .finite (1 / 16), .finite (2 / 16),
      .finite (4 / 16), .finite (2 / 16), .finite (1 / 16), .finite (2 / 16), .finite (1 / 16)],
    _rows := 3, _cols := 3, _len := 9 }

/-- The first kernel that `sobel` builds: `[[1, 0, -1], [2, 0, -2], [1, 0, -1]] / 8`. -/
def sobelXKernel32 : Matrix32 :=
  { _matrix := [.finite (1 / 8), .finite 0, .finite (-1 / 8), .finite (2 / 8), .finite 0,
      .finite (-2 / 8), .finite (1 / 8), .finite 0, .finite (-1 / 8)],
    _rows := 3, _cols := 3, _len := 9 }

/-- The second kernel that `sobel` builds: `[[1, 2, 1], [0, 0, 0], [-1, -2, -1]] / 8`. -/
def sobelYKernel32 : Matrix32 :=
  { _matrix := [.finite (1 / 8), .finite (2 / 8), .finite (1 / 8), .finite 0, .finite 0,
      .finite 0, .finite (-1 / 8), .finite (-2 / 8), .finite (-1 / 8)],
    _rows := 3, _cols := 3, _len := 9 }

/-! Sample matrices and the exact sums of the specification -/

/-- A rational that binary32 holds: rounding leaves it as it is. -/
def IsBinary32 (q : ℚ) : Prop := roundBinary32 q = .finite q

instance (q : ℚ) : Decidable (IsBinary32 q) := by unfold IsBinary32; infer_instance

/-- The rational a finite `float` stands for (0 for an infinity and for a NaN). -/
def Binary32.toRat : Binary32 → ℚ
  | .finite q => q
  | _ => 0

/-- The sum the specification gives for cell `(i, j)` of a convolution, in exact arithmetic: the
products `A(i + k, j + l) * B(1 + k, 1 + l)` over the offsets whose neighbour lies inside `A`. -/
def exactStencil (A B : Matrix32) (i j : Int) : ℚ :=
  ((stencilOffsets.filter (fun p =>
      0 ≤ i + p.1 ∧ i + p.1 < A._rows ∧ 0 ≤ j + p.2 ∧ j + p.2 < A._cols)).map
    (fun p => (A.cell (i + p.1) (j + p.2)).toRat * (B.cell (1 + p.1) (1 + p.2)).toRat)).sum

/-- The sum the specification gives for cell `(i, j)` of a product, in exact arithmetic: the
products `A(i, k) * B(k, j)` for `k = 0 .. A.cols - 1`. -/
def exactDot (A B : Matrix32) (i j : Int) : ℚ :=
  ((List.range A._cols.toNat).map
    (fun k => (A.cell i (k : Int)).toRat * (B.cell (k : Int) j).toRat)).sum

/-- A 2 x 2 matrix holding 1, 2, 3, 4 in row-major order. -/
def sample2x2 : Matrix32 :=
  { _matrix := [.finite 1, .finite 2, .finite 3, .finite 4], _rows := 2, _cols := 2, _len := 4 }

/-- A 3 x 3 matrix holding 10, 20, .., 90 in row-major order. -/
def sample3x3 : Matrix32 :=
  { _matrix := [.finite 10, .finite 20, .finite 30, .finite 40, .finite 50, .finite 60,
      .finite 70, .finite 80, .finite 90], _rows := 3, _cols := 3, _len := 9 }

/-- The 1 x 1 matrix holding `v`. -/
def singleCell32 (v : Binary32) : Matrix32 :=
  { _matrix := [v], _rows := 1, _cols := 1, _len := 1 }

/-- The 1 x 2 matrix holding `a` and `b`. -/
def rowOfTwo (a b : Binary32) : Matrix32 :=
  { _matrix := [a, b], _rows := 1, _cols := 2, _len := 2 }

/-- The 2 x 1 matrix holding `a` and `b`. -/
def columnOfTwo (a b : Binary32) : Matrix32 :=
  { _matrix := [a, b], _rows := 2, _cols := 1, _len := 2 }

/-- The 3 x 3 matrix whose nine cells all hold `c`. -/
def uniform3x3_32 (c : Binary32) : Matrix32 :=
  { _matrix := [c, c, c, c, c, c, c, c, c], _rows := 3, _cols := 3, _len := 9 }

/-- The 3 x 3 kernel whose centre entry `B(1, 1)` is 1 and whose other entries are 0. -/
def centerKernel32 : Matrix32 :=
  { _matrix := [.finite 0, .finite 0, .finite 0, .finite 0, .finite 1, .finite 0, .finite 0,
      .finite 0, .finite 0], _rows := 3, _cols := 3, _len := 9 }

/-- The 2 x 2 matrix with 1 on the diagonal and 0 elsewhere. -/
def identity2x2_32 : Matrix32 :=
  { _matrix := [.finite 1, .finite 0, .finite 0, .finite 1], _rows := 2, _cols := 2, _len := 4 }

/-- A column of 65536 zeros: a 65536 x 1 matrix. -/
def zeroColumn65536 : Matrix32 :=
  { _matrix := List.replicate 65536 (.finite 0), _rows := 65536, _cols := 1, _len := 65536 }

/-- A row of 65536 zeros: a 1 x 65536 matrix. -/
def zeroRow65536 : Matrix32 :=
  { _matrix := List.replicate 65536 (.finite 0), _rows := 1, _cols := 65536, _len := 65536 }

end ImageProcessor

namespace ImageProcessor

/-! Loops -/

theorem foldlM_range_inv {σ : Type} (lo : Int) (body : Int → σ → Except Fatal σ)
    (Inv : Int → σ → Prop) (n : Nat) (s : σ) (h0 : Inv lo s)
    (hstep : ∀ (k : Nat) (t : σ), k < n → Inv (lo + k) t →
      ∃ t', body (lo + k) t = .ok t' ∧ Inv (lo + k + 1) t') :
    ∃ r, (List.range n).foldlM (fun t (k : Nat) => body (lo + (k : Int)) t) s = .ok r ∧
      Inv (lo + n) r := by
  induction n with
  | zero => exact ⟨s, by simp [pure, Except.pure], by simpa using h0⟩
  | succ n ih =>
    obtain ⟨r, hr, hI⟩ := ih (fun k t hk hi => hstep k t (Nat.lt_succ_of_lt hk) hi)
    obtain ⟨t', ht', hI'⟩ := hstep n r (Nat.lt_succ_self n) hI
    refine ⟨t', ?_, ?_⟩
    · rw [List.range_succ, List.foldlM_append, hr]
      simp [List.foldlM, bind, Except.bind, ht', pure, Except.pure]
    · have : lo + ((n + 1 : Nat) : Int) = lo + n + 1 := by push_cast; ring
      rw [this]; exact hI'

/-- The invariant rule for a counted loop that starts at 0. -/
theorem forInt_inv {σ : Type} (n : Nat) (body : Int → σ → Except Fatal σ)
    (Inv : Nat → σ → Prop) (s : σ) (h0 : Inv 0 s)
    (hstep : ∀ (k : Nat) (t : σ), k < n → Inv k t →
      ∃ t', body (k : Int) t = .ok t' ∧ Inv (k + 1) t') :
    ∃ r, forInt 0 (n : Int) body s = .ok r ∧ Inv n r := by
  have h := foldlM_range_inv 0 body (fun i t => Inv i.toNat t) n s (by simpa using h0)
    (by
      intro k t hk hi
      have hi' : Inv k t := by simpa using hi
      obtain ⟨t', ht', hI'⟩ := hstep k t hk hi'
      refine ⟨t', by simpa using ht', ?_⟩
      have : ((0 : Int) + (k : Int) + 1).toNat = k + 1 := by omega
      simpa [this] using hI')
  obtain ⟨r, hr, hI⟩ := h
  refine ⟨r, ?_, by simpa using hI⟩
  unfold forInt
  simpa using hr

/-- A counted loop whose bound is not above its start does nothing. -/
theorem forInt_empty {σ : Type} (lo hi : Int) (h : hi ≤ lo) (body : Int → σ → Except Fatal σ)
    (s : σ) : forInt lo hi body s = .ok s := by
  unfold forInt
  have : (hi - lo).toNat = 0 := by omega
  rw [this]
  rfl

/-- The loop `for (int k = -1; k < 2; k++)` runs its body for -1, 0 and 1. -/
theorem forInt_neg_one_two {σ : Type} (body : Int → σ → Except Fatal σ) (s : σ) :
    forInt (-1) 2 body s = (do
      let a ← body (-1) s
      let b ← body 0 a
      body 1 b) := by
  unfold forInt
  have : ((2 : Int) - (-1)).toNat = 3 := by decide
  rw [this]
  simp [List.range_succ, List.foldlM, bind, Except.bind]
  cases body (-1) s <;> simp [pure, Except.pure]
  rename_i a
  cases body 0 a <;> simp
  rename_i b
  cases body 1 b <;> simp

end ImageProcessor

namespace ImageProcessor

/-! Reads and writes of the buffer -/

theorem SameShape.refl (m : Matrix) : m.SameShape m := ⟨rfl, rfl, rfl, rfl⟩

theorem SameShape.trans {a b c : Matrix} (h₁ : a.SameShape b) (h₂ : b.SameShape c) :
    a.SameShape c :=
  ⟨h₁.1.trans h₂.1, h₁.2.1.trans h₂.2.1, h₁.2.2.1.trans h₂.2.2.1, h₁.2.2.2.trans h₂.2.2.2⟩

theorem SameShape.wf {a b : Matrix} (h : a.SameShape b) (hb : b.WF) : a.WF := by
  obtain ⟨h1, h2, h3, h4⟩ := h
  obtain ⟨w1, w2, w3, w4⟩ := hb
  exact ⟨h1 ▸ w1, h2 ▸ w2, by rw [h3, h1, h2]; exact w3, by rw [h4, h3]; exact w4⟩

theorem load_of_getElem? (m : Matrix) (p : Nat) (v : ℚ) (h : m._matrix[p]? = some v) :
    m.load p = .ok v := by
  simp [Matrix.load, h]

theorem flat_of_getElem? (m : Matrix) (p : Nat) (v : ℚ) (h : m._matrix[p]? = some v) :
    m.flat (p : Int) = v := by
  simp [Matrix.flat, List.getD, h]

theorem getElem?_flat (m : Matrix) (p : Nat) (h : p < m._matrix.length) :
    m._matrix[p]? = some (m.flat (p : Int)) := by
  simp [Matrix.flat, List.getD, List.getElem?_eq_getElem h]

/-- A checked write `m[k] = v` inside the buffer succeeds and changes cell `k` only. -/
theorem assign_ok (m : Matrix) (k : Nat) (v : ℚ) (hk : (k : Int) < m._len)
    (hl : k < m._matrix.length) :
    ∃ s, m.assign (k : Int) v = .ok s ∧ s.SameShape m ∧ s._matrix[k]? = some v ∧
      ∀ j, j ≠ k → s._matrix[j]? = m._matrix[j]? := by
  refine ⟨{ m with _matrix := m._matrix.set k v }, ?_, ⟨rfl, rfl, rfl, by simp⟩, ?_, ?_⟩
  · simp [Matrix.assign, Matrix.opIndex, Matrix.store, hk, hl, bind, Except.bind]
  · simp [List.getElem?_set, hl]
  · intro j hj
    simp [List.getElem?_set, Ne.symm hj]

/-- A checked read `m[k]` inside the buffer succeeds with the cell. -/
theorem opIndexConst_ok (m : Matrix) (k : Nat) (hk : (k : Int) < m._len)
    (hl : k < m._matrix.length) : m.opIndexConst (k : Int) = .ok (m.flat (k : Int)) := by
  simp [Matrix.opIndexConst, hk, load_of_getElem? m k _ (getElem?_flat m k hl)]

theorem read_ok (m : Matrix) (k : Nat) (hk : (k : Int) < m._len)
    (hl : k < m._matrix.length) : m.read (k : Int) = .ok (m.flat (k : Int)) := by
  simp [Matrix.read, Matrix.opIndex, hk, bind, Except.bind,
    load_of_getElem? m k _ (getElem?_flat m k hl)]

/-- A loop that settles one cell per round, in the order of the flat offsets. -/
theorem forInt_cells (m0 : Matrix) (n : Nat) (body : Int → Matrix → Except Fatal Matrix)
    (g : Nat → ℚ)
    (hbody : ∀ (i : Nat) (s : Matrix), i < n → s.SameShape m0 →
      (∀ k, i ≤ k → s._matrix[k]? = m0._matrix[k]?) →
      ∃ s', body (i : Int) s = .ok s' ∧ s'.SameShape s ∧ s'._matrix[i]? = some (g i) ∧
        ∀ k, k ≠ i → s'._matrix[k]? = s._matrix[k]?) :
    ∃ r, forInt 0 (n : Int) body m0 = .ok r ∧ r.SameShape m0 ∧
      (∀ k, k < n → r._matrix[k]? = some (g k)) ∧
      (∀ k, n ≤ k → r._matrix[k]? = m0._matrix[k]?) := by
  apply forInt_inv n body (fun i s => s.SameShape m0 ∧
      (∀ k, k < i → s._matrix[k]? = some (g k)) ∧
      (∀ k, i ≤ k → s._matrix[k]? = m0._matrix[k]?)) m0
  · exact ⟨SameShape.refl m0, fun k hk => absurd hk (Nat.not_lt_zero k), fun _ _ => rfl⟩
  · rintro i s hi ⟨hs, hdone, hrest⟩
    obtain ⟨s', hb, hs', hi', hoth⟩ := hbody i s hi hs hrest
    refine ⟨s', hb, SameShape.trans hs' hs, ?_, ?_⟩
    · intro k hk
      rcases Nat.lt_succ_iff_lt_or_eq.mp hk with h | h
      · rw [hoth k (Nat.ne_of_lt h)]; exact hdone k h
      · rw [h]; exact hi'
    · intro k hk
      rw [hoth k (by omega)]; exact hrest k (by omega)

/-! The constructors -/

/-- The constructor on dimensions that are at least 1: the three `int`s are set and every cell
of the buffer is 0. -/
theorem ctor_ok (rows cols : Int) (hr : 1 ≤ rows) (hc : 1 ≤ cols) :
    Matrix.ctor rows cols = .ok
      { _matrix := List.replicate (rows * cols).toNat 0, _rows := rows, _cols := cols,
        _len := rows * cols } := by
  have hpos : 0 ≤ rows * cols := by positivity
  obtain ⟨n, hn⟩ := Int.eq_ofNat_of_zero_le hpos
  have hlen : (newFloatArray (rows * cols)).length = n := by simp [newFloatArray, hn]
  obtain ⟨r, hrun, hshape, hdone, -⟩ := forInt_cells
    { _matrix := newFloatArray (rows * cols), _rows := rows, _cols := cols, _len := rows * cols }
    n (fun i this => this.assign i 0) (fun _ => 0) (by
      intro i s hi hs _
      exact assign_ok s i 0 (by rw [hs.2.2.1]; simp [hn]; exact hi) (by rw [hs.2.2.2, hlen]; exact hi))
  have hdata : r._matrix = List.replicate n 0 := by
    apply List.ext_getElem?
    intro k
    by_cases hk : k < n
    · rw [hdone k hk]; simp [List.getElem?_replicate, hk]
    · have h1 : r._matrix.length ≤ k := by rw [hshape.2.2.2, hlen]; omega
      simp [List.getElem?_eq_none h1, List.getElem?_replicate, hk]
  have hctor : Matrix.ctor rows cols = .ok r := by
    simp only [Matrix.ctor]
    rw [if_neg (by omega)]
    rw [← hrun]; simp [hn]
  rw [hctor]
  obtain ⟨h1, h2, h3, -⟩ := hshape
  cases r
  simp_all

end ImageProcessor

namespace ImageProcessor

theorem ok_bind {α β : Type} (a : α) (f : α → Except Fatal β) : (Except.ok a >>= f) = f a := rfl

theorem error_bind {α β : Type} (e : Fatal) (f : α → Except Fatal β) :
    ((Except.error e : Except Fatal α) >>= f) = .error e := rfl

/-- A raw write inside the buffer succeeds and changes cell `p` only. -/
theorem store_ok (m : Matrix) (p : Nat) (v : ℚ) (hl : p < m._matrix.length) :
    ∃ s, m.store p v = .ok s ∧ s.SameShape m ∧ s._matrix[p]? = some v ∧
      ∀ j, j ≠ p → s._matrix[j]? = m._matrix[j]? := by
  refine ⟨{ m with _matrix := m._matrix.set p v }, ?_, ⟨rfl, rfl, rfl, by simp⟩, ?_, ?_⟩
  · simp [Matrix.store, hl]
  · simp [List.getElem?_set, hl]
  · intro j hj
    simp [List.getElem?_set, Ne.symm hj]

/-- Two buffers of one size with the same cells are the same buffer. -/
theorem buffer_ext (a b : List ℚ) (hlen : a.length = b.length)
    (h : ∀ k, k < b.length → a[k]? = b[k]?) : a = b := by
  apply List.ext_getElem?
  intro k
  by_cases hk : k < b.length
  · exact h k hk
  · rw [List.getElem?_eq_none (by omega), List.getElem?_eq_none (by omega)]

/-- The copy constructor yields its argument: same shape, same cells. -/
theorem copy_ok (m : Matrix) (h : m.WF) : m.copy = .ok m := by
  obtain ⟨h1, h2, h3, h4⟩ := h
  have hn : ((m._rows * m._cols).toNat : Int) = m._rows * m._cols := by
    rw [← h3, ← h4]; simp
  have hnl : (m._rows * m._cols).toNat = m._matrix.length := by
    rw [← h3, ← h4]; simp
  obtain ⟨r, hrun, hshape, hdone, -⟩ := forInt_cells
    { _matrix := List.replicate (m._rows * m._cols).toNat 0, _rows := m._rows, _cols := m._cols,
      _len := m._rows * m._cols }
    m._matrix.length
    (fun i this => do
      let v ← m.opIndexConst i
      this.assign i v) (fun k => m.flat (k : Int)) (by
      intro i s hi hs _
      have hv : m.opIndexConst (i : Int) = .ok (m.flat (i : Int)) :=
        opIndexConst_ok m i (by rw [← h4]; exact_mod_cast hi) hi
      simp only [hv, bind, Except.bind]
      exact assign_ok s i _ (by rw [hs.2.2.1]; simp only []; rw [← h3, ← h4]; exact_mod_cast hi)
        (by rw [hs.2.2.2]; simp [hnl]; exact hi))
  have hdata : r._matrix = m._matrix := by
    apply buffer_ext
    · rw [hshape.2.2.2]; simp [hnl]
    · intro k hk
      rw [hdone k hk, getElem?_flat m k hk]
  have hcopy : m.copy = .ok r := by
    have e : m._rows * m._cols = (m._matrix.length : Int) := by rw [h4, h3]
    unfold Matrix.copy
    rw [ctor_ok m._rows m._cols h1 h2]
    rw [ok_bind]
    dsimp only
    rw [e] at hrun ⊢
    exact hrun
  rw [hcopy]
  obtain ⟨e1, e2, e3, -⟩ := hshape
  cases r
  cases m
  simp_all

/-! Element access -/

/-- The read-only `(i, j)` accessor on a cell of the matrix returns that cell. -/
theorem opCallConst_ok (m : Matrix) (h : m.WF) (i j : Int) (hi0 : 0 ≤ i) (hi1 : i < m._rows)
    (hj0 : 0 ≤ j) (hj1 : j < m._cols) : m.opCallConst i j = .ok (m.cell i j) := by
  obtain ⟨h1, h2, h3, h4⟩ := h
  have hk0 : 0 ≤ i * m._cols + j := add_nonneg (mul_nonneg hi0 (by omega)) hj0
  have hk : i * m._cols + j < m._len := by
    rw [h3]; nlinarith
  obtain ⟨n, hn⟩ := Int.eq_ofNat_of_zero_le hk0
  have hc : 0 ≤ i ∧ i < m._rows ∧ 0 ≤ j ∧ m._cols ≠ 0 := ⟨hi0, hi1, hj0, by omega⟩
  simp only [Matrix.opCallConst, if_pos hc, Matrix.cell, hn]
  have := opIndexConst_ok m n (by rw [← hn]; exact hk) (by rw [← h4] at hk; omega)
  rw [this]; simp [Matrix.flat]

/-- The mutable `(i, j)` accessor on a cell of the matrix returns the offset of that cell. -/
theorem opCall_ok (m : Matrix) (h3 : m._len = m._rows * m._cols) (i j : Int) (hi0 : 0 ≤ i)
    (hi1 : i < m._rows) (hj0 : 0 ≤ j) (hj1 : j < m._cols) :
    m.opCall i j = .ok (i * m._cols + j).toNat := by
  have hk0 : 0 ≤ i * m._cols + j := add_nonneg (mul_nonneg hi0 (by omega)) hj0
  have hk : i * m._cols + j < m._len := by
    rw [h3]; nlinarith
  simp [Matrix.opCall, Matrix.opIndex, hi0, hi1, hj0, hj1, hk0, hk]

end ImageProcessor

namespace ImageProcessor

/-- One more round of a counted loop. -/
theorem forInt_succ {σ : Type} (n : Nat) (body : Int → σ → Except Fatal σ) (s : σ) :
    forInt 0 ((n + 1 : Nat) : Int) body s = forInt 0 (n : Int) body s >>= body (n : Int) := by
  unfold forInt
  have h1 : (((n + 1 : Nat) : Int) - 0).toNat = n + 1 := by omega
  have h2 : ((n : Int) - 0).toNat = n := by omega
  rw [h1, h2, List.range_succ, List.foldlM_append]
  congr 1
  funext t
  simp [List.foldlM]

/-- A loop that only checks: it succeeds when every round does, and stops with the error of a
round that fails. -/
theorem forInt_check (n : Nat) (body : Int → Unit → Except Fatal Unit) (e : Fatal)
    (h : ∀ k : Nat, k < n → body (k : Int) () = .ok () ∨ body (k : Int) () = .error e) :
    (forInt 0 (n : Int) body () = .ok () ∧ ∀ k : Nat, k < n → body (k : Int) () = .ok ()) ∨
    (forInt 0 (n : Int) body () = .error e ∧ ∃ k : Nat, k < n ∧ body (k : Int) () = .error e) := by
  induction n with
  | zero =>
    left
    exact ⟨forInt_empty 0 _ (le_refl _) body (), fun k hk => absurd hk (Nat.not_lt_zero k)⟩
  | succ n ih =>
    rcases ih (fun k hk => h k (Nat.lt_succ_of_lt hk)) with ⟨hok, hall⟩ | ⟨herr, k, hk, hke⟩
    · rcases h n (Nat.lt_succ_self n) with hn | hn
      · left
        refine ⟨by rw [forInt_succ, hok, ok_bind, hn], ?_⟩
        intro k hk
        rcases Nat.lt_succ_iff_lt_or_eq.mp hk with h' | h'
        · exact hall k h'
        · rw [h']; exact hn
      · right
        exact ⟨by rw [forInt_succ, hok, ok_bind, hn], n, Nat.lt_succ_self n, hn⟩
    · right
      exact ⟨by rw [forInt_succ, herr, error_bind], k, Nat.lt_succ_of_lt hk, hke⟩

/-! Arithmetic operators -/

end ImageProcessor

namespace ImageProcessor

/-! The filter `normalize` -/

/-- The filter `normalize` on any matrix: it succeeds, keeps the shape, and replaces each cell that is
below 0 by 0, each cell that is at least 256 by 255, and leaves every other cell as it is. -/
theorem normalize_ok (M : Matrix) (hM : M.WF) :
    ∃ R, normalize M = .ok R ∧ R.SameShape M ∧
      ∀ k : Nat, k < M._matrix.length → R._matrix[k]? = some
        (if M.flat k < 0 then 0 else if 256 ≤ M.flat k then 255 else M.flat k) := by
  have hlenM := hM.2.2.2
  obtain ⟨R, hrun, hshape, hdone, -⟩ := forInt_cells M M._matrix.length
    (fun i image => do
      let v ← image.read i
      if v < (0 : Int) then image.assign i FIRST_COLOR
      else do
        let v ← image.read i
        if v ≥ TOTAL_COLORS_SUM then image.assign i LAST_COLOR
        else pure image)
    (fun k => if M.flat k < 0 then 0 else if 256 ≤ M.flat k then 255 else M.flat k) (by
      intro i s hi hs hrest
      have hlt : (i : Int) < s._len := by rw [hs.2.2.1, ← hlenM]; exact_mod_cast hi
      have hls : i < s._matrix.length := by rw [hs.2.2.2]; exact hi
      have hsi : s._matrix[i]? = some (M.flat (i : Int)) := by
        rw [hrest i (le_refl i)]; exact getElem?_flat M i hi
      have hflat : s.flat (i : Int) = M.flat (i : Int) := flat_of_getElem? s i _ hsi
      have hread : s.read (i : Int) = .ok (M.flat (i : Int)) := by
        rw [read_ok s i hlt hls, hflat]
      beta_reduce
      rw [hread, ok_bind]
      by_cases h0 : M.flat (i : Int) < 0
      · have h0' : M.flat (i : Int) < ((0 : Int) : ℚ) := by simpa using h0
        rw [if_pos h0', if_pos h0]
        have := assign_ok s i (FIRST_COLOR : ℚ) hlt hls
        simpa [FIRST_COLOR] using this
      · have h0' : ¬ M.flat (i : Int) < ((0 : Int) : ℚ) := by simpa using h0
        rw [if_neg h0', if_neg h0, ok_bind]
        by_cases h1 : 256 ≤ M.flat (i : Int)
        · have h1' : M.flat (i : Int) ≥ (TOTAL_COLORS_SUM : ℚ) := by
            simpa [TOTAL_COLORS_SUM] using h1
          rw [if_pos h1', if_pos h1]
          have := assign_ok s i (LAST_COLOR : ℚ) hlt hls
          simpa [LAST_COLOR] using this
        · have h1' : ¬ M.flat (i : Int) ≥ (TOTAL_COLORS_SUM : ℚ) := by
            simpa [TOTAL_COLORS_SUM] using h1
          rw [if_neg h1', if_neg h1]
          exact ⟨s, rfl, SameShape.refl s, hsi, fun _ _ => rfl⟩)
  refine ⟨R, ?_, hshape, hdone⟩
  unfold normalize Matrix.getRows Matrix.getCols
  rw [← hM.2.2.1, ← hlenM]
  exact hrun

end ImageProcessor

namespace ImageProcessor

/-! The filter `quantization` -/

/-- A loop over an `int` array that settles one cell per round, in the order of the offsets. -/
theorem forInt_intCells (a0 : List Int) (n : Nat)
    (body : Int → List Int → Except Fatal (List Int)) (g : Nat → Int)
    (hbody : ∀ (i : Nat) (a : List Int), i < n → a.length = a0.length →
      ∃ a', body (i : Int) a = .ok a' ∧ a'.length = a.length ∧ a'[i]? = some (g i) ∧
        ∀ k, k ≠ i → a'[k]? = a[k]?) :
    ∃ r, forInt 0 (n : Int) body a0 = .ok r ∧ r.length = a0.length ∧
      ∀ k, k < n → r[k]? = some (g k) := by
  apply forInt_inv n body (fun i a => a.length = a0.length ∧ ∀ k, k < i → a[k]? = some (g k)) a0
  · exact ⟨rfl, fun k hk => absurd hk (Nat.not_lt_zero k)⟩
  · rintro i a hi ⟨hlen, hdone⟩
    obtain ⟨a', hb, hlen', hi', hoth⟩ := hbody i a hi hlen
    refine ⟨a', hb, hlen'.trans hlen, ?_⟩
    intro k hk
    rcases Nat.lt_succ_iff_lt_or_eq.mp hk with h | h
    · rw [hoth k (Nat.ne_of_lt h)]; exact hdone k h
    · rw [h]; exact hi'

/-- A raw write inside an `int` array succeeds and changes cell `i` only. -/
theorem intArraySet_ok (a : List Int) (i : Nat) (v : Int) (hi : i < a.length) :
    ∃ a', intArraySet a (i : Int) v = .ok a' ∧ a'.length = a.length ∧ a'[i]? = some v ∧
      ∀ k, k ≠ i → a'[k]? = a[k]? := by
  refine ⟨a.set i v, ?_, by simp, ?_, ?_⟩
  · simp [intArraySet, hi]
  · simp [List.getElem?_set, hi]
  · intro k hk
    simp [List.getElem?_set, Ne.symm hk]

/-- A raw read of a cell of an `int` array succeeds with the cell. -/
theorem intArrayGet_ok (a : List Int) (i : Nat) (v : Int) (h : a[i]? = some v) :
    intArrayGet a (i : Int) = .ok v := by
  simp [intArrayGet, h]

/-- The conversion to `int` of a `float` that is not negative is its floor. -/
theorem floatToInt_of_nonneg (x : ℚ) (h : 0 ≤ x) : floatToInt x = ⌊x⌋ := by
  simp [floatToInt, h]

/-- The bucket of a pixel in [0, 256) is a valid offset of the table of `levels` averages when
`levels * w = 256`. -/
theorem bucket_bounds (v : ℚ) (levels w : Int) (hw : 1 ≤ w) (hlw : levels * w = 256)
    (hv0 : 0 ≤ v) (hv : v < 256) :
    0 ≤ floatToInt (v / (w : ℚ)) ∧ floatToInt (v / (w : ℚ)) < levels := by
  have hwq : (0 : ℚ) < (w : ℚ) := by exact_mod_cast (by omega : (0 : Int) < w)
  have hnn : 0 ≤ v / (w : ℚ) := div_nonneg hv0 hwq.le
  rw [floatToInt_of_nonneg _ hnn]
  refine ⟨Int.floor_nonneg.mpr hnn, ?_⟩
  rw [Int.floor_lt, div_lt_iff₀ hwq]
  have : ((levels * w : Int) : ℚ) = 256 := by rw [hlw]; norm_num
  push_cast at this
  rw [this]
  exact hv

/-- The filter `quantization` for a number of levels that divides 256, on an image whose cells lie
in [0, 256): it succeeds, keeps the shape, and replaces each cell `v` by the average
`(b + (b + w) - 1) / 2` of its bucket, where `w = 256 / levels` and `b = ⌊v / w⌋ * w`. -/
theorem quantization_ok (image : Matrix) (levels : Int) (hI : image.WF) (h1 : 1 ≤ levels)
    (hd : levels ∣ 256)
    (hcells : ∀ k : Nat, k < image._matrix.length → 0 ≤ image.flat k ∧ image.flat k < 256) :
    ∃ R, quantization image levels = .ok R ∧ R.WF ∧ R._rows = image._rows ∧
      R._cols = image._cols ∧
      ∀ k : Nat, k < image._matrix.length → R._matrix[k]? = some
        (((⌊image.flat k / ((256 / levels : Int) : ℚ)⌋ * (256 / levels) +
          (⌊image.flat k / ((256 / levels : Int) : ℚ)⌋ * (256 / levels) + 256 / levels) - 1) / 2
            : Int) : ℚ) := by
  obtain ⟨hr, hc, hlen, hbuf⟩ := hI
  have hI : image.WF := ⟨hr, hc, hlen, hbuf⟩
  have hlw : levels * (256 / levels) = 256 := Int.mul_ediv_cancel' hd
  have hw : 1 ≤ 256 / levels := by
    by_contra hcon
    have h0 : 256 / levels ≤ 0 := by omega
    have : levels * (256 / levels) ≤ 0 := Int.mul_nonpos_of_nonneg_of_nonpos (by omega) h0
    omega
  have hdiv : intDiv TOTAL_COLORS_SUM levels = .ok (256 / levels) := by
    unfold intDiv TOTAL_COLORS_SUM
    rw [if_neg (by omega), Int.tdiv_eq_ediv (by norm_num) (by omega)]
  obtain ⟨L, hL⟩ := Int.eq_ofNat_of_zero_le (by omega : 0 ≤ levels)
  subst hL
  -- the table of bucket boundaries
  obtain ⟨colors, hcolors, hcl, hcv⟩ := forInt_intCells (List.replicate (L + 1) (-1)) (L + 1)
    (fun i colors => do
      let w ← intDiv TOTAL_COLORS_SUM (L : Int)
      intArraySet colors i (i * w)) (fun k => (k : Int) * (256 / (L : Int))) (by
      intro i a hi hla
      beta_reduce
      rw [hdiv, ok_bind]
      exact intArraySet_ok a i _ (by rw [hla]; simpa using hi))
  -- the table of bucket averages
  obtain ⟨averages, haverages, hal, hav⟩ := forInt_intCells (List.replicate L (-1)) L
    (fun i averages => do
      let lo ← intArrayGet colors i
      let hi ← intArrayGet colors (i + 1)
      let avg ← intDiv (lo + hi - 1) 2
      intArraySet averages i avg)
    (fun k => ((k : Int) * (256 / (L : Int)) + ((k : Int) * (256 / (L : Int)) + 256 / (L : Int)) - 1) / 2)
    (by
      intro i a hi hla
      have hlo := intArrayGet_ok colors i _ (hcv i (by omega))
      have hhi : intArrayGet colors ((i : Int) + 1) = .ok (((i + 1 : Nat) : Int) * (256 / (L : Int))) := by
        have := intArrayGet_ok colors (i + 1) _ (hcv (i + 1) (by omega))
        simpa using this
      have hi0 : (0 : Int) ≤ (i : Int) * (256 / (L : Int)) :=
        Int.mul_nonneg (Int.ofNat_nonneg i) (by omega)
      have havg : intDiv ((i : Int) * (256 / (L : Int)) + ((i + 1 : Nat) : Int) * (256 / (L : Int)) - 1) 2
          = .ok (((i : Int) * (256 / (L : Int)) + ((i : Int) * (256 / (L : Int)) + 256 / (L : Int)) - 1) / 2) := by
        unfold intDiv
        rw [if_neg (by norm_num)]
        have e : ((i + 1 : Nat) : Int) * (256 / (L : Int)) = (i : Int) * (256 / (L : Int)) + 256 / (L : Int) := by
          push_cast; ring
        rw [e, Int.tdiv_eq_ediv (by omega) (by norm_num)]
      beta_reduce
      rw [hlo, ok_bind, hhi, ok_bind, havg, ok_bind]
      exact intArraySet_ok a i _ (by rw [hla]; simpa using hi))
  -- the pixels
  have hnI : (image._matrix.length : Int) = image._rows * image._cols := by rw [hbuf, hlen]
  have hctor := ctor_ok image._rows image._cols hr hc
  obtain ⟨R, hrun, hshape, hdone, -⟩ := forInt_cells
    { _matrix := List.replicate (image._rows * image._cols).toNat 0, _rows := image._rows,
      _cols := image._cols, _len := image._rows * image._cols }
    image._matrix.length
    (fun i newImage => do
      let v ← image.opIndexConst i
      let w ← intDiv TOTAL_COLORS_SUM (L : Int)
      if w = 0 then .error .undefinedBehaviour
      else do
        let indOfAvg := floatToInt (v / (w : ℚ))
        let avg ← intArrayGet averages indOfAvg
        newImage.assign i (avg : ℚ))
    (fun k => (((⌊image.flat k / ((256 / (L : Int) : Int) : ℚ)⌋ * (256 / (L : Int)) +
          (⌊image.flat k / ((256 / (L : Int) : Int) : ℚ)⌋ * (256 / (L : Int)) + 256 / (L : Int)) - 1) / 2
            : Int) : ℚ))
    (by
      intro i s hi hs _
      have hv := opIndexConst_ok image i (by rw [← hbuf]; exact_mod_cast hi) hi
      obtain ⟨hv0, hv1⟩ := hcells i hi
      obtain ⟨hb0, hb1⟩ := bucket_bounds (image.flat i) (L : Int) (256 / (L : Int)) hw hlw hv0 hv1
      have hwq : (0 : ℚ) < ((256 / (L : Int) : Int) : ℚ) := by
        exact_mod_cast (by omega : (0 : Int) < 256 / (L : Int))
      have hfl : floatToInt (image.flat i / ((256 / (L : Int) : Int) : ℚ)) =
          ⌊image.flat i / ((256 / (L : Int) : Int) : ℚ)⌋ :=
        floatToInt_of_nonneg _ (div_nonneg hv0 hwq.le)
      obtain ⟨b, hb⟩ := Int.eq_ofNat_of_zero_le hb0
      have hbL : b < L := by omega
      have hget := intArrayGet_ok averages b _ (hav b hbL)
      beta_reduce
      rw [hv, ok_bind, hdiv, ok_bind, if_neg (by omega)]
      dsimp only
      rw [hb, hget, ok_bind, ← hb, hfl]
      exact assign_ok s i _ (by rw [hs.2.2.1]; simp only []; rw [← hnI]; exact_mod_cast hi)
        (by rw [hs.2.2.2]; simp only [List.length_replicate]; omega))
  refine ⟨R, ?_, ?_, hshape.1, hshape.2.1, hdone⟩
  · unfold quantization Matrix.getRows Matrix.getCols
    rw [hctor, ok_bind]
    have hnew1 : newIntArray ((L : Int) + 1) = .ok (List.replicate (L + 1) (-1)) := by
      unfold newIntArray
      rw [if_pos (by omega)]
      have : ((L : Int) + 1).toNat = L + 1 := by omega
      rw [this]
    have hnew2 : newIntArray (L : Int) = .ok (List.replicate L (-1)) := by
      unfold newIntArray
      rw [if_pos (by omega)]
      have : (L : Int).toNat = L := by omega
      rw [this]
    have hb1 : (L : Int) + 1 = ((L + 1 : Nat) : Int) := by omega
    rw [hnew1, ok_bind, hb1, hcolors, ok_bind, hnew2, ok_bind, haverages, ok_bind]
    rw [← hnI] at hrun ⊢
    exact hrun
  · exact SameShape.wf hshape ⟨hr, hc, rfl, by simp; omega⟩

end ImageProcessor

namespace ImageProcessor

/-! Loops over rows and columns -/

/-- Two nested loops, over the rows and over the columns, that settle one cell per inner round:
cell `(i, j)` is at flat offset `i * cols + j`, and the rounds visit the offsets in order. -/
theorem forInt_cells2 (m0 : Matrix) (rows cols : Nat)
    (body : Int → Int → Matrix → Except Fatal Matrix) (g : Nat → Nat → ℚ)
    (hbody : ∀ (i j : Nat) (s : Matrix), i < rows → j < cols → s.SameShape m0 →
      (∀ k, i * cols + j ≤ k → s._matrix[k]? = m0._matrix[k]?) →
      ∃ s', body (i : Int) (j : Int) s = .ok s' ∧ s'.SameShape s ∧
        s'._matrix[i * cols + j]? = some (g i j) ∧
        ∀ k, k ≠ i * cols + j → s'._matrix[k]? = s._matrix[k]?) :
    ∃ r, forInt 0 (rows : Int) (fun i s => forInt 0 (cols : Int) (fun j s => body i j s) s) m0
        = .ok r ∧ r.SameShape m0 ∧
      (∀ i j, i < rows → j < cols → r._matrix[i * cols + j]? = some (g i j)) ∧
      (∀ k, rows * cols ≤ k → r._matrix[k]? = m0._matrix[k]?) := by
  have hdecomp : ∀ i j, j < cols → (i * cols + j) / cols = i ∧ (i * cols + j) % cols = j := by
    intro i j hj
    have hc : 0 < cols := by omega
    constructor
    · rw [Nat.add_comm, Nat.add_mul_div_right _ _ hc, Nat.div_eq_of_lt hj, Nat.zero_add]
    · rw [Nat.add_comm, Nat.add_mul_mod_self_right, Nat.mod_eq_of_lt hj]
  obtain ⟨r, hr, hshape, hdone, hrest⟩ := forInt_inv rows
    (fun i s => forInt 0 (cols : Int) (fun j s => body i j s) s)
    (fun i s => s.SameShape m0 ∧
      (∀ k, k < i * cols → s._matrix[k]? = some (g (k / cols) (k % cols))) ∧
      (∀ k, i * cols ≤ k → s._matrix[k]? = m0._matrix[k]?)) m0
    ⟨SameShape.refl m0, fun k hk => by simp at hk, fun _ _ => rfl⟩
    (by
      rintro i s hi ⟨hs, hdone, hrest⟩
      obtain ⟨t, ht, hts, htdone, htrest⟩ := forInt_inv cols (fun j s => body (i : Int) j s)
        (fun j s => s.SameShape m0 ∧
          (∀ k, k < i * cols + j → s._matrix[k]? = some (g (k / cols) (k % cols))) ∧
          (∀ k, i * cols + j ≤ k → s._matrix[k]? = m0._matrix[k]?)) s
        ⟨hs, by simpa using hdone, by simpa using hrest⟩
        (by
          rintro j u hj ⟨hu, hudone, hurest⟩
          obtain ⟨u', hb, hu', hcell, hoth⟩ := hbody i j u hi hj hu hurest
          refine ⟨u', hb, SameShape.trans hu' hu, ?_, ?_⟩
          · intro k hk
            by_cases hkeq : k = i * cols + j
            · obtain ⟨e1, e2⟩ := hdecomp i j hj
              rw [hkeq, e1, e2]; exact hcell
            · rw [hoth k hkeq]; exact hudone k (by omega)
          · intro k hk
            rw [hoth k (by omega)]; exact hurest k (by omega))
      have e : i * cols + cols = (i + 1) * cols := by rw [Nat.succ_mul]
      exact ⟨t, ht, hts, by rw [← e]; exact htdone, by rw [← e]; exact htrest⟩)
  refine ⟨r, hr, hshape, ?_, hrest⟩
  intro i j hi hj
  obtain ⟨e1, e2⟩ := hdecomp i j hj
  have hlt : i * cols + j < rows * cols := by
    have : (i + 1) * cols ≤ rows * cols := Nat.mul_le_mul_right cols hi
    rw [Nat.succ_mul] at this
    omega
  have := hdone (i * cols + j) hlt
  rw [e1, e2] at this
  exact this

/-- The flat offset of a cell of a matrix, as a natural number. -/
theorem offset_toNat (i j c : Nat) : ((i : Int) * (c : Int) + (j : Int)).toNat = i * c + j := by
  have : (i : Int) * (c : Int) + (j : Int) = ((i * c + j : Nat) : Int) := by push_cast; ring
  rw [this]; exact Int.toNat_ofNat _

/-- The cell `(i, j)` of a matrix whose buffer holds `v` at offset `i * cols + j`. -/
theorem cell_of_getElem? (m : Matrix) (i j c : Nat) (hc : m._cols = (c : Int)) (v : ℚ)
    (h : m._matrix[i * c + j]? = some v) : m.cell (i : Int) (j : Int) = v := by
  simp [Matrix.cell, hc, offset_toNat, List.getD, h]

end ImageProcessor


namespace ImageProcessor

/-! The filter `convolution` -/

/-- The function `rintf` returns an integer that is within 1/2 of its argument. -/
theorem rintf_spec (x : ℚ) : ∃ z : Int, rintf x = (z : ℚ) ∧ |(z : ℚ) - x| ≤ 1 / 2 := by
  have h1 : ((⌊x⌋ : Int) : ℚ) ≤ x := Int.floor_le x
  have h2 : x < ((⌊x⌋ : Int) : ℚ) + 1 := Int.lt_floor_add_one x
  unfold rintf
  dsimp only
  by_cases ha : x - ((⌊x⌋ : Int) : ℚ) < 1 / 2
  · rw [if_pos ha]
    exact ⟨⌊x⌋, rfl, by rw [abs_le]; constructor <;> linarith⟩
  · rw [if_neg ha]
    by_cases hb : 1 / 2 < x - ((⌊x⌋ : Int) : ℚ)
    · rw [if_pos hb]
      exact ⟨⌊x⌋ + 1, by push_cast; rfl, by rw [abs_le]; push_cast; constructor <;> linarith⟩
    · rw [if_neg hb]
      by_cases hc : ⌊x⌋ % 2 = 0
      · rw [if_pos hc]
        exact ⟨⌊x⌋, rfl, by rw [abs_le]; constructor <;> linarith⟩
      · rw [if_neg hc]
        exact ⟨⌊x⌋ + 1, by push_cast; rfl, by rw [abs_le]; push_cast; constructor <;> linarith⟩

/-- The function `rintf` leaves an integer as it is. -/
theorem rintf_intCast (z : Int) : rintf (z : ℚ) = (z : ℚ) := by
  unfold rintf
  simp

/-- The nine terms of the stencil, added in the order of the two loops, are the sum over the
window. -/
theorem stencilSum_eq_terms (A B : Matrix) (i j : Int) :
    stencilSum A B i j =
      0 + stencilTerm A B i j (-1) (-1) + stencilTerm A B i j (-1) 0 + stencilTerm A B i j (-1) 1
        + stencilTerm A B i j 0 (-1) + stencilTerm A B i j 0 0 + stencilTerm A B i j 0 1
        + stencilTerm A B i j 1 (-1) + stencilTerm A B i j 1 0 + stencilTerm A B i j 1 1 := by
  unfold stencilSum window stencilTerm
  rw [Finset.sum_filter, Finset.sum_product]
  simp only [Finset.sum_insert, Finset.mem_insert, Finset.mem_singleton, Finset.sum_singleton]
  norm_num
  ring

/-- One round of the inner loop of `calculateValue`: the term of the offset `(k, l)` is added. -/
theorem calculateValue_step (A B : Matrix) (hA : A.WF) (hB : B.WF) (hB3 : B._rows = 3 ∧ B._cols = 3)
    (i j k l : Int) (hk : -1 ≤ k ∧ k ≤ 1) (hl : -1 ≤ l ∧ l ≤ 1) (newVal : ℚ) :
    (if i + k ≥ 0 ∧ j + l ≥ 0 ∧ i + k < A.getRows ∧ j + l < A.getCols then do
        let a ← A.opCallConst (i + k) (j + l)
        let b ← B.opCallConst (CENTER_OF_B + k) (CENTER_OF_B + l)
        pure (newVal + a * b)
      else pure newVal) = (Except.ok (newVal + stencilTerm A B i j k l) : Except Fatal ℚ) := by
  unfold stencilTerm Matrix.getRows Matrix.getCols CENTER_OF_B
  by_cases h : i + k ≥ 0 ∧ j + l ≥ 0 ∧ i + k < A._rows ∧ j + l < A._cols
  · have h' : 0 ≤ i + k ∧ i + k < A._rows ∧ 0 ≤ j + l ∧ j + l < A._cols :=
      ⟨h.1, h.2.2.1, h.2.1, h.2.2.2⟩
    rw [if_pos h, if_pos h', opCallConst_ok A hA _ _ h'.1 h'.2.1 h'.2.2.1 h'.2.2.2, ok_bind,
      opCallConst_ok B hB _ _ (by omega) (by omega) (by omega) (by omega), ok_bind]
    rfl
  · have h' : ¬ (0 ≤ i + k ∧ i + k < A._rows ∧ 0 ≤ j + l ∧ j + l < A._cols) := by
      intro hc
      exact h ⟨hc.1, hc.2.2.1, hc.2.1, hc.2.2.2⟩
    rw [if_neg h, if_neg h']
    simp [pure, Except.pure]

/-- The helper `calculateValue` on a cell `(i, j)` of `A`: it stores in cell `(i, j)` of the new
matrix the rounded sum of the stencil and touches no other cell. -/
theorem calculateValue_ok (A B : Matrix) (hA : A.WF) (hB : B.WF) (hB3 : B._rows = 3 ∧ B._cols = 3)
    (s : Matrix) (Cn i j : Nat) (hC : A._cols = (Cn : Int)) (hsr : s._rows = A._rows)
    (hsc : s._cols = A._cols) (hsl : s._len = s._rows * s._cols)
    (hi : (i : Int) < A._rows) (hj : j < Cn) (hlen : i * Cn + j < s._matrix.length) :
    ∃ t, calculateValue A B (i : Int) (j : Int) s = .ok t ∧ t.SameShape s ∧
      t._matrix[i * Cn + j]? = some (rintf (stencilSum A B (i : Int) (j : Int))) ∧
      ∀ q, q ≠ i * Cn + j → t._matrix[q]? = s._matrix[q]? := by
  have hsum : forInt (-1) 2 (fun k newVal =>
      forInt (-1) 2 (fun l newVal =>
        if (i : Int) + k ≥ 0 ∧ (j : Int) + l ≥ 0 ∧ (i : Int) + k < A.getRows ∧
            (j : Int) + l < A.getCols then do
          let a ← A.opCallConst ((i : Int) + k) ((j : Int) + l)
          let b ← B.opCallConst (CENTER_OF_B + k) (CENTER_OF_B + l)
          pure (newVal + a * b)
        else pure newVal) newVal) (0 : ℚ) = .ok (stencilSum A B (i : Int) (j : Int)) := by
    have step := calculateValue_step A B hA hB hB3 (i : Int) (j : Int)
    rw [stencilSum_eq_terms]
    simp only [forInt_neg_one_two]
    rw [step (-1) (-1) (by norm_num) (by norm_num), ok_bind,
      step (-1) 0 (by norm_num) (by norm_num), ok_bind,
      step (-1) 1 (by norm_num) (by norm_num), ok_bind,
      step 0 (-1) (by norm_num) (by norm_num), ok_bind,
      step 0 0 (by norm_num) (by norm_num), ok_bind,
      step 0 1 (by norm_num) (by norm_num), ok_bind,
      step 1 (-1) (by norm_num) (by norm_num), ok_bind,
      step 1 0 (by norm_num) (by norm_num), ok_bind,
      step 1 1 (by norm_num) (by norm_num)]
  have hp : s.opCall (i : Int) (j : Int) = .ok (i * Cn + j) := by
    have := opCall_ok s hsl (i : Int) (j : Int) (Int.ofNat_nonneg i) (by rw [hsr]; exact hi)
      (Int.ofNat_nonneg j) (by rw [hsc, hC]; exact_mod_cast hj)
    rw [this, hsc, hC, offset_toNat]
  obtain ⟨t, hst, hshape, hnew, hoth⟩ := store_ok s (i * Cn + j)
    (rintf (stencilSum A B (i : Int) (j : Int))) hlen
  refine ⟨t, ?_, hshape, hnew, hoth⟩
  unfold calculateValue
  rw [hsum, ok_bind, hp, ok_bind]
  exact hst

/-- The filter `convolution` of a matrix `A` with a 3 x 3 kernel `B`: it succeeds with a matrix of
the shape of `A` whose cell `(i, j)` is the rounded sum of the stencil at `(i, j)`. -/
theorem convolution_ok (A B : Matrix) (hA : A.WF) (hB : B.WF) (hB3 : B._rows = 3 ∧ B._cols = 3) :
    ∃ R, convolution A B = .ok R ∧ R.WF ∧ R._rows = A._rows ∧ R._cols = A._cols ∧
      ∀ i j : Nat, (i : Int) < A._rows → (j : Int) < A._cols →
        R.cell (i : Int) (j : Int) = rintf (stencilSum A B (i : Int) (j : Int)) := by
  obtain ⟨Rn, hRn⟩ := Int.eq_ofNat_of_zero_le (by have := hA.1; omega : 0 ≤ A._rows)
  obtain ⟨Cn, hCn⟩ := Int.eq_ofNat_of_zero_le (by have := hA.2.1; omega : 0 ≤ A._cols)
  have hctor := ctor_ok A._rows A._cols hA.1 hA.2.1
  have hlen0 : (A._rows * A._cols).toNat = Rn * Cn := by
    rw [hRn, hCn]
    have : (Rn : Int) * (Cn : Int) = ((Rn * Cn : Nat) : Int) := by push_cast; ring
    rw [this]; exact Int.toNat_ofNat _
  obtain ⟨R, hrun, hshape, hdone, -⟩ := forInt_cells2
    { _matrix := List.replicate (A._rows * A._cols).toNat 0, _rows := A._rows, _cols := A._cols,
      _len := A._rows * A._cols } Rn Cn
    (fun i j newMatrix => calculateValue A B i j newMatrix)
    (fun i j => rintf (stencilSum A B (i : Int) (j : Int)))
    (by
      intro i j s hi hj hs _
      have hlt : i * Cn + j < Rn * Cn := by
        have : (i + 1) * Cn ≤ Rn * Cn := Nat.mul_le_mul_right Cn hi
        rw [Nat.succ_mul] at this
        omega
      exact calculateValue_ok A B hA hB hB3 s Cn i j hCn hs.1 hs.2.1
        (by rw [hs.2.2.1, hs.1, hs.2.1])
        (by rw [hRn]; exact_mod_cast hi) hj
        (by rw [hs.2.2.2]; simp only [List.length_replicate]; rw [hlen0]; exact hlt))
  have hwf : R.WF := SameShape.wf hshape
    ⟨hA.1, hA.2.1, rfl, by simp only [List.length_replicate]; rw [hlen0, hRn, hCn]; push_cast; ring⟩
  refine ⟨R, ?_, hwf, hshape.1, hshape.2.1, ?_⟩
  · unfold convolution Matrix.getRows Matrix.getCols
    rw [hctor, ok_bind]
    rw [hRn, hCn] at hrun ⊢
    exact hrun
  · intro i j hi hj
    have hi' : i < Rn := by rw [hRn] at hi; exact_mod_cast hi
    have hj' : j < Cn := by rw [hCn] at hj; exact_mod_cast hj
    exact cell_of_getElem? R i j Cn (by rw [hshape.2.1]; exact hCn) _ (hdone i j hi' hj')

end ImageProcessor

namespace ImageProcessor

/-! The filters `blur` and `sobel` -/

theorem blurConvoluator_eq : blurConvoluator = .ok blurKernel := by decide!

/-- The flat offset of a cell of a matrix is inside the buffer. -/
theorem offset_lt (M : Matrix) (hM : M.WF) (i j : Int) (hi0 : 0 ≤ i) (hi : i < M._rows)
    (hj0 : 0 ≤ j) (hj : j < M._cols) :
    0 ≤ i * M._cols + j ∧ (i * M._cols + j).toNat < M._matrix.length := by
  have h0 : 0 ≤ i * M._cols + j := add_nonneg (mul_nonneg hi0 (by have := hM.2.1; omega)) hj0
  have h1 : i * M._cols + j < M._len := by
    rw [hM.2.2.1]; nlinarith [hM.2.1]
  have := hM.2.2.2
  exact ⟨h0, by omega⟩

/-- The filter `normalize`, cell by cell: cell `(i, j)` of the result is the clamped cell `(i, j)`
of the argument. -/
theorem normalize_cell (M : Matrix) (hM : M.WF) :
    ∃ R, normalize M = .ok R ∧ R.WF ∧ R._rows = M._rows ∧ R._cols = M._cols ∧
      ∀ i j : Int, 0 ≤ i → i < M._rows → 0 ≤ j → j < M._cols →
        R.cell i j = clampCell (M.cell i j) := by
  obtain ⟨R, hR, hshape, hcells⟩ := normalize_ok M hM
  refine ⟨R, hR, SameShape.wf hshape hM, hshape.1, hshape.2.1, ?_⟩
  intro i j hi0 hi hj0 hj
  obtain ⟨h0, hlt⟩ := offset_lt M hM i j hi0 hi hj0 hj
  obtain ⟨n, hn⟩ := Int.eq_ofNat_of_zero_le h0
  have hn' : n < M._matrix.length := by rw [hn] at hlt; simpa using hlt
  have := flat_of_getElem? R n _ (hcells n hn')
  unfold Matrix.cell clampCell
  unfold Matrix.flat at this
  rw [hshape.2.1, hn]
  exact this

/-- The filter `blur` on any image: it succeeds with a matrix of the shape of the image whose cell
`(i, j)` is the clamped, rounded sum of the stencil of the blur kernel at `(i, j)`. -/
theorem blur_ok (image : Matrix) (hI : image.WF) :
    ∃ R, blur image = .ok R ∧ R.WF ∧ R._rows = image._rows ∧ R._cols = image._cols ∧
      ∀ i j : Int, 0 ≤ i → i < image._rows → 0 ≤ j → j < image._cols →
        R.cell i j = clampCell (rintf (stencilSum image blurKernel i j)) := by
  obtain ⟨C, hC, hCwf, hCr, hCc, hCcell⟩ :=
    convolution_ok image blurKernel hI (by decide) (by decide)
  obtain ⟨N, hN, hNwf, hNr, hNc, hNcell⟩ := normalize_cell C hCwf
  refine ⟨N, ?_, hNwf, hNr.trans hCr, hNc.trans hCc, ?_⟩
  · unfold blur
    rw [blurConvoluator_eq, ok_bind, hC, ok_bind, hN, ok_bind, copy_ok N hNwf]
  · intro i j hi0 hi hj0 hj
    rw [hNcell i j hi0 (by rw [hCr]; exact hi) hj0 (by rw [hCc]; exact hj)]
    obtain ⟨n, hn⟩ := Int.eq_ofNat_of_zero_le hi0
    obtain ⟨m, hm⟩ := Int.eq_ofNat_of_zero_le hj0
    subst hn hm
    rw [hCcell n m hi hj]

/-- At an interior cell of a matrix whose cells all hold `c`, the sum of the stencil is `c` times
the sum of the nine entries of the kernel. -/
theorem stencilSum_uniform_interior (M K : Matrix) (c : ℚ)
    (hu : ∀ i j : Int, 0 ≤ i → i < M._rows → 0 ≤ j → j < M._cols → M.cell i j = c)
    (i j : Int) (hi1 : 1 ≤ i) (hi2 : i ≤ M._rows - 2) (hj1 : 1 ≤ j) (hj2 : j ≤ M._cols - 2) :
    stencilSum M K i j = c * (K.cell 0 0 + K.cell 0 1 + K.cell 0 2 + K.cell 1 0 + K.cell 1 1 +
      K.cell 1 2 + K.cell 2 0 + K.cell 2 1 + K.cell 2 2) := by
  have term : ∀ k l : Int, -1 ≤ k → k ≤ 1 → -1 ≤ l → l ≤ 1 →
      stencilTerm M K i j k l = c * K.cell (1 + k) (1 + l) := by
    intro k l hk1 hk2 hl1 hl2
    unfold stencilTerm
    rw [if_pos ⟨by omega, by omega, by omega, by omega⟩,
      hu (i + k) (j + l) (by omega) (by omega) (by omega) (by omega)]
  rw [stencilSum_eq_terms, term (-1) (-1) (by norm_num) (by norm_num) (by norm_num) (by norm_num),
    term (-1) 0 (by norm_num) (by norm_num) (by norm_num) (by norm_num),
    term (-1) 1 (by norm_num) (by norm_num) (by norm_num) (by norm_num),
    term 0 (-1) (by norm_num) (by norm_num) (by norm_num) (by norm_num),
    term 0 0 (by norm_num) (by norm_num) (by norm_num) (by norm_num),
    term 0 1 (by norm_num) (by norm_num) (by norm_num) (by norm_num),
    term 1 (-1) (by norm_num) (by norm_num) (by norm_num) (by norm_num),
    term 1 0 (by norm_num) (by norm_num) (by norm_num) (by norm_num),
    term 1 1 (by norm_num) (by norm_num) (by norm_num) (by norm_num)]
  norm_num
  ring

theorem blurKernel_sum :
    blurKernel.cell 0 0 + blurKernel.cell 0 1 + blurKernel.cell 0 2 + blurKernel.cell 1 0 +
      blurKernel.cell 1 1 + blurKernel.cell 1 2 + blurKernel.cell 2 0 + blurKernel.cell 2 1 +
      blurKernel.cell 2 2 = 1 := by decide!

theorem rintf_zero : rintf 0 = 0 := by
  have := rintf_intCast 0
  simpa using this

theorem clampCell_of_mem (v : ℚ) (h0 : 0 ≤ v) (h1 : v < 256) : clampCell v = v := by
  unfold clampCell
  rw [if_neg (not_lt.mpr h0), if_neg (not_le.mpr h1)]

end ImageProcessor


namespace ImageProcessor

/-! Equality of matrices -/

/-- A loop whose rounds either go on or return one fixed value: it returns that value when a
round does, and goes through when none does. -/
theorem forIntReturn_find {ρ : Type} (n : Nat) (body : Int → Except Fatal (Option ρ)) (r : ρ)
    (h : ∀ k : Nat, k < n → body (k : Int) = .ok none ∨ body (k : Int) = .ok (some r)) :
    (forIntReturn 0 (n : Int) body = .ok none ∧ ∀ k : Nat, k < n → body (k : Int) = .ok none) ∨
    (forIntReturn 0 (n : Int) body = .ok (some r) ∧
      ∃ k : Nat, k < n ∧ body (k : Int) = .ok (some r)) := by
  unfold forIntReturn
  induction n with
  | zero =>
    left
    exact ⟨forInt_empty 0 _ (le_refl _) _ _, fun k hk => absurd hk (Nat.not_lt_zero k)⟩
  | succ n ih =>
    rcases ih (fun k hk => h k (Nat.lt_succ_of_lt hk)) with ⟨hnone, hall⟩ | ⟨hsome, k, hk, hkr⟩
    · rcases h n (Nat.lt_succ_self n) with hn | hn
      · left
        refine ⟨by rw [forInt_succ, hnone, ok_bind]; exact hn, ?_⟩
        intro k hk
        rcases Nat.lt_succ_iff_lt_or_eq.mp hk with h' | h'
        · exact hall k h'
        · rw [h']; exact hn
      · right
        exact ⟨by rw [forInt_succ, hnone, ok_bind]; exact hn, n, Nat.lt_succ_self n, hn⟩
    · right
      exact ⟨by rw [forInt_succ, hsome, ok_bind], k, Nat.lt_succ_of_lt hk, hkr⟩

/-- The loop of `operator==` and `operator!=` over two matrices of one size: it returns `r` when
two cells at one offset differ and goes through when none do. -/
theorem compare_loop (A B : Matrix) (hA : A.WF) (hB : B.WF) (hlen : A._len = B._len) (r : Bool) :
    (forIntReturn 0 A._len (fun i => do
        let a ← A.opIndexConst i
        let b ← B.opIndexConst i
        if a ≠ b then .ok (some r) else .ok none) = .ok none ∧
      ∀ k : Nat, k < A._matrix.length → A.flat k = B.flat k) ∨
    (forIntReturn 0 A._len (fun i => do
        let a ← A.opIndexConst i
        let b ← B.opIndexConst i
        if a ≠ b then .ok (some r) else .ok none) = .ok (some r) ∧
      ∃ k : Nat, k < A._matrix.length ∧ A.flat k ≠ B.flat k) := by
  have hlA := hA.2.2.2
  have hlB := hB.2.2.2
  have hbody : ∀ k : Nat, k < A._matrix.length →
      (do
        let a ← A.opIndexConst (k : Int)
        let b ← B.opIndexConst (k : Int)
        if a ≠ b then (Except.ok (some r) : Except Fatal (Option Bool)) else .ok none) =
      if A.flat k ≠ B.flat k then .ok (some r) else .ok none := by
    intro k hk
    rw [opIndexConst_ok A k (by rw [← hlA]; exact_mod_cast hk) hk, ok_bind,
      opIndexConst_ok B k (by rw [← hlen, ← hlA]; exact_mod_cast hk) (by omega), ok_bind]
  rw [← hlA]
  rcases forIntReturn_find A._matrix.length (fun i => do
        let a ← A.opIndexConst i
        let b ← B.opIndexConst i
        if a ≠ b then (Except.ok (some r) : Except Fatal (Option Bool)) else .ok none) r (by
      intro k hk
      beta_reduce
      rw [hbody k hk]
      by_cases h0 : A.flat k ≠ B.flat k
      · right; rw [if_pos h0]
      · left; rw [if_neg h0]) with ⟨hnone, hall⟩ | ⟨hsome, k, hk, hkr⟩
  · left
    refine ⟨hnone, ?_⟩
    intro k hk
    have := hall k hk
    beta_reduce at this
    rw [hbody k hk] at this
    by_contra h0
    rw [if_pos h0] at this
    cases this
  · right
    refine ⟨hsome, k, hk, ?_⟩
    rw [hbody k hk] at hkr
    intro h0
    rw [if_neg (by simpa using h0)] at hkr
    cases hkr

/-- What it means for two matrices to be equal: the rows, the columns and every flat cell
agree. -/
theorem opEq_ok (A B : Matrix) (hA : A.WF) (hB : B.WF) :
    ∃ b, A.opEq B = .ok b ∧ A.opNe B = .ok (!b) ∧
      (b = true ↔ (A._rows = B._rows ∧ A._cols = B._cols ∧
        ∀ k : Int, 0 ≤ k → k < A._len → A.flat k = B.flat k)) := by
  have hlA := hA.2.2.2
  by_cases hshape : A._rows ≠ B._rows ∨ A._cols ≠ B._cols ∨ A._len ≠ B._len
  · refine ⟨false, by unfold Matrix.opEq; rw [if_pos hshape],
      by unfold Matrix.opNe; rw [if_pos hshape]; rfl, ?_⟩
    constructor
    · intro h; cases h
    · rintro ⟨h1, h2, -⟩
      exfalso
      rcases hshape with h | h | h
      · exact h h1
      · exact h h2
      · exact h (by rw [hA.2.2.1, hB.2.2.1, h1, h2])
  · have h1 : A._rows = B._rows := by by_contra h; exact hshape (Or.inl h)
    have h2 : A._cols = B._cols := by by_contra h; exact hshape (Or.inr (Or.inl h))
    have h3 : A._len = B._len := by by_contra h; exact hshape (Or.inr (Or.inr h))
    have hflat : (∀ k : Int, 0 ≤ k → k < A._len → A.flat k = B.flat k) ↔
        ∀ k : Nat, k < A._matrix.length → A.flat k = B.flat k := by
      constructor
      · intro h k hk
        exact h k (Int.ofNat_nonneg k) (by rw [← hlA]; exact_mod_cast hk)
      · intro h k hk0 hk
        obtain ⟨n, hn⟩ := Int.eq_ofNat_of_zero_le hk0
        subst hn
        exact h n (by omega)
    rcases compare_loop A B hA hB h3 false with ⟨hnone, hall⟩ | ⟨hsome, k, hk, hne⟩
    · rcases compare_loop A B hA hB h3 true with ⟨hnone', -⟩ | ⟨-, k, hk, hne⟩
      · refine ⟨true, by unfold Matrix.opEq; rw [if_neg hshape, hnone, ok_bind],
          by unfold Matrix.opNe; rw [if_neg hshape, hnone', ok_bind]; rfl, ?_⟩
        exact ⟨fun _ => ⟨h1, h2, hflat.mpr hall⟩, fun _ => rfl⟩
      · exact absurd (hall k hk) hne
    · rcases compare_loop A B hA hB h3 true with ⟨-, hall⟩ | ⟨hsome', -⟩
      · exact absurd (hall k hk) hne
      · refine ⟨false, by unfold Matrix.opEq; rw [if_neg hshape, hsome, ok_bind],
          by unfold Matrix.opNe; rw [if_neg hshape, hsome', ok_bind]; rfl, ?_⟩
        constructor
        · intro h; cases h
        · rintro ⟨-, -, h⟩
          exact absurd (hflat.mp h k hk) hne

/-- A matrix is equal to itself. -/
theorem opEq_self (A : Matrix) (hA : A.WF) : A.opEq A = .ok true := by
  obtain ⟨b, hb, -, hiff⟩ := opEq_ok A A hA hA
  have : b = true := hiff.mpr ⟨rfl, rfl, fun _ _ _ => rfl⟩
  rw [hb, this]

/-- Two matrices of one shape whose buffers hold the same cells are the same matrix. -/
theorem matrix_ext (R M : Matrix) (hshape : R.SameShape M)
    (h : ∀ k : Nat, k < M._matrix.length → R._matrix[k]? = M._matrix[k]?) : R = M := by
  obtain ⟨h1, h2, h3, h4⟩ := hshape
  have hd := buffer_ext R._matrix M._matrix h4 h
  cases R
  cases M
  simp_all

end ImageProcessor

namespace ImageProcessor

end ImageProcessor


namespace ImageProcessor

/-! Quantizing twice -/

/-- The average of a bucket lies in its bucket: it is a pixel value in [0, 256) and its bucket is
the bucket of the pixel it was computed from. -/
theorem bucketAverage_bounds (levels : Int) (v : ℚ) (h1 : 1 ≤ levels) (hd : levels ∣ 256)
    (hv0 : 0 ≤ v) (hv : v < 256) :
    0 ≤ ((bucketAverage levels v : Int) : ℚ) ∧ ((bucketAverage levels v : Int) : ℚ) < 256 ∧
      ⌊((bucketAverage levels v : Int) : ℚ) / ((256 / levels : Int) : ℚ)⌋ =
        ⌊v / ((256 / levels : Int) : ℚ)⌋ := by
  have hlw : levels * (256 / levels) = 256 := Int.mul_ediv_cancel' hd
  have hw : 1 ≤ 256 / levels := by
    by_contra hcon
    have h0 : 256 / levels ≤ 0 := by omega
    have : levels * (256 / levels) ≤ 0 := Int.mul_nonpos_of_nonneg_of_nonpos (by omega) h0
    omega
  have hwq : (0 : ℚ) < ((256 / levels : Int) : ℚ) := by
    exact_mod_cast (by omega : (0 : Int) < 256 / levels)
  obtain ⟨hb0, hb1⟩ := bucket_bounds v levels (256 / levels) hw hlw hv0 hv
  rw [floatToInt_of_nonneg _ (div_nonneg hv0 hwq.le)] at hb0 hb1
  unfold bucketAverage
  dsimp only
  generalize hi : ⌊v / ((256 / levels : Int) : ℚ)⌋ = i at hb0 hb1 ⊢
  generalize hwdef : (256 / levels : Int) = w at hw hlw hwq ⊢
  have hbnn : 0 ≤ i * w := Int.mul_nonneg hb0 (by omega)
  have hbw : i * w + w ≤ 256 := by
    have : (i + 1) * w ≤ levels * w := Int.mul_le_mul_of_nonneg_right (by omega) (by omega)
    rw [hlw] at this
    linarith
  generalize hbdef : i * w = b at hbnn hbw ⊢
  have hr0 : b ≤ (b + (b + w) - 1) / 2 := by omega
  have hr1 : (b + (b + w) - 1) / 2 < b + w := by omega
  refine ⟨by exact_mod_cast (by omega : (0 : Int) ≤ (b + (b + w) - 1) / 2),
    by exact_mod_cast (by omega : (b + (b + w) - 1) / 2 < (256 : Int)), ?_⟩
  rw [Int.floor_eq_iff, le_div_iff₀ hwq, div_lt_iff₀ hwq]
  constructor
  · have : i * w ≤ (b + (b + w) - 1) / 2 := by rw [hbdef]; exact hr0
    exact_mod_cast this
  · have : (b + (b + w) - 1) / 2 < (i + 1) * w := by
      have e : (i + 1) * w = b + w := by rw [← hbdef]; ring
      rw [e]; exact hr1
    exact_mod_cast this

/-- The average of the bucket of an average is that average. -/
theorem bucketAverage_idem (levels : Int) (v : ℚ) (h1 : 1 ≤ levels) (hd : levels ∣ 256)
    (hv0 : 0 ≤ v) (hv : v < 256) :
    bucketAverage levels ((bucketAverage levels v : Int) : ℚ) = bucketAverage levels v := by
  obtain ⟨-, -, hfloor⟩ := bucketAverage_bounds levels v h1 hd hv0 hv
  have h : ∀ x : ℚ, bucketAverage levels x =
      (⌊x / ((256 / levels : Int) : ℚ)⌋ * (256 / levels) +
        (⌊x / ((256 / levels : Int) : ℚ)⌋ * (256 / levels) + 256 / levels) - 1) / 2 :=
    fun _ => rfl
  rw [h ((bucketAverage levels v : Int) : ℚ), hfloor]
  exact (h v).symm

/-- The filter `quantization` in terms of the average of the bucket of each pixel. -/
theorem quantization_average (image : Matrix) (levels : Int) (hI : image.WF) (h1 : 1 ≤ levels)
    (hd : levels ∣ 256)
    (hcells : ∀ k : Nat, k < image._matrix.length → 0 ≤ image.flat k ∧ image.flat k < 256) :
    ∃ R, quantization image levels = .ok R ∧ R.WF ∧ R.SameShape image ∧
      ∀ k : Nat, k < image._matrix.length →
        R._matrix[k]? = some ((bucketAverage levels (image.flat k) : Int) : ℚ) := by
  obtain ⟨R, hR, hwf, hrows, hcols, hval⟩ := quantization_ok image levels hI h1 hd hcells
  refine ⟨R, hR, hwf, ⟨hrows, hcols, ?_, ?_⟩, hval⟩
  · rw [hwf.2.2.1, hI.2.2.1, hrows, hcols]
  · have h1 := hwf.2.2.2
    have h2 := hI.2.2.2
    have h3 : R._len = image._len := by rw [hwf.2.2.1, hI.2.2.1, hrows, hcols]
    omega

/-- Quantizing a quantized image changes nothing. -/
theorem quantization_idem (M : Matrix) (levels : Int) (hM : M.WF) (h1 : 1 ≤ levels)
    (hd : levels ∣ 256)
    (hcells : ∀ k : Nat, k < M._matrix.length → 0 ≤ M.flat k ∧ M.flat k < 256) :
    ∃ Q, quantization M levels = .ok Q ∧ Q.WF ∧ quantization Q levels = .ok Q := by
  obtain ⟨Q, hQ, hQwf, hQshape, hQcells⟩ := quantization_average M levels hM h1 hd hcells
  have hQflat : ∀ k : Nat, k < M._matrix.length →
      Q.flat k = ((bucketAverage levels (M.flat k) : Int) : ℚ) :=
    fun k hk => flat_of_getElem? Q k _ (hQcells k hk)
  have hQrange : ∀ k : Nat, k < Q._matrix.length → 0 ≤ Q.flat k ∧ Q.flat k < 256 := by
    intro k hk
    have hk' : k < M._matrix.length := by rw [← hQshape.2.2.2]; exact hk
    obtain ⟨hv0, hv1⟩ := hcells k hk'
    obtain ⟨b0, b1, -⟩ := bucketAverage_bounds levels (M.flat k) h1 hd hv0 hv1
    rw [hQflat k hk']
    exact ⟨b0, b1⟩
  obtain ⟨Q2, hQ2, -, hQ2shape, hQ2cells⟩ :=
    quantization_average Q levels hQwf h1 hd hQrange
  have heq : Q2 = Q := by
    apply matrix_ext Q2 Q hQ2shape
    intro k hk
    have hk' : k < M._matrix.length := by rw [← hQshape.2.2.2]; exact hk
    obtain ⟨hv0, hv1⟩ := hcells k hk'
    rw [hQ2cells k hk, hQcells k hk', hQflat k hk',
      bucketAverage_idem levels (M.flat k) h1 hd hv0 hv1]
  rw [heq] at hQ2
  exact ⟨Q, hQ, hQwf, hQ2⟩

end ImageProcessor


namespace ImageProcessor

/-! Pass-through kernels and identity matrices -/

/-- The flat cell `k` is the cell in row `k / cols` and column `k % cols`. -/
theorem flat_eq_cell_div (M : Matrix) (k : Int) :
    M.flat k = M.cell (k / M._cols) (k % M._cols) := by
  unfold Matrix.cell Matrix.flat
  have : k / M._cols * M._cols + k % M._cols = k := by
    rw [mul_comm]; exact Int.ediv_add_emod k M._cols
  rw [this]

/-- Two matrices of one shape with the same cell in every row and column are the same matrix. -/
theorem matrix_ext_cells (R M : Matrix) (hR : R.WF) (hM : M.WF) (hrows : R._rows = M._rows)
    (hcols : R._cols = M._cols)
    (h : ∀ i j : Int, 0 ≤ i → i < M._rows → 0 ≤ j → j < M._cols → R.cell i j = M.cell i j) :
    R = M := by
  have hlen : R._len = M._len := by rw [hR.2.2.1, hM.2.2.1, hrows, hcols]
  have hbuf : R._matrix.length = M._matrix.length := by
    have h1 := hR.2.2.2
    have h2 := hM.2.2.2
    omega
  apply matrix_ext R M ⟨hrows, hcols, hlen, hbuf⟩
  intro k hk
  have hc : 0 < M._cols := by have := hM.2.1; omega
  have hkM : (k : Int) < M._len := by rw [← hM.2.2.2]; exact_mod_cast hk
  rw [getElem?_flat R k (by omega), getElem?_flat M k hk, flat_eq_cell_div R, flat_eq_cell_div M,
    hcols]
  congr 1
  apply h _ _ (Int.ediv_nonneg (Int.ofNat_nonneg k) hc.le) _ (Int.emod_nonneg _ (by omega))
    (Int.emod_lt_of_pos _ hc)
  apply Int.ediv_lt_of_lt_mul hc
  rw [← hM.2.2.1]; exact hkM

/-- With the centre kernel the sum of the stencil at a cell of `A` is that cell. -/
theorem stencilSum_center (A : Matrix) (i j : Int) (hi0 : 0 ≤ i) (hi : i < A._rows)
    (hj0 : 0 ≤ j) (hj : j < A._cols) : stencilSum A centerKernel i j = A.cell i j := by
  have zero : ∀ k l : Int, centerKernel.cell (1 + k) (1 + l) = 0 →
      stencilTerm A centerKernel i j k l = 0 := by
    intro k l h
    unfold stencilTerm
    split
    · rw [h, mul_zero]
    · rfl
  have one : stencilTerm A centerKernel i j 0 0 = A.cell i j := by
    unfold stencilTerm
    rw [if_pos ⟨by omega, by omega, by omega, by omega⟩]
    have : centerKernel.cell (1 + 0) (1 + 0) = 1 := by decide!
    rw [this, mul_one, add_zero, add_zero]
  rw [stencilSum_eq_terms, one, zero (-1) (-1) (by decide!), zero (-1) 0 (by decide!),
    zero (-1) 1 (by decide!), zero 0 (-1) (by decide!), zero 0 1 (by decide!),
    zero 1 (-1) (by decide!), zero 1 0 (by decide!), zero 1 1 (by decide!)]
  ring

/-- The convolution of a matrix of integers with the centre kernel is that matrix. -/
theorem convolution_center (A : Matrix) (hA : A.WF)
    (hint : ∀ k : Int, 0 ≤ k → k < A._len → ∃ z : Int, A.flat k = (z : ℚ)) :
    convolution A centerKernel = .ok A := by
  obtain ⟨R, hR, hwf, hrows, hcols, hcells⟩ :=
    convolution_ok A centerKernel hA (by decide) (by decide)
  have heq : R = A := by
    apply matrix_ext_cells R A hwf hA hrows hcols
    intro i j hi0 hi hj0 hj
    obtain ⟨n, hn⟩ := Int.eq_ofNat_of_zero_le hi0
    obtain ⟨m, hm⟩ := Int.eq_ofNat_of_zero_le hj0
    subst hn hm
    rw [hcells n m hi hj, stencilSum_center A _ _ hi0 hi hj0 hj]
    have hk0 : 0 ≤ (n : Int) * A._cols + (m : Int) :=
      add_nonneg (mul_nonneg hi0 (by have := hA.2.1; omega)) hj0
    have hk : (n : Int) * A._cols + (m : Int) < A._len := by
      rw [hA.2.2.1]; nlinarith [hA.2.1]
    obtain ⟨z, hz⟩ := hint _ hk0 hk
    have hc : A.cell (n : Int) (m : Int) = (z : ℚ) := hz
    rw [hc, rintf_intCast]
  rw [hR, heq]

end ImageProcessor


namespace ImageProcessor

/-! Reading a matrix from a stream -/

/-- A checked write `m[k] = v` at an offset that is not below `_len` stops with "Index out of
range.". -/
theorem assign_out_of_range (m : Matrix) (k : Int) (v : ℚ) (hk : m._len ≤ k) :
    m.assign k v = .error .indexOutOfRange := by
  unfold Matrix.assign Matrix.opIndex
  rw [if_neg (by omega)]
  rfl

/-- The `while` loop of `operator>>`, started at offset `inx` with the tokens that are left: when
they fit, cell `inx + k` receives token `k` and no other cell changes; when they do not fit, the
run stops with "Index out of range.". -/
theorem extract_loop (tokens : List ℚ) :
    ∀ (m : Matrix) (inx : Nat), (m._matrix.length : Int) = m._len →
      (inx + tokens.length ≤ m._matrix.length →
        ∃ r, tokens.foldlM (fun (state : Matrix × Int) (val : ℚ) => do
              let matrix ← state.1.assign state.2 val
              pure (matrix, state.2 + 1)) (m, (inx : Int))
            = .ok (r, ((inx + tokens.length : Nat) : Int)) ∧ r.SameShape m ∧
          (∀ k, k < tokens.length → r._matrix[inx + k]? = tokens[k]?) ∧
          (∀ q, q < inx ∨ inx + tokens.length ≤ q → r._matrix[q]? = m._matrix[q]?)) ∧
      (m._matrix.length < inx + tokens.length → inx ≤ m._matrix.length →
        tokens.foldlM (fun (state : Matrix × Int) (val : ℚ) => do
              let matrix ← state.1.assign state.2 val
              pure (matrix, state.2 + 1)) (m, (inx : Int))
            = .error .indexOutOfRange) := by
  induction tokens with
  | nil =>
    intro m inx _
    refine ⟨fun _ => ⟨m, rfl, SameShape.refl m, fun k hk => absurd hk (Nat.not_lt_zero k),
      fun _ _ => rfl⟩, fun h1 h2 => ?_⟩
    simp at h1
    omega
  | cons t ts ih =>
    intro m inx hlen
    rw [List.foldlM_cons]
    by_cases hin : inx < m._matrix.length
    · obtain ⟨m', hm', hshape, hcell, hoth⟩ := assign_ok m inx t (by rw [← hlen]; exact_mod_cast hin)
        hin
      have hstep : (do
          let matrix ← (m, (inx : Int)).1.assign (m, (inx : Int)).2 t
          pure (matrix, (m, (inx : Int)).2 + 1) : Except Fatal (Matrix × Int)) =
            .ok (m', ((inx + 1 : Nat) : Int)) := by
        dsimp only
        rw [hm', ok_bind]
        rfl
      rw [hstep, ok_bind]
      have hlen' : (m'._matrix.length : Int) = m'._len := by
        rw [hshape.2.2.2, hshape.2.2.1]; exact hlen
      obtain ⟨ih1, ih2⟩ := ih m' (inx + 1) hlen'
      constructor
      · intro hfit
        simp only [List.length_cons] at hfit
        obtain ⟨r, hr, hrs, hrc, hro⟩ := ih1 (by rw [hshape.2.2.2]; omega)
        refine ⟨r, ?_, SameShape.trans hrs hshape, ?_, ?_⟩
        · rw [hr]
          simp only [List.length_cons]
          have : inx + 1 + ts.length = inx + (ts.length + 1) := by omega
          rw [this]
        · intro k hk
          cases k with
          | zero =>
            rw [Nat.add_zero, hro inx (Or.inl (Nat.lt_succ_self inx)), hcell]
            simp
          | succ k =>
            simp only [List.length_cons] at hk
            have := hrc k (by omega)
            rw [show inx + (k + 1) = inx + 1 + k by omega, this]
            simp
        · intro q hq
          simp only [List.length_cons] at hq
          rw [hro q (by omega), hoth q (by omega)]
      · intro hover _
        simp only [List.length_cons] at hover
        exact ih2 (by rw [hshape.2.2.2]; omega) (by rw [hshape.2.2.2]; omega)
    · constructor
      · intro hfit
        simp only [List.length_cons] at hfit
        omega
      · intro _ _
        have hstep : (do
            let matrix ← (m, (inx : Int)).1.assign (m, (inx : Int)).2 t
            pure (matrix, (m, (inx : Int)).2 + 1) : Except Fatal (Matrix × Int)) =
              .error .indexOutOfRange := by
          dsimp only
          rw [assign_out_of_range m inx t (by rw [← hlen]; exact_mod_cast (not_lt.mp hin)),
            error_bind]
        rw [hstep, error_bind]

end ImageProcessor


namespace ImageProcessor

/-! Writing a matrix to a stream -/

/-- One round of the loop of `operator<<`: the element and its separator are appended. -/
theorem opInsert_step (fmt : ℚ → String) (M : Matrix) (hM : M.WF) (k : Nat)
    (hk : k < M._matrix.length) (os : String) :
    (do
      let v ← M.opIndexConst (k : Int)
      let os := os ++ fmt v
      let r ← intMod ((k : Int) + 1) M._cols
      if r = END_OF_ROW ∧ ((k : Int) + 1) ≠ M._len then (Except.ok (os ++ "\n") : Except Fatal String)
      else if ((k : Int) + 1) ≠ M._len then .ok (os ++ " ")
      else .ok os) =
    .ok (os ++ (fmt (M.flat (k : Int)) ++ separatorAfter M._rows M._cols (k : Int))) := by
  obtain ⟨h1, h2, h3, h4⟩ := hM
  have hkl : (k : Int) < M._len := by rw [← h4]; exact_mod_cast hk
  have hmod : intMod ((k : Int) + 1) M._cols = .ok (((k : Int) + 1) % M._cols) := by
    unfold intMod
    rw [if_neg (by omega), Int.tmod_eq_emod (by omega) (by omega)]
  rw [opIndexConst_ok M k hkl hk, ok_bind]
  dsimp only
  rw [hmod, ok_bind]
  unfold separatorAfter END_OF_ROW
  rw [← h3]
  by_cases hrow : ((k : Int) + 1) % M._cols = 0
  · by_cases hlast : (k : Int) + 1 = M._len
    · rw [if_neg (by intro h; exact h.2 hlast), if_neg (by intro h; exact h hlast),
        if_neg (by intro h; omega), if_neg (by intro h; omega)]
      simp
    · rw [if_pos ⟨hrow, hlast⟩, if_pos ⟨hrow, by omega⟩, String.append_assoc]
  · by_cases hlast : (k : Int) + 1 = M._len
    · rw [if_neg (by intro h; exact h.2 hlast), if_neg (by intro h; exact h hlast),
        if_neg (by intro h; omega), if_neg (by intro h; omega)]
      simp
    · rw [if_neg (by intro h; exact hrow h.1), if_pos hlast,
        if_neg (by intro h; exact hrow h.1), if_pos ⟨hrow, by omega⟩, String.append_assoc]

/-- The insertion `operator<<` appends to the stream the elements in flat order, each followed by
its separator. -/
theorem opInsert_ok (fmt : ℚ → String) (os : String) (M : Matrix) (hM : M.WF) :
    opInsert fmt os M = .ok (os ++ renderedPrefix fmt M M._matrix.length) := by
  obtain ⟨r, hr, hinv⟩ := forInt_inv M._matrix.length
    (fun i os => do
      let v ← M.opIndexConst i
      let os := os ++ fmt v
      let r ← intMod (i + 1) M._cols
      if r = END_OF_ROW ∧ (i + 1) ≠ M._len then (Except.ok (os ++ "\n") : Except Fatal String)
      else if (i + 1) ≠ M._len then .ok (os ++ " ")
      else .ok os)
    (fun i s => s = os ++ renderedPrefix fmt M i) os (by simp [renderedPrefix])
    (by
      intro k s hk hs
      refine ⟨_, opInsert_step fmt M hM k hk s, ?_⟩
      rw [hs, String.append_assoc]
      rfl)
  rw [hM.2.2.2] at hr
  unfold opInsert
  rw [hr, hinv]

end ImageProcessor


namespace ImageProcessor

/-! The class invariant -/

/-- A sequence of two steps that succeeds: the first step succeeded. -/
theorem bind_eq_ok {α β : Type} {x : Except Fatal α} {f : α → Except Fatal β} {r : β}
    (h : (x >>= f) = .ok r) : ∃ a, x = .ok a ∧ f a = .ok r := by
  cases x with
  | error e => cases h
  | ok a => exact ⟨a, rfl, h⟩

/-- A property that every round of a loop keeps holds after the loop, when the loop succeeds. -/
theorem forInt_preserve {σ : Type} (P : σ → Prop) (lo hi : Int)
    (body : Int → σ → Except Fatal σ)
    (hbody : ∀ i s s', P s → body i s = .ok s' → P s') (s r : σ) (hs : P s)
    (h : forInt lo hi body s = .ok r) : P r := by
  unfold forInt at h
  generalize List.range (hi - lo).toNat = l at h
  induction l generalizing s with
  | nil =>
    cases h
    exact hs
  | cons n l ih =>
    rw [List.foldlM_cons] at h
    obtain ⟨s', hs', hrest⟩ := bind_eq_ok h
    exact ih s' (hbody _ s s' hs hs') hrest

end ImageProcessor


namespace ImageProcessor

/-! The table of `quantization` -/

/-- The width `256 / levels` of a bucket is at least 1 when `1 <= levels <= 256`. -/
theorem width_pos (levels : Int) (h1 : 1 ≤ levels) (h2 : levels ≤ 256) : 1 ≤ 256 / levels :=
  Int.le_ediv_of_mul_le (by omega) (by omega)

/-- The buckets cover `levels * (256 / levels)` pixel values: all 256 exactly when `levels`
divides 256, fewer otherwise. -/
theorem buckets_cover (levels : Int) (h1 : 1 ≤ levels) :
    levels * (256 / levels) ≤ 256 ∧ (levels * (256 / levels) = 256 ↔ levels ∣ 256) := by
  refine ⟨Int.mul_ediv_self_le (by omega), ?_, fun h => Int.mul_ediv_cancel' h⟩
  intro h
  exact Dvd.intro _ h

/-- The bucket of the pixel `levels * w` is `levels`. -/
theorem bucket_of_first_uncovered (levels w : Int) (h1 : 1 ≤ levels) (hw : 1 ≤ w) :
    floatToInt (((levels * w : Int) : ℚ) / (w : ℚ)) = levels := by
  have hwq : (w : ℚ) ≠ 0 := by exact_mod_cast (by omega : w ≠ 0)
  have hnn : (0 : ℚ) ≤ ((levels * w : Int) : ℚ) / (w : ℚ) := by
    push_cast
    rw [mul_div_assoc, div_self hwq, mul_one]
    exact_mod_cast (by omega : (0 : Int) ≤ levels)
  rw [floatToInt_of_nonneg _ hnn]
  push_cast
  rw [mul_div_assoc, div_self hwq, mul_one]
  exact Int.floor_intCast levels

/-- The tables of `quantization` for `1 <= levels <= 256`: both are built without an error, the
table of averages has `levels` cells, and what is left of the run is the loop over the pixels. -/
theorem quantization_tables (image : Matrix) (levels : Int) (hI : image.WF) (h1 : 1 ≤ levels)
    (h2 : levels ≤ 256) :
    ∃ averages : List Int, (averages.length : Int) = levels ∧
      quantization image levels =
        forInt 0 (image._rows * image._cols) (fun i newImage => do
          let v ← image.opIndexConst i
          let w ← intDiv TOTAL_COLORS_SUM levels
          if w = 0 then .error .undefinedBehaviour
          else do
            let indOfAvg := floatToInt (v / (w : ℚ))
            let avg ← intArrayGet averages indOfAvg
            newImage.assign i (avg : ℚ))
          (Matrix.mk (List.replicate (image._rows * image._cols).toNat 0) image._rows
            image._cols (image._rows * image._cols)) := by
  have hw := width_pos levels h1 h2
  have hdiv : intDiv TOTAL_COLORS_SUM levels = .ok (256 / levels) := by
    unfold intDiv TOTAL_COLORS_SUM
    rw [if_neg (by omega), Int.tdiv_eq_ediv (by norm_num) (by omega)]
  obtain ⟨L, hL⟩ := Int.eq_ofNat_of_zero_le (by omega : 0 ≤ levels)
  subst hL
  obtain ⟨colors, hcolors, hcl, hcv⟩ := forInt_intCells (List.replicate (L + 1) (-1)) (L + 1)
    (fun i colors => do
      let w ← intDiv TOTAL_COLORS_SUM (L : Int)
      intArraySet colors i (i * w)) (fun k => (k : Int) * (256 / (L : Int))) (by
      intro i a hi hla
      beta_reduce
      rw [hdiv, ok_bind]
      exact intArraySet_ok a i _ (by rw [hla]; simpa using hi))
  obtain ⟨averages, haverages, hal, -⟩ := forInt_intCells (List.replicate L (-1)) L
    (fun i averages => do
      let lo ← intArrayGet colors i
      let hi ← intArrayGet colors (i + 1)
      let avg ← intDiv (lo + hi - 1) 2
      intArraySet averages i avg)
    (fun k => Int.tdiv ((k : Int) * (256 / (L : Int)) + ((k + 1 : Nat) : Int) * (256 / (L : Int))
      - 1) 2)
    (by
      intro i a hi hla
      have hlo := intArrayGet_ok colors i _ (hcv i (by omega))
      have hhi : intArrayGet colors ((i : Int) + 1) =
          .ok (((i + 1 : Nat) : Int) * (256 / (L : Int))) := by
        have := intArrayGet_ok colors (i + 1) _ (hcv (i + 1) (by omega))
        simpa using this
      have havg : intDiv ((i : Int) * (256 / (L : Int)) +
          ((i + 1 : Nat) : Int) * (256 / (L : Int)) - 1) 2 =
          .ok (Int.tdiv ((i : Int) * (256 / (L : Int)) +
            ((i + 1 : Nat) : Int) * (256 / (L : Int)) - 1) 2) := by
        unfold intDiv
        rw [if_neg (by norm_num)]
      beta_reduce
      rw [hlo, ok_bind, hhi, ok_bind, havg, ok_bind]
      exact intArraySet_ok a i _ (by rw [hla]; simpa using hi))
  refine ⟨averages, by rw [hal]; simp, ?_⟩
  unfold quantization Matrix.getRows Matrix.getCols
  rw [ctor_ok image._rows image._cols hI.1 hI.2.1, ok_bind]
  have hnew1 : newIntArray ((L : Int) + 1) = .ok (List.replicate (L + 1) (-1)) := by
    unfold newIntArray
    rw [if_pos (by omega)]
    have : ((L : Int) + 1).toNat = L + 1 := by omega
    rw [this]
  have hnew2 : newIntArray (L : Int) = .ok (List.replicate L (-1)) := by
    unfold newIntArray
    rw [if_pos (by omega)]
    have : (L : Int).toNat = L := by omega
    rw [this]
  have hb1 : (L : Int) + 1 = ((L + 1 : Nat) : Int) := by omega
  rw [hnew1, ok_bind, hb1, hcolors, ok_bind, hnew2, ok_bind, haverages, ok_bind]

/-- A loop that succeeds has run every round with success. -/
theorem forInt_ok_round {σ : Type} (n : Nat) (body : Int → σ → Except Fatal σ) (s r : σ)
    (h : forInt 0 (n : Int) body s = .ok r) :
    ∀ k : Nat, k < n → ∃ t t', body (k : Int) t = .ok t' := by
  induction n generalizing r with
  | zero => intro k hk; exact absurd hk (Nat.not_lt_zero k)
  | succ n ih =>
    rw [forInt_succ] at h
    obtain ⟨t, ht, hlast⟩ := bind_eq_ok h
    intro k hk
    rcases Nat.lt_succ_iff_lt_or_eq.mp hk with h' | h'
    · exact ih t ht k h'
    · rw [h']; exact ⟨t, r, hlast⟩

/-- A raw read of an `int` array that succeeds was inside the array. -/
theorem intArrayGet_inside (a : List Int) (i v : Int) (h : intArrayGet a i = .ok v) :
    0 ≤ i ∧ i < (a.length : Int) := by
  unfold intArrayGet at h
  split at h
  · rename_i h0
    refine ⟨h0, ?_⟩
    by_contra hcon
    have : a.length ≤ i.toNat := by omega
    rw [List.getElem?_eq_none this] at h
    cases h
  · cases h

/-- A raw read of an `int` array one past its end is undefined. -/
theorem intArrayGet_past_end (a : List Int) :
    intArrayGet a (a.length : Int) = .error .undefinedBehaviour := by
  unfold intArrayGet
  rw [if_pos (Int.ofNat_nonneg _)]
  have : a[((a.length : Int)).toNat]? = none := List.getElem?_eq_none (by simp)
  rw [this]

/-- The filter `quantization` returns only when the bucket of every pixel is inside the table of
averages. -/
theorem quantization_index_inside (image R : Matrix) (levels : Int) (hI : image.WF)
    (h1 : 1 ≤ levels) (h2 : levels ≤ 256) (h : quantization image levels = .ok R) :
    ∀ k : Int, 0 ≤ k → k < image._len →
      0 ≤ floatToInt (image.flat k / ((256 / levels : Int) : ℚ)) ∧
      floatToInt (image.flat k / ((256 / levels : Int) : ℚ)) < levels := by
  obtain ⟨averages, hal, hrun⟩ := quantization_tables image levels hI h1 h2
  rw [hrun] at h
  have hw := width_pos levels h1 h2
  have hdiv : intDiv TOTAL_COLORS_SUM levels = .ok (256 / levels) := by
    unfold intDiv TOTAL_COLORS_SUM
    rw [if_neg (by omega), Int.tdiv_eq_ediv (by norm_num) (by omega)]
  have hbuf := hI.2.2.2
  have hL : image._rows * image._cols = (image._matrix.length : Int) := by
    rw [hbuf, hI.2.2.1]
  rw [hL] at h
  intro k hk0 hk
  obtain ⟨n, hn⟩ := Int.eq_ofNat_of_zero_le hk0
  subst hn
  have hn' : n < image._matrix.length := by omega
  obtain ⟨t, t', hround⟩ := forInt_ok_round _ _ _ _ h n hn'
  rw [opIndexConst_ok image n hk hn', ok_bind, hdiv, ok_bind, if_neg (by omega)] at hround
  obtain ⟨avg, hget, -⟩ := bind_eq_ok hround
  have := intArrayGet_inside averages _ avg hget
  rw [hal] at this
  exact this

/-- The filter `quantization` on the 1 x 1 image whose pixel is `levels * (256 / levels)`, for a
number of levels that does not divide 256: the read of the table of averages is one past its end,
which is undefined. -/
theorem quantization_past_end (levels : Int) (h1 : 1 ≤ levels) (h2 : levels ≤ 256) :
    quantization (singleCell ((levels * (256 / levels) : Int) : ℚ)) levels =
      .error .undefinedBehaviour := by
  obtain ⟨averages, hal, hrun⟩ := quantization_tables
    (singleCell ((levels * (256 / levels) : Int) : ℚ)) levels
    ⟨le_refl _, le_refl _, rfl, rfl⟩ h1 h2
  have hw := width_pos levels h1 h2
  have hdiv : intDiv TOTAL_COLORS_SUM levels = .ok (256 / levels) := by
    unfold intDiv TOTAL_COLORS_SUM
    rw [if_neg (by omega), Int.tdiv_eq_ediv (by norm_num) (by omega)]
  rw [hrun]
  have e1 : (singleCell ((levels * (256 / levels) : Int) : ℚ))._rows *
      (singleCell ((levels * (256 / levels) : Int) : ℚ))._cols = ((0 + 1 : Nat) : Int) := rfl
  rw [e1, forInt_succ, forInt_empty 0 ((0 : Nat) : Int) (le_refl _), ok_bind]
  have hv : (singleCell ((levels * (256 / levels) : Int) : ℚ)).opIndexConst ((0 : Nat) : Int) =
      .ok ((levels * (256 / levels) : Int) : ℚ) := rfl
  rw [hv, ok_bind, hdiv, ok_bind, if_neg (by omega)]
  dsimp only
  rw [bucket_of_first_uncovered levels (256 / levels) h1 hw, ← hal, intArrayGet_past_end,
    error_bind]

end ImageProcessor

namespace ImageProcessor

/-! The machine types -/

theorem wrapInt32_of_bounds (x : Int) (h0 : -2147483648 ≤ x) (h1 : x ≤ 2147483647) :
    wrapInt32 x = x := by
  unfold wrapInt32
  omega

theorem roundBinary32_zero : roundBinary32 0 = .finite 0 := by simp [roundBinary32]

theorem ofInt_zero : Binary32.ofInt 0 = .finite 0 := by simp [Binary32.ofInt, roundBinary32]

theorem ofInt_one : Binary32.ofInt 1 = .finite 1 := by decide!

theorem ofInt_255 : Binary32.ofInt 255 = .finite 255 := by decide!

theorem ofInt_256 : Binary32.ofInt 256 = .finite 256 := by decide!

/-! Reads and writes of the buffer of binary32 cells -/

theorem sameShape32_refl (m : Matrix32) : m.SameShape m := ⟨rfl, rfl, rfl, rfl⟩

theorem sameShape32_trans {a b c : Matrix32} (h₁ : a.SameShape b) (h₂ : b.SameShape c) :
    a.SameShape c :=
  ⟨h₁.1.trans h₂.1, h₁.2.1.trans h₂.2.1, h₁.2.2.1.trans h₂.2.2.1, h₁.2.2.2.trans h₂.2.2.2⟩

theorem sameShape32_wf {a b : Matrix32} (h : a.SameShape b) (hb : b.WF) : a.WF := by
  obtain ⟨h1, h2, h3, h4⟩ := h
  obtain ⟨w1, w2, w3, w4, w5⟩ := hb
  exact ⟨h1 ▸ w1, h2 ▸ w2, by rw [h3, h1, h2]; exact w3, by rw [h4, h3]; exact w4,
    by rw [h3]; exact w5⟩

theorem load32_of_getElem? (m : Matrix32) (p : Nat) (v : Binary32) (h : m._matrix[p]? = some v) :
    m.load p = .ok v := by
  simp [Matrix32.load, h]

theorem flat32_of_getElem? (m : Matrix32) (p : Nat) (v : Binary32) (h : m._matrix[p]? = some v) :
    m.flat (p : Int) = v := by
  simp [Matrix32.flat, List.getD, h]

theorem getElem?_flat32 (m : Matrix32) (p : Nat) (h : p < m._matrix.length) :
    m._matrix[p]? = some (m.flat (p : Int)) := by
  simp [Matrix32.flat, List.getD, List.getElem?_eq_getElem h]

/-- A checked write `m[k] = v` inside the buffer succeeds and changes cell `k` only. -/
theorem assign32_ok (m : Matrix32) (k : Nat) (v : Binary32) (hk : (k : Int) < m._len)
    (hl : k < m._matrix.length) :
    ∃ s, m.assign (k : Int) v = .ok s ∧ s.SameShape m ∧ s._matrix[k]? = some v ∧
      ∀ j, j ≠ k → s._matrix[j]? = m._matrix[j]? := by
  refine ⟨{ m with _matrix := m._matrix.set k v }, ?_, ⟨rfl, rfl, rfl, by simp⟩, ?_, ?_⟩
  · simp [Matrix32.assign, Matrix32.opIndex, Matrix32.store, hk, hl, bind, Except.bind]
  · simp [List.getElem?_set, hl]
  · intro j hj
    simp [List.getElem?_set, Ne.symm hj]

/-- A checked read `m[k]` inside the buffer succeeds with the cell. -/
theorem opIndexConst32_ok (m : Matrix32) (k : Nat) (hk : (k : Int) < m._len)
    (hl : k < m._matrix.length) : m.opIndexConst (k : Int) = .ok (m.flat (k : Int)) := by
  simp [Matrix32.opIndexConst, hk, load32_of_getElem? m k _ (getElem?_flat32 m k hl)]

theorem read32_ok (m : Matrix32) (k : Nat) (hk : (k : Int) < m._len)
    (hl : k < m._matrix.length) : m.read (k : Int) = .ok (m.flat (k : Int)) := by
  simp [Matrix32.read, Matrix32.opIndex, hk, bind, Except.bind,
    load32_of_getElem? m k _ (getElem?_flat32 m k hl)]

/-- A loop that settles one cell per round, in the order of the flat offsets. -/
theorem forInt_cells32 (m0 : Matrix32) (n : Nat) (body : Int → Matrix32 → Except Fatal Matrix32)
    (g : Nat → Binary32)
    (hbody : ∀ (i : Nat) (s : Matrix32), i < n → s.SameShape m0 →
      (∀ k, i ≤ k → s._matrix[k]? = m0._matrix[k]?) →
      ∃ s', body (i : Int) s = .ok s' ∧ s'.SameShape s ∧ s'._matrix[i]? = some (g i) ∧
        ∀ k, k ≠ i → s'._matrix[k]? = s._matrix[k]?) :
    ∃ r, forInt 0 (n : Int) body m0 = .ok r ∧ r.SameShape m0 ∧
      (∀ k, k < n → r._matrix[k]? = some (g k)) ∧
      (∀ k, n ≤ k → r._matrix[k]? = m0._matrix[k]?) := by
  apply forInt_inv n body (fun i s => s.SameShape m0 ∧
      (∀ k, k < i → s._matrix[k]? = some (g k)) ∧
      (∀ k, i ≤ k → s._matrix[k]? = m0._matrix[k]?)) m0
  · exact ⟨sameShape32_refl m0, fun k hk => absurd hk (Nat.not_lt_zero k), fun _ _ => rfl⟩
  · rintro i s hi ⟨hs, hdone, hrest⟩
    obtain ⟨s', hb, hs', hi', hoth⟩ := hbody i s hi hs hrest
    refine ⟨s', hb, sameShape32_trans hs' hs, ?_, ?_⟩
    · intro k hk
      rcases Nat.lt_succ_iff_lt_or_eq.mp hk with h | h
      · rw [hoth k (Nat.ne_of_lt h)]; exact hdone k h
      · rw [h]; exact hi'
    · intro k hk
      rw [hoth k (by omega)]; exact hrest k (by omega)

/-- A raw write inside the buffer succeeds and changes cell `p` only. -/
theorem store32_ok (m : Matrix32) (p : Nat) (v : Binary32) (hl : p < m._matrix.length) :
    ∃ s, m.store p v = .ok s ∧ s.SameShape m ∧ s._matrix[p]? = some v ∧
      ∀ j, j ≠ p → s._matrix[j]? = m._matrix[j]? := by
  refine ⟨{ m with _matrix := m._matrix.set p v }, ?_, ⟨rfl, rfl, rfl, by simp⟩, ?_, ?_⟩
  · simp [Matrix32.store, hl]
  · simp [List.getElem?_set, hl]
  · intro j hj
    simp [List.getElem?_set, Ne.symm hj]

theorem opIndex32_ok (m : Matrix32) (k : Nat) (hk : (k : Int) < m._len) :
    m.opIndex (k : Int) = .ok k := by
  simp [Matrix32.opIndex, hk]

end ImageProcessor

namespace ImageProcessor

/-! The constructors on the machine types -/

theorem newFloatArray32_ok (n : Nat) :
    newFloatArray32 (n : Int) = .ok (List.replicate n (.finite (-1))) := by
  simp [newFloatArray32]

/-- The constructor on dimensions that are at least 1 and whose product is an `int`: the three
`int`s are set and every cell of the buffer is 0. -/
theorem ctor32_ok (rows cols : Int) (hr : 1 ≤ rows) (hc : 1 ≤ cols)
    (hb : rows * cols ≤ INT_MAX) :
    Matrix32.ctor rows cols = .ok
      { _matrix := List.replicate (rows * cols).toNat (.finite 0), _rows := rows, _cols := cols,
        _len := rows * cols } := by
  have hpos : 0 ≤ rows * cols := by positivity
  obtain ⟨n, hn⟩ := Int.eq_ofNat_of_zero_le hpos
  have hw : wrapInt32 (rows * cols) = (n : Int) := by
    rw [← hn]
    exact wrapInt32_of_bounds _ (by omega) (by unfold INT_MAX at hb; omega)
  obtain ⟨r, hrun, hshape, hdone, -⟩ := forInt_cells32
    { _matrix := List.replicate n (.finite (-1)), _rows := rows, _cols := cols, _len := (n : Int) }
    n (fun i this => this.assign i (Binary32.ofInt 0)) (fun _ => .finite 0) (by
      intro i s hi hs _
      beta_reduce
      rw [ofInt_zero]
      exact assign32_ok s i _ (by rw [hs.2.2.1]; simp only []; exact_mod_cast hi)
        (by rw [hs.2.2.2]; simpa using hi))
  have hdata : r._matrix = List.replicate n (.finite 0) := by
    apply List.ext_getElem?
    intro k
    by_cases hk : k < n
    · rw [hdone k hk]; simp [List.getElem?_replicate, hk]
    · have h1 : r._matrix.length ≤ k := by rw [hshape.2.2.2]; simp; omega
      simp [List.getElem?_eq_none h1, List.getElem?_replicate, hk]
  have hctor : Matrix32.ctor rows cols = .ok r := by
    unfold Matrix32.ctor
    rw [if_neg (by unfold MINIMAL_MATRIX_SIZE; omega)]
    simp only [hw, newFloatArray32_ok, ok_bind]
    exact hrun
  rw [hctor]
  obtain ⟨h1, h2, h3, -⟩ := hshape
  cases r
  simp_all

/-- Two buffers of one size with the same cells are the same buffer. -/
theorem buffer_ext32 (a b : List Binary32) (hlen : a.length = b.length)
    (h : ∀ k, k < b.length → a[k]? = b[k]?) : a = b := by
  apply List.ext_getElem?
  intro k
  by_cases hk : k < b.length
  · exact h k hk
  · rw [List.getElem?_eq_none (by omega), List.getElem?_eq_none (by omega)]

theorem WF32.bound {m : Matrix32} (h : m.WF) : m._rows * m._cols ≤ INT_MAX := by
  rw [← h.2.2.1]; exact h.2.2.2.2

/-- The copy constructor yields its argument: same shape, same cells. -/
theorem copy32_ok (m : Matrix32) (h : m.WF) : m.copy = .ok m := by
  have hb := WF32.bound h
  obtain ⟨h1, h2, h3, h4, -⟩ := h
  have hn : ((m._rows * m._cols).toNat : Int) = m._rows * m._cols := by
    rw [← h3, ← h4]; simp
  have hnl : (m._rows * m._cols).toNat = m._matrix.length := by
    rw [← h3, ← h4]; simp
  obtain ⟨r, hrun, hshape, hdone, -⟩ := forInt_cells32
    { _matrix := List.replicate (m._rows * m._cols).toNat (.finite 0), _rows := m._rows,
      _cols := m._cols, _len := m._rows * m._cols }
    m._matrix.length
    (fun i this => do
      let v ← m.opIndexConst i
      this.assign i v) (fun k => m.flat (k : Int)) (by
      intro i s hi hs _
      have hv : m.opIndexConst (i : Int) = .ok (m.flat (i : Int)) :=
        opIndexConst32_ok m i (by rw [← h4]; exact_mod_cast hi) hi
      simp only [hv, bind, Except.bind]
      exact assign32_ok s i _ (by rw [hs.2.2.1]; simp only []; rw [← h3, ← h4]; exact_mod_cast hi)
        (by rw [hs.2.2.2]; simp [hnl]; exact hi))
  have hdata : r._matrix = m._matrix := by
    apply buffer_ext32
    · rw [hshape.2.2.2]; simp [hnl]
    · intro k hk
      rw [hdone k hk, getElem?_flat32 m k hk]
  have hcopy : m.copy = .ok r := by
    have e : m._rows * m._cols = (m._matrix.length : Int) := by rw [h4, h3]
    unfold Matrix32.copy
    rw [ctor32_ok m._rows m._cols h1 h2 hb]
    rw [ok_bind]
    dsimp only
    rw [e] at hrun ⊢
    exact hrun
  rw [hcopy]
  obtain ⟨e1, e2, e3, -⟩ := hshape
  cases r
  cases m
  simp_all

/-! Element access on the machine types -/

theorem WF32.offset_bounds {m : Matrix32} (h : m.WF) (i j : Int) (hi0 : 0 ≤ i)
    (hi1 : i < m._rows) (hj0 : 0 ≤ j) (hj1 : j < m._cols) :
    0 ≤ i * m._cols + j ∧ i * m._cols + j < m._len ∧
      wrapInt32 (i * m._cols + j) = i * m._cols + j := by
  obtain ⟨h1, h2, h3, h4, h5⟩ := h
  have hk0 : 0 ≤ i * m._cols + j := add_nonneg (mul_nonneg hi0 (by omega)) hj0
  have hk : i * m._cols + j < m._len := by
    rw [h3]; nlinarith
  refine ⟨hk0, hk, wrapInt32_of_bounds _ (by omega) ?_⟩
  unfold INT_MAX at h5
  omega

/-- The read-only `(i, j)` accessor on a cell of the matrix returns that cell. -/
theorem opCallConst32_ok (m : Matrix32) (h : m.WF) (i j : Int) (hi0 : 0 ≤ i) (hi1 : i < m._rows)
    (hj0 : 0 ≤ j) (hj1 : j < m._cols) : m.opCallConst i j = .ok (m.cell i j) := by
  obtain ⟨hk0, hk, hw⟩ := WF32.offset_bounds h i j hi0 hi1 hj0 hj1
  obtain ⟨h1, h2, h3, h4, -⟩ := h
  obtain ⟨n, hn⟩ := Int.eq_ofNat_of_zero_le hk0
  have hc : 0 ≤ i ∧ i < m._rows ∧ 0 ≤ j ∧ m._cols ≠ 0 := ⟨hi0, hi1, hj0, by omega⟩
  simp only [Matrix32.opCallConst, if_pos hc, Matrix32.cell, hw]
  simp only [hn]
  have := opIndexConst32_ok m n (by rw [← hn]; exact hk) (by rw [← h4] at hk; omega)
  rw [this]; simp [Matrix32.flat]

/-- The mutable `(i, j)` accessor on a cell of the matrix returns the offset of that cell. -/
theorem opCall32_ok (m : Matrix32) (h : m.WF) (i j : Int) (hi0 : 0 ≤ i)
    (hi1 : i < m._rows) (hj0 : 0 ≤ j) (hj1 : j < m._cols) :
    m.opCall i j = .ok (i * m._cols + j).toNat := by
  obtain ⟨hk0, hk, hw⟩ := WF32.offset_bounds h i j hi0 hi1 hj0 hj1
  simp [Matrix32.opCall, Matrix32.opIndex, hi0, hi1, hj0, hj1, hw, hk0, hk]

end ImageProcessor

namespace ImageProcessor

/-! Arithmetic operators on the machine types -/

/-- The sum of two matrices of one shape: a matrix of that shape whose flat cell `k` is the sum
of the two flat cells `k`. -/
theorem opAdd32_ok (A B : Matrix32) (hA : A.WF) (hB : B.WF) (hr : A._rows = B._rows)
    (hc : A._cols = B._cols) :
    ∃ R, A.opAdd B = .ok R ∧ R.SameShape A ∧
      ∀ k : Nat, k < A._matrix.length → R._matrix[k]? = some ((A.flat k).add (B.flat k)) := by
  have hlenA := hA.2.2.2.1
  have hlenB := hB.2.2.2.1
  have hlen : B._len = A._len := by rw [hA.2.2.1, hB.2.2.1, hr, hc]
  obtain ⟨R, hrun, hshape, hdone, -⟩ := forInt_cells32 A A._matrix.length
    (fun i newMatrix => do
      let v ← B.opIndexConst i
      let p ← newMatrix.opIndex i
      let old ← newMatrix.load p
      newMatrix.store p (old.add v)) (fun k => (A.flat k).add (B.flat k)) (by
      intro i s hi hs hrest
      have hv : B.opIndexConst (i : Int) = .ok (B.flat (i : Int)) :=
        opIndexConst32_ok B i (by rw [hlen, ← hlenA]; exact_mod_cast hi) (by omega)
      have hp : s.opIndex (i : Int) = .ok i :=
        opIndex32_ok s i (by rw [hs.2.2.1, ← hlenA]; exact_mod_cast hi)
      have hold : s.load i = .ok (A.flat (i : Int)) :=
        load32_of_getElem? s i _ (by rw [hrest i (le_refl i)]; exact getElem?_flat32 A i hi)
      beta_reduce
      rw [hv, ok_bind, hp, ok_bind, hold, ok_bind]
      exact store32_ok s i _ (by rw [hs.2.2.2]; exact hi))
  refine ⟨R, ?_, hshape, hdone⟩
  unfold Matrix32.opAdd
  rw [if_pos ⟨hr, hc⟩, copy32_ok A hA, ok_bind, ← hlenA]
  exact hrun

/-- The scaling of a matrix by a scalar that is not 0: a matrix of the same shape whose flat cell
`k` is the product of the flat cell `k` and the scalar. -/
theorem opMulScalar32_ok (M : Matrix32) (hM : M.WF) (s : Binary32) (hs : s.eq (Binary32.ofInt 0) = false) :
    ∃ R, M.opMulScalar s = .ok R ∧ R.SameShape M ∧
      ∀ k : Nat, k < M._matrix.length → R._matrix[k]? = some ((M.flat k).mul s) := by
  have hlenM := hM.2.2.2.1
  obtain ⟨R, hrun, hshape, hdone, -⟩ := forInt_cells32 M M._matrix.length
    (fun i newMatrix => do
      let p ← newMatrix.opIndex i
      let old ← newMatrix.load p
      newMatrix.store p (old.mul s)) (fun k => (M.flat k).mul s) (by
      intro i t hi ht hrest
      have hp : t.opIndex (i : Int) = .ok i :=
        opIndex32_ok t i (by rw [ht.2.2.1, ← hlenM]; exact_mod_cast hi)
      have hold : t.load i = .ok (M.flat (i : Int)) :=
        load32_of_getElem? t i _ (by rw [hrest i (le_refl i)]; exact getElem?_flat32 M i hi)
      beta_reduce
      rw [hp, ok_bind, hold, ok_bind]
      exact store32_ok t i _ (by rw [ht.2.2.2]; exact hi))
  refine ⟨R, ?_, hshape, hdone⟩
  unfold Matrix32.opMulScalar
  rw [if_neg (by simp [hs]), copy32_ok M hM, ok_bind, ← hlenM]
  exact hrun

/-- The check of `operator/` for the scalar 0: it passes when every cell is 0 and stops with
"Division by zero." when a cell is not. -/
theorem opDiv32_zero_check (M : Matrix32) (hM : M.WF) :
    (forInt 0 M._len (fun i (_ : Unit) => do
        let v ← M.opIndexConst i
        if v.ne (Binary32.ofInt 0) then .error .divisionByZero else pure ()) () = .ok () ∧
      ∀ k : Nat, k < M._matrix.length → (M.flat k).ne (Binary32.ofInt 0) = false) ∨
    (forInt 0 M._len (fun i (_ : Unit) => do
        let v ← M.opIndexConst i
        if v.ne (Binary32.ofInt 0) then .error .divisionByZero else pure ()) () = .error .divisionByZero ∧
      ∃ k : Nat, k < M._matrix.length ∧ (M.flat k).ne (Binary32.ofInt 0) = true) := by
  have hlenM := hM.2.2.2.1
  have hbody : ∀ k : Nat, k < M._matrix.length →
      (do
        let v ← M.opIndexConst (k : Int)
        if v.ne (Binary32.ofInt 0) then (Except.error Fatal.divisionByZero : Except Fatal Unit) else pure ()) =
      if (M.flat k).ne (Binary32.ofInt 0) then .error .divisionByZero else .ok () := by
    intro k hk
    rw [opIndexConst32_ok M k (by rw [← hlenM]; exact_mod_cast hk) hk, ok_bind]
    rfl
  rw [← hlenM]
  rcases forInt_check M._matrix.length (fun i (_ : Unit) => do
        let v ← M.opIndexConst i
        if v.ne (Binary32.ofInt 0) then .error .divisionByZero else pure ()) .divisionByZero (by
      intro k hk
      show (do
        let v ← M.opIndexConst (k : Int)
        if v.ne (Binary32.ofInt 0) then (Except.error Fatal.divisionByZero : Except Fatal Unit) else pure ()) = _ ∨
        (do
        let v ← M.opIndexConst (k : Int)
        if v.ne (Binary32.ofInt 0) then (Except.error Fatal.divisionByZero : Except Fatal Unit) else pure ()) = _
      rw [hbody k hk]
      by_cases h0 : (M.flat k).ne (Binary32.ofInt 0) = true
      · right; rw [if_pos h0]
      · left; rw [if_neg h0]) with ⟨hok, hall⟩ | ⟨herr, k, hk, hke⟩
  · left
    refine ⟨hok, ?_⟩
    intro k hk
    have := hall k hk
    change (do
        let v ← M.opIndexConst (k : Int)
        if v.ne (Binary32.ofInt 0) then (Except.error Fatal.divisionByZero : Except Fatal Unit) else pure ()) = _
      at this
    rw [hbody k hk] at this
    by_contra h0
    rw [if_pos (by simpa using h0)] at this
    cases this
  · right
    refine ⟨herr, k, hk, ?_⟩
    change (do
        let v ← M.opIndexConst (k : Int)
        if v.ne (Binary32.ofInt 0) then (Except.error Fatal.divisionByZero : Except Fatal Unit) else pure ()) = _
      at hke
    rw [hbody k hk] at hke
    by_contra h0
    rw [if_neg h0] at hke
    cases hke

end ImageProcessor

namespace ImageProcessor

/-! The filter `normalize` on the machine types -/

theorem WF32.wrap_len {m : Matrix32} (h : m.WF) :
    wrapInt32 (m._rows * m._cols) = (m._matrix.length : Int) := by
  obtain ⟨h1, h2, h3, h4, h5⟩ := h
  rw [← h3, ← h4]
  rw [← h4] at h5
  unfold INT_MAX at h5
  exact wrapInt32_of_bounds _ (by omega) h5

/-- The filter `normalize` on any matrix: it succeeds, keeps the shape, and replaces each cell that
compares below 0 by 0, each cell that compares at least 256 by 255, and leaves every other cell,
a NaN among them, as it is. -/
theorem normalize32_ok (M : Matrix32) (hM : M.WF) :
    ∃ R, normalize32 M = .ok R ∧ R.SameShape M ∧
      ∀ k : Nat, k < M._matrix.length → R._matrix[k]? = some (clampCell32 (M.flat k)) := by
  have hlenM := hM.2.2.2.1
  have hF : Binary32.ofInt FIRST_COLOR = .finite 0 := ofInt_zero
  have hT : Binary32.ofInt TOTAL_COLORS_SUM = .finite 256 := ofInt_256
  have hL : Binary32.ofInt LAST_COLOR = .finite 255 := ofInt_255
  obtain ⟨R, hrun, hshape, hdone, -⟩ := forInt_cells32 M M._matrix.length
    (fun i image => do
      let v ← image.read i
      if v.lt (Binary32.ofInt 0) then image.assign i (Binary32.ofInt FIRST_COLOR)
      else do
        let v ← image.read i
        if v.ge (Binary32.ofInt TOTAL_COLORS_SUM) then image.assign i (Binary32.ofInt LAST_COLOR)
        else pure image)
    (fun k => clampCell32 (M.flat k)) (by
      intro i s hi hs hrest
      have hlt : (i : Int) < s._len := by rw [hs.2.2.1, ← hlenM]; exact_mod_cast hi
      have hls : i < s._matrix.length := by rw [hs.2.2.2]; exact hi
      have hsi : s._matrix[i]? = some (M.flat (i : Int)) := by
        rw [hrest i (le_refl i)]; exact getElem?_flat32 M i hi
      have hflat : s.flat (i : Int) = M.flat (i : Int) := flat32_of_getElem? s i _ hsi
      have hread : s.read (i : Int) = .ok (M.flat (i : Int)) := by
        rw [read32_ok s i hlt hls, hflat]
      beta_reduce
      rw [hread, ok_bind, ofInt_zero, hF, hT, hL]
      unfold clampCell32
      by_cases h0 : (M.flat (i : Int)).lt (.finite 0) = true
      · rw [if_pos h0, if_pos h0]
        exact assign32_ok s i _ hlt hls
      · rw [if_neg h0, if_neg h0, ok_bind]
        by_cases h1 : (M.flat (i : Int)).ge (.finite 256) = true
        · rw [if_pos h1, if_pos h1]
          exact assign32_ok s i _ hlt hls
        · rw [if_neg h1, if_neg h1]
          exact ⟨s, rfl, sameShape32_refl s, hsi, fun _ _ => rfl⟩)
  refine ⟨R, ?_, hshape, hdone⟩
  unfold normalize32 Matrix32.getRows Matrix32.getCols
  rw [WF32.wrap_len hM]
  exact hrun

theorem offset32_lt (M : Matrix32) (hM : M.WF) (i j : Int) (hi0 : 0 ≤ i) (hi : i < M._rows)
    (hj0 : 0 ≤ j) (hj : j < M._cols) :
    0 ≤ i * M._cols + j ∧ (i * M._cols + j).toNat < M._matrix.length := by
  obtain ⟨h0, h1, -⟩ := WF32.offset_bounds hM i j hi0 hi hj0 hj
  have := hM.2.2.2.1
  exact ⟨h0, by omega⟩

/-- The filter `normalize`, cell by cell: cell `(i, j)` of the result is the clamped cell `(i, j)`
of the argument. -/
theorem normalize32_cell (M : Matrix32) (hM : M.WF) :
    ∃ R, normalize32 M = .ok R ∧ R.WF ∧ R._rows = M._rows ∧ R._cols = M._cols ∧
      ∀ i j : Int, 0 ≤ i → i < M._rows → 0 ≤ j → j < M._cols →
        R.cell i j = clampCell32 (M.cell i j) := by
  obtain ⟨R, hR, hshape, hcells⟩ := normalize32_ok M hM
  refine ⟨R, hR, sameShape32_wf hshape hM, hshape.1, hshape.2.1, ?_⟩
  intro i j hi0 hi hj0 hj
  obtain ⟨h0, hlt⟩ := offset32_lt M hM i j hi0 hi hj0 hj
  obtain ⟨n, hn⟩ := Int.eq_ofNat_of_zero_le h0
  have hn' : n < M._matrix.length := by rw [hn] at hlt; simpa using hlt
  have := flat32_of_getElem? R n _ (hcells n hn')
  unfold Matrix32.cell
  unfold Matrix32.flat at this
  rw [hshape.2.1, hn]
  exact this

end ImageProcessor

namespace ImageProcessor

/-! Loops over rows and columns, and the matrix product, on the machine types -/

/-- Two nested loops, over the rows and over the columns, that settle one cell per inner round:
cell `(i, j)` is at flat offset `i * cols + j`, and the rounds visit the offsets in order. -/
theorem forInt_cells2_32 (m0 : Matrix32) (rows cols : Nat)
    (body : Int → Int → Matrix32 → Except Fatal Matrix32) (g : Nat → Nat → Binary32)
    (hbody : ∀ (i j : Nat) (s : Matrix32), i < rows → j < cols → s.SameShape m0 →
      (∀ k, i * cols + j ≤ k → s._matrix[k]? = m0._matrix[k]?) →
      ∃ s', body (i : Int) (j : Int) s = .ok s' ∧ s'.SameShape s ∧
        s'._matrix[i * cols + j]? = some (g i j) ∧
        ∀ k, k ≠ i * cols + j → s'._matrix[k]? = s._matrix[k]?) :
    ∃ r, forInt 0 (rows : Int) (fun i s => forInt 0 (cols : Int) (fun j s => body i j s) s) m0
        = .ok r ∧ r.SameShape m0 ∧
      (∀ i j, i < rows → j < cols → r._matrix[i * cols + j]? = some (g i j)) ∧
      (∀ k, rows * cols ≤ k → r._matrix[k]? = m0._matrix[k]?) := by
  have hdecomp : ∀ i j, j < cols → (i * cols + j) / cols = i ∧ (i * cols + j) % cols = j := by
    intro i j hj
    have hc : 0 < cols := by omega
    constructor
    · rw [Nat.add_comm, Nat.add_mul_div_right _ _ hc, Nat.div_eq_of_lt hj, Nat.zero_add]
    · rw [Nat.add_comm, Nat.add_mul_mod_self_right, Nat.mod_eq_of_lt hj]
  obtain ⟨r, hr, hshape, hdone, hrest⟩ := forInt_inv rows
    (fun i s => forInt 0 (cols : Int) (fun j s => body i j s) s)
    (fun i s => s.SameShape m0 ∧
      (∀ k, k < i * cols → s._matrix[k]? = some (g (k / cols) (k % cols))) ∧
      (∀ k, i * cols ≤ k → s._matrix[k]? = m0._matrix[k]?)) m0
    ⟨sameShape32_refl m0, fun k hk => by simp at hk, fun _ _ => rfl⟩
    (by
      rintro i s hi ⟨hs, hdone, hrest⟩
      obtain ⟨t, ht, hts, htdone, htrest⟩ := forInt_inv cols (fun j s => body (i : Int) j s)
        (fun j s => s.SameShape m0 ∧
          (∀ k, k < i * cols + j → s._matrix[k]? = some (g (k / cols) (k % cols))) ∧
          (∀ k, i * cols + j ≤ k → s._matrix[k]? = m0._matrix[k]?)) s
        ⟨hs, by simpa using hdone, by simpa using hrest⟩
        (by
          rintro j u hj ⟨hu, hudone, hurest⟩
          obtain ⟨u', hb, hu', hcell, hoth⟩ := hbody i j u hi hj hu hurest
          refine ⟨u', hb, sameShape32_trans hu' hu, ?_, ?_⟩
          · intro k hk
            by_cases hkeq : k = i * cols + j
            · obtain ⟨e1, e2⟩ := hdecomp i j hj
              rw [hkeq, e1, e2]; exact hcell
            · rw [hoth k hkeq]; exact hudone k (by omega)
          · intro k hk
            rw [hoth k (by omega)]; exact hurest k (by omega))
      have e : i * cols + cols = (i + 1) * cols := by rw [Nat.succ_mul]
      exact ⟨t, ht, hts, by rw [← e]; exact htdone, by rw [← e]; exact htrest⟩)
  refine ⟨r, hr, hshape, ?_, hrest⟩
  intro i j hi hj
  obtain ⟨e1, e2⟩ := hdecomp i j hj
  have hlt : i * cols + j < rows * cols := by
    have : (i + 1) * cols ≤ rows * cols := Nat.mul_le_mul_right cols hi
    rw [Nat.succ_mul] at this
    omega
  have := hdone (i * cols + j) hlt
  rw [e1, e2] at this
  exact this

/-- The cell `(i, j)` of a matrix whose buffer holds `v` at offset `i * cols + j`. -/
theorem cell32_of_getElem? (m : Matrix32) (i j c : Nat) (hc : m._cols = (c : Int)) (v : Binary32)
    (h : m._matrix[i * c + j]? = some v) : m.cell (i : Int) (j : Int) = v := by
  simp [Matrix32.cell, hc, offset_toNat, List.getD, h]

/-- The innermost loop of the matrix product: it adds the `A._cols` products to cell `(i, j)` of
the result and touches no other cell. -/
theorem opMul32_inner (A B : Matrix32) (hA : A.WF) (hB : B.WF) (h : A._cols = B._rows)
    (s : Matrix32) (Cn Kn i j : Nat) (hK : A._cols = (Kn : Int)) (hC : B._cols = (Cn : Int))
    (hsc : s._cols = (Cn : Int)) (hswf : s.WF)
    (hi : (i : Int) < A._rows) (hir : (i : Int) < s._rows) (hj : j < Cn)
    (hlen : i * Cn + j < s._matrix.length) (hzero : s._matrix[i * Cn + j]? = some (.finite 0)) :
    ∃ t, forInt 0 (Kn : Int) (fun k newMatrix => do
          let a ← A.opCallConst (i : Int) k
          let b ← B.opCallConst k (j : Int)
          let p ← newMatrix.opCall (i : Int) (j : Int)
          let old ← newMatrix.load p
          newMatrix.store p (old.add (a.mul b))) s = .ok t ∧ t.SameShape s ∧
      t._matrix[i * Cn + j]? =
        some (accumulatedDot A B (i : Int) (j : Int) Kn) ∧
      ∀ q, q ≠ i * Cn + j → t._matrix[q]? = s._matrix[q]? := by
  apply forInt_inv Kn _ (fun k t => t.SameShape s ∧
      t._matrix[i * Cn + j]? =
        some (accumulatedDot A B (i : Int) (j : Int) k) ∧
      ∀ q, q ≠ i * Cn + j → t._matrix[q]? = s._matrix[q]?) s
  · exact ⟨sameShape32_refl s, hzero, fun _ _ => rfl⟩
  · rintro k t hk ⟨hts, hcell, hoth⟩
    have ha : A.opCallConst (i : Int) (k : Int) = .ok (A.cell (i : Int) (k : Int)) :=
      opCallConst32_ok A hA _ _ (Int.ofNat_nonneg i) hi (Int.ofNat_nonneg k)
        (by rw [hK]; exact_mod_cast hk)
    have hb : B.opCallConst (k : Int) (j : Int) = .ok (B.cell (k : Int) (j : Int)) :=
      opCallConst32_ok B hB _ _ (Int.ofNat_nonneg k) (by rw [← h, hK]; exact_mod_cast hk)
        (Int.ofNat_nonneg j) (by rw [hC]; exact_mod_cast hj)
    have hp : t.opCall (i : Int) (j : Int) = .ok (i * Cn + j) := by
      have := opCall32_ok t (sameShape32_wf hts hswf) (i : Int) (j : Int)
        (Int.ofNat_nonneg i) (by rw [hts.1]; exact hir) (Int.ofNat_nonneg j)
        (by rw [hts.2.1, hsc]; exact_mod_cast hj)
      rw [this, hts.2.1, hsc, offset_toNat]
    have hold := load32_of_getElem? t (i * Cn + j) _ hcell
    obtain ⟨t', hst, hshape', hnew, hoth'⟩ := store32_ok t (i * Cn + j)
      ((accumulatedDot A B (i : Int) (j : Int) k).add
        ((A.cell (i : Int) (k : Int)).mul (B.cell (k : Int) (j : Int))))
      (by rw [hts.2.2.2]; exact hlen)
    refine ⟨t', ?_, sameShape32_trans hshape' hts, ?_, ?_⟩
    · beta_reduce
      rw [ha, ok_bind, hb, ok_bind, hp, ok_bind, hold, ok_bind]
      exact hst
    · rw [hnew]; rfl
    · intro q hq
      rw [hoth' q hq]; exact hoth q hq

/-- The matrix product of `A` and `B` when the columns of `A` are as many as the rows of `B`: it
succeeds with a matrix of `A._rows` rows and `B._cols` columns whose cell `(i, j)` is the sum of
the products `A(i, k) * B(k, j)` accumulated in binary32. -/
theorem opMul32_ok (A B : Matrix32) (hA : A.WF) (hB : B.WF) (h : A._cols = B._rows)
    (hb : A._rows * B._cols ≤ INT_MAX) :
    ∃ R, A.opMul B = .ok R ∧ R.WF ∧ R._rows = A._rows ∧ R._cols = B._cols ∧
      ∀ i j : Nat, (i : Int) < A._rows → (j : Int) < B._cols →
        R.cell (i : Int) (j : Int) = accumulatedDot A B (i : Int) (j : Int) A._cols.toNat := by
  obtain ⟨Rn, hRn⟩ := Int.eq_ofNat_of_zero_le (by have := hA.1; omega : 0 ≤ A._rows)
  obtain ⟨Cn, hCn⟩ := Int.eq_ofNat_of_zero_le (by have := hB.2.1; omega : 0 ≤ B._cols)
  obtain ⟨Kn, hKn⟩ := Int.eq_ofNat_of_zero_le (by have := hA.2.1; omega : 0 ≤ A._cols)
  have hctor := ctor32_ok A._rows B._cols hA.1 hB.2.1 hb
  have hlen0 : (A._rows * B._cols).toNat = Rn * Cn := by
    rw [hRn, hCn]
    have : (Rn : Int) * (Cn : Int) = ((Rn * Cn : Nat) : Int) := by push_cast; ring
    rw [this]; exact Int.toNat_ofNat _
  have hwf0 : (Matrix32.mk (List.replicate (A._rows * B._cols).toNat (.finite 0)) A._rows
      B._cols (A._rows * B._cols)).WF :=
    ⟨hA.1, hB.2.1, rfl,
      by simp only [List.length_replicate]; rw [hlen0, hRn, hCn]; push_cast; ring, hb⟩
  obtain ⟨R, hrun, hshape, hdone, -⟩ := forInt_cells2_32
    { _matrix := List.replicate (A._rows * B._cols).toNat (.finite 0), _rows := A._rows,
      _cols := B._cols, _len := A._rows * B._cols } Rn Cn
    (fun i j newMatrix => forInt 0 A._cols (fun k newMatrix => do
          let a ← A.opCallConst i k
          let b ← B.opCallConst k j
          let p ← newMatrix.opCall i j
          let old ← newMatrix.load p
          newMatrix.store p (old.add (a.mul b))) newMatrix)
    (fun i j => accumulatedDot A B (i : Int) (j : Int) Kn)
    (by
      intro i j s hi hj hs hrest
      have hlt : i * Cn + j < Rn * Cn := by
        have : (i + 1) * Cn ≤ Rn * Cn := Nat.mul_le_mul_right Cn hi
        rw [Nat.succ_mul] at this
        omega
      beta_reduce
      rw [hKn]
      exact opMul32_inner A B hA hB h s Cn Kn i j hKn hCn (by rw [hs.2.1]; exact hCn)
        (sameShape32_wf hs hwf0)
        (by rw [hRn]; exact_mod_cast hi) (by rw [hs.1]; simp only []; rw [hRn]; exact_mod_cast hi)
        hj (by rw [hs.2.2.2]; simp only [List.length_replicate]; rw [hlen0]; exact hlt)
        (by rw [hrest _ (le_refl _)]; simp only []; rw [hlen0]
            simp [List.getElem?_replicate, hlt]))
  have hwf : R.WF := sameShape32_wf hshape hwf0
  refine ⟨R, ?_, hwf, hshape.1, hshape.2.1, ?_⟩
  · unfold Matrix32.opMul
    rw [if_pos h, hctor, ok_bind]
    rw [hRn, hCn] at hrun ⊢
    exact hrun
  · intro i j hi hj
    have hi' : i < Rn := by rw [hRn] at hi; exact_mod_cast hi
    have hj' : j < Cn := by rw [hCn] at hj; exact_mod_cast hj
    have hKt : A._cols.toNat = Kn := by rw [hKn]; exact Int.toNat_ofNat _
    rw [hKt]
    exact cell32_of_getElem? R i j Cn (by rw [hshape.2.1]; exact hCn) _ (hdone i j hi' hj')

end ImageProcessor

namespace ImageProcessor

/-! The filter `convolution` on the machine types -/

theorem WF32.rows_le {m : Matrix32} (h : m.WF) : m._rows ≤ 2147483647 := by
  obtain ⟨h1, h2, h3, h4, h5⟩ := h
  unfold INT_MAX at h5
  rw [h3] at h5
  nlinarith

theorem WF32.cols_le {m : Matrix32} (h : m.WF) : m._cols ≤ 2147483647 := by
  obtain ⟨h1, h2, h3, h4, h5⟩ := h
  unfold INT_MAX at h5
  rw [h3] at h5
  nlinarith

/-- One round of the inner loop of `calculateValue`, for a cell `(i, j)` of `A`: no `int` sum
overflows, and the round is `stencilStep`. -/
theorem calculateValue32_step (A B : Matrix32) (hA : A.WF) (hB : B.WF)
    (hB3 : B._rows = 3 ∧ B._cols = 3) (i j k l : Int) (hi0 : 0 ≤ i) (hi : i < A._rows)
    (hj0 : 0 ≤ j) (hj : j < A._cols) (hk : -1 ≤ k ∧ k ≤ 1) (hl : -1 ≤ l ∧ l ≤ 1)
    (newVal : Binary32) :
    (if wrapInt32 (i + k) ≥ 0 ∧ wrapInt32 (j + l) ≥ 0 ∧ wrapInt32 (i + k) < A.getRows ∧
          wrapInt32 (j + l) < A.getCols then do
        let a ← A.opCallConst (wrapInt32 (i + k)) (wrapInt32 (j + l))
        let b ← B.opCallConst (CENTER_OF_B + k) (CENTER_OF_B + l)
        pure (newVal.add (a.mul b))
      else pure newVal) =
      (Except.ok (stencilStep A B i j newVal (k, l)) : Except Fatal Binary32) := by
  have hr := WF32.rows_le hA
  have hc := WF32.cols_le hA
  rw [wrapInt32_of_bounds (i + k) (by omega) (by omega),
    wrapInt32_of_bounds (j + l) (by omega) (by omega)]
  unfold stencilStep Matrix32.getRows Matrix32.getCols CENTER_OF_B
  by_cases h : i + k ≥ 0 ∧ j + l ≥ 0 ∧ i + k < A._rows ∧ j + l < A._cols
  · have h' : 0 ≤ i + k ∧ i + k < A._rows ∧ 0 ≤ j + l ∧ j + l < A._cols :=
      ⟨h.1, h.2.2.1, h.2.1, h.2.2.2⟩
    rw [if_pos h, if_pos h', opCallConst32_ok A hA _ _ h'.1 h'.2.1 h'.2.2.1 h'.2.2.2, ok_bind,
      opCallConst32_ok B hB _ _ (by omega) (by omega) (by omega) (by omega), ok_bind]
    rfl
  · have h' : ¬ (0 ≤ i + k ∧ i + k < A._rows ∧ 0 ≤ j + l ∧ j + l < A._cols) := by
      intro hc
      exact h ⟨hc.1, hc.2.2.1, hc.2.1, hc.2.2.2⟩
    rw [if_neg h, if_neg h']
    rfl

/-- The helper `calculateValue` on a cell `(i, j)` of `A`: it stores in cell `(i, j)` of the new
matrix the `rintf` of the accumulated sum of the stencil and touches no other cell. -/
theorem calculateValue32_ok (A B : Matrix32) (hA : A.WF) (hB : B.WF)
    (hB3 : B._rows = 3 ∧ B._cols = 3)
    (s : Matrix32) (Cn i j : Nat) (hC : A._cols = (Cn : Int)) (hsr : s._rows = A._rows)
    (hsc : s._cols = A._cols) (hswf : s.WF)
    (hi : (i : Int) < A._rows) (hj : j < Cn) (hlen : i * Cn + j < s._matrix.length) :
    ∃ t, calculateValue32 A B (i : Int) (j : Int) s = .ok t ∧ t.SameShape s ∧
      t._matrix[i * Cn + j]? = some (rintf32 (accumulatedStencil A B (i : Int) (j : Int))) ∧
      ∀ q, q ≠ i * Cn + j → t._matrix[q]? = s._matrix[q]? := by
  have hsum : forInt (-1) 2 (fun k newVal =>
      forInt (-1) 2 (fun l newVal =>
        if wrapInt32 ((i : Int) + k) ≥ 0 ∧ wrapInt32 ((j : Int) + l) ≥ 0 ∧
            wrapInt32 ((i : Int) + k) < A.getRows ∧ wrapInt32 ((j : Int) + l) < A.getCols then do
          let a ← A.opCallConst (wrapInt32 ((i : Int) + k)) (wrapInt32 ((j : Int) + l))
          let b ← B.opCallConst (CENTER_OF_B + k) (CENTER_OF_B + l)
          pure (newVal.add (a.mul b))
        else pure newVal) newVal) (Binary32.ofInt 0) =
      .ok (accumulatedStencil A B (i : Int) (j : Int)) := by
    have step := calculateValue32_step A B hA hB hB3 (i : Int) (j : Int)
    have step' := fun k l hk hl v => step k l (Int.ofNat_nonneg i) hi (Int.ofNat_nonneg j)
      (by rw [hC]; exact_mod_cast hj) hk hl v
    simp only [forInt_neg_one_two]
    rw [step' (-1) (-1) (by norm_num) (by norm_num), ok_bind,
      step' (-1) 0 (by norm_num) (by norm_num), ok_bind,
      step' (-1) 1 (by norm_num) (by norm_num), ok_bind,
      step' 0 (-1) (by norm_num) (by norm_num), ok_bind,
      step' 0 0 (by norm_num) (by norm_num), ok_bind,
      step' 0 1 (by norm_num) (by norm_num), ok_bind,
      step' 1 (-1) (by norm_num) (by norm_num), ok_bind,
      step' 1 0 (by norm_num) (by norm_num), ok_bind,
      step' 1 1 (by norm_num) (by norm_num), ofInt_zero]
    rfl
  have hp : s.opCall (i : Int) (j : Int) = .ok (i * Cn + j) := by
    have := opCall32_ok s hswf (i : Int) (j : Int) (Int.ofNat_nonneg i) (by rw [hsr]; exact hi)
      (Int.ofNat_nonneg j) (by rw [hsc, hC]; exact_mod_cast hj)
    rw [this, hsc, hC, offset_toNat]
  obtain ⟨t, hst, hshape, hnew, hoth⟩ := store32_ok s (i * Cn + j)
    (rintf32 (accumulatedStencil A B (i : Int) (j : Int))) hlen
  refine ⟨t, ?_, hshape, hnew, hoth⟩
  unfold calculateValue32
  rw [hsum, ok_bind, hp, ok_bind]
  exact hst

/-- The filter `convolution` of a matrix `A` with a 3 x 3 kernel `B`: it succeeds with a matrix of
the shape of `A` whose cell `(i, j)` is the `rintf` of the accumulated sum of the stencil at
`(i, j)`. -/
theorem convolution32_ok (A B : Matrix32) (hA : A.WF) (hB : B.WF)
    (hB3 : B._rows = 3 ∧ B._cols = 3) :
    ∃ R, convolution32 A B = .ok R ∧ R.WF ∧ R._rows = A._rows ∧ R._cols = A._cols ∧
      ∀ i j : Nat, (i : Int) < A._rows → (j : Int) < A._cols →
        R.cell (i : Int) (j : Int) = rintf32 (accumulatedStencil A B (i : Int) (j : Int)) := by
  obtain ⟨Rn, hRn⟩ := Int.eq_ofNat_of_zero_le (by have := hA.1; omega : 0 ≤ A._rows)
  obtain ⟨Cn, hCn⟩ := Int.eq_ofNat_of_zero_le (by have := hA.2.1; omega : 0 ≤ A._cols)
  have hctor := ctor32_ok A._rows A._cols hA.1 hA.2.1 (WF32.bound hA)
  have hlen0 : (A._rows * A._cols).toNat = Rn * Cn := by
    rw [hRn, hCn]
    have : (Rn : Int) * (Cn : Int) = ((Rn * Cn : Nat) : Int) := by push_cast; ring
    rw [this]; exact Int.toNat_ofNat _
  have hwf0 : (Matrix32.mk (List.replicate (A._rows * A._cols).toNat (.finite 0)) A._rows
      A._cols (A._rows * A._cols)).WF :=
    ⟨hA.1, hA.2.1, rfl,
      by simp only [List.length_replicate]; rw [hlen0, hRn, hCn]; push_cast; ring,
      WF32.bound hA⟩
  obtain ⟨R, hrun, hshape, hdone, -⟩ := forInt_cells2_32
    { _matrix := List.replicate (A._rows * A._cols).toNat (.finite 0), _rows := A._rows,
      _cols := A._cols, _len := A._rows * A._cols } Rn Cn
    (fun i j newMatrix => calculateValue32 A B i j newMatrix)
    (fun i j => rintf32 (accumulatedStencil A B (i : Int) (j : Int)))
    (by
      intro i j s hi hj hs _
      have hlt : i * Cn + j < Rn * Cn := by
        have : (i + 1) * Cn ≤ Rn * Cn := Nat.mul_le_mul_right Cn hi
        rw [Nat.succ_mul] at this
        omega
      exact calculateValue32_ok A B hA hB hB3 s Cn i j hCn hs.1 hs.2.1
        (sameShape32_wf hs hwf0)
        (by rw [hRn]; exact_mod_cast hi) hj
        (by rw [hs.2.2.2]; simp only [List.length_replicate]; rw [hlen0]; exact hlt))
  have hwf : R.WF := sameShape32_wf hshape hwf0
  refine ⟨R, ?_, hwf, hshape.1, hshape.2.1, ?_⟩
  · unfold convolution32 Matrix32.getRows Matrix32.getCols
    rw [hctor, ok_bind]
    rw [hRn, hCn] at hrun ⊢
    exact hrun
  · intro i j hi hj
    have hi' : i < Rn := by rw [hRn] at hi; exact_mod_cast hi
    have hj' : j < Cn := by rw [hCn] at hj; exact_mod_cast hj
    exact cell32_of_getElem? R i j Cn (by rw [hshape.2.1]; exact hCn) _ (hdone i j hi' hj')

end ImageProcessor

namespace ImageProcessor

/-! Equality of matrices on the machine types -/

/-- The loop of `operator==` and `operator!=` over two matrices of one size: it returns `r` when
two cells at one offset differ and goes through when none do. -/
theorem compare_loop32 (A B : Matrix32) (hA : A.WF) (hB : B.WF) (hlen : A._len = B._len) (r : Bool) :
    (forIntReturn 0 A._len (fun i => do
        let a ← A.opIndexConst i
        let b ← B.opIndexConst i
        if a.ne b then .ok (some r) else .ok none) = .ok none ∧
      ∀ k : Nat, k < A._matrix.length → (A.flat k).ne (B.flat k) = false) ∨
    (forIntReturn 0 A._len (fun i => do
        let a ← A.opIndexConst i
        let b ← B.opIndexConst i
        if a.ne b then .ok (some r) else .ok none) = .ok (some r) ∧
      ∃ k : Nat, k < A._matrix.length ∧ (A.flat k).ne (B.flat k) = true) := by
  have hlA := hA.2.2.2.1
  have hlB := hB.2.2.2.1
  have hbody : ∀ k : Nat, k < A._matrix.length →
      (do
        let a ← A.opIndexConst (k : Int)
        let b ← B.opIndexConst (k : Int)
        if a.ne b then (Except.ok (some r) : Except Fatal (Option Bool)) else .ok none) =
      if (A.flat k).ne (B.flat k) then .ok (some r) else .ok none := by
    intro k hk
    rw [opIndexConst32_ok A k (by rw [← hlA]; exact_mod_cast hk) hk, ok_bind,
      opIndexConst32_ok B k (by rw [← hlen, ← hlA]; exact_mod_cast hk) (by omega), ok_bind]
  rw [← hlA]
  rcases forIntReturn_find A._matrix.length (fun i => do
        let a ← A.opIndexConst i
        let b ← B.opIndexConst i
        if a.ne b then (Except.ok (some r) : Except Fatal (Option Bool)) else .ok none) r (by
      intro k hk
      beta_reduce
      rw [hbody k hk]
      by_cases h0 : (A.flat k).ne (B.flat k) = true
      · right; rw [if_pos h0]
      · left; rw [if_neg h0]) with ⟨hnone, hall⟩ | ⟨hsome, k, hk, hkr⟩
  · left
    refine ⟨hnone, ?_⟩
    intro k hk
    have := hall k hk
    beta_reduce at this
    rw [hbody k hk] at this
    by_contra h0
    rw [if_pos (by simpa using h0)] at this
    cases this
  · right
    refine ⟨hsome, k, hk, ?_⟩
    rw [hbody k hk] at hkr
    by_contra h0
    rw [if_neg h0] at hkr
    cases hkr

/-- What `operator==` answers on two matrices: true exactly when the rows, the columns agree and
no two cells at one flat offset compare unequal. -/
theorem opEq32_ok (A B : Matrix32) (hA : A.WF) (hB : B.WF) :
    ∃ b, A.opEq B = .ok b ∧
      (b = true ↔ (A._rows = B._rows ∧ A._cols = B._cols ∧
        ∀ k : Int, 0 ≤ k → k < A._len → (A.flat k).ne (B.flat k) = false)) := by
  have hlA := hA.2.2.2.1
  by_cases hshape : A._rows ≠ B._rows ∨ A._cols ≠ B._cols ∨ A._len ≠ B._len
  · refine ⟨false, by unfold Matrix32.opEq; rw [if_pos hshape], ?_⟩
    constructor
    · intro h; cases h
    · rintro ⟨h1, h2, -⟩
      exfalso
      rcases hshape with h | h | h
      · exact h h1
      · exact h h2
      · exact h (by rw [hA.2.2.1, hB.2.2.1, h1, h2])
  · have h1 : A._rows = B._rows := by by_contra h; exact hshape (Or.inl h)
    have h2 : A._cols = B._cols := by by_contra h; exact hshape (Or.inr (Or.inl h))
    have h3 : A._len = B._len := by by_contra h; exact hshape (Or.inr (Or.inr h))
    have hflat : (∀ k : Int, 0 ≤ k → k < A._len → (A.flat k).ne (B.flat k) = false) ↔
        ∀ k : Nat, k < A._matrix.length → (A.flat k).ne (B.flat k) = false := by
      constructor
      · intro h k hk
        exact h k (Int.ofNat_nonneg k) (by rw [← hlA]; exact_mod_cast hk)
      · intro h k hk0 hk
        obtain ⟨n, hn⟩ := Int.eq_ofNat_of_zero_le hk0
        subst hn
        exact h n (by omega)
    rcases compare_loop32 A B hA hB h3 false with ⟨hnone, hall⟩ | ⟨hsome, k, hk, hne⟩
    · refine ⟨true, by unfold Matrix32.opEq; rw [if_neg hshape, hnone, ok_bind], ?_⟩
      exact ⟨fun _ => ⟨h1, h2, hflat.mpr hall⟩, fun _ => rfl⟩
    · refine ⟨false, by unfold Matrix32.opEq; rw [if_neg hshape, hsome, ok_bind], ?_⟩
      constructor
      · intro h; cases h
      · rintro ⟨-, -, h⟩
        rw [hflat.mp h k hk] at hne
        cases hne

/-- Two matrices of one shape whose buffers hold the same cells are the same matrix. -/
theorem matrix32_ext (R M : Matrix32) (hshape : R.SameShape M)
    (h : ∀ k : Nat, k < M._matrix.length → R._matrix[k]? = M._matrix[k]?) : R = M := by
  obtain ⟨h1, h2, h3, h4⟩ := hshape
  have hd := buffer_ext32 R._matrix M._matrix h4 h
  cases R
  cases M
  simp_all

end ImageProcessor

namespace ImageProcessor

/-! The filters `blur` and `sobel` on the machine types -/

theorem blurConvoluator32_eq : blurConvoluator32 = .ok blurKernel32 := by decide!

theorem sobelConvoluator32_x_eq :
    sobelConvoluator32 [1, 0, -1, 2, 0, -2, 1, 0, -1] = .ok sobelXKernel32 := by decide!

theorem sobelConvoluator32_y_eq :
    sobelConvoluator32 [1, 2, 1, 0, 0, 0, -1, -2, -1] = .ok sobelYKernel32 := by decide!

/-- The filter `blur` on any image: it succeeds with a matrix of the shape of the image whose cell
`(i, j)` is the clamped `rintf` of the accumulated stencil of the blur kernel at `(i, j)`. -/
theorem blur32_ok (image : Matrix32) (hI : image.WF) :
    ∃ R, blur32 image = .ok R ∧ R.WF ∧ R._rows = image._rows ∧ R._cols = image._cols ∧
      ∀ i j : Int, 0 ≤ i → i < image._rows → 0 ≤ j → j < image._cols →
        R.cell i j = clampCell32 (rintf32 (accumulatedStencil image blurKernel32 i j)) := by
  obtain ⟨C, hC, hCwf, hCr, hCc, hCcell⟩ :=
    convolution32_ok image blurKernel32 hI (by decide) (by decide)
  obtain ⟨N, hN, hNwf, hNr, hNc, hNcell⟩ := normalize32_cell C hCwf
  refine ⟨N, ?_, hNwf, hNr.trans hCr, hNc.trans hCc, ?_⟩
  · unfold blur32
    rw [blurConvoluator32_eq, ok_bind, hC, ok_bind, hN, ok_bind, copy32_ok N hNwf]
  · intro i j hi0 hi hj0 hj
    rw [hNcell i j hi0 (by rw [hCr]; exact hi) hj0 (by rw [hCc]; exact hj)]
    obtain ⟨n, hn⟩ := Int.eq_ofNat_of_zero_le hi0
    obtain ⟨m, hm⟩ := Int.eq_ofNat_of_zero_le hj0
    subst hn hm
    rw [hCcell n m hi hj]

/-- The filter `sobel` on any image: it succeeds (the two convolutions have one shape, so their
sum is defined) with a matrix of the shape of the image whose cell `(i, j)` is the clamped sum of
the two rounded stencils at `(i, j)`. -/
theorem sobel32_ok (image : Matrix32) (hI : image.WF) :
    ∃ R, sobel32 image = .ok R ∧ R.WF ∧ R._rows = image._rows ∧ R._cols = image._cols ∧
      ∀ i j : Int, 0 ≤ i → i < image._rows → 0 ≤ j → j < image._cols →
        R.cell i j = clampCell32 ((rintf32 (accumulatedStencil image sobelXKernel32 i j)).add
          (rintf32 (accumulatedStencil image sobelYKernel32 i j))) := by
  obtain ⟨X, hX, hXwf, hXr, hXc, hXcell⟩ :=
    convolution32_ok image sobelXKernel32 hI (by decide) (by decide)
  obtain ⟨Y, hY, hYwf, hYr, hYc, hYcell⟩ :=
    convolution32_ok image sobelYKernel32 hI (by decide) (by decide)
  obtain ⟨S, hS, hSshape, hScell⟩ := opAdd32_ok X Y hXwf hYwf (hXr.trans hYr.symm)
    (hXc.trans hYc.symm)
  have hSwf : S.WF := sameShape32_wf hSshape hXwf
  obtain ⟨N, hN, hNwf, hNr, hNc, hNcell⟩ := normalize32_cell S hSwf
  refine ⟨N, ?_, hNwf, (hNr.trans hSshape.1).trans hXr, (hNc.trans hSshape.2.1).trans hXc, ?_⟩
  · unfold sobel32
    rw [sobelConvoluator32_x_eq, ok_bind, hX, ok_bind, sobelConvoluator32_y_eq, ok_bind, hY,
      ok_bind, hS, ok_bind, hN, ok_bind, copy32_ok N hNwf]
  · intro i j hi0 hi hj0 hj
    rw [hNcell i j hi0 (by rw [hSshape.1, hXr]; exact hi) hj0 (by rw [hSshape.2.1, hXc]; exact hj)]
    obtain ⟨h0, hlt⟩ := offset32_lt X hXwf i j hi0 (by rw [hXr]; exact hi) hj0
      (by rw [hXc]; exact hj)
    obtain ⟨k, hk⟩ := Int.eq_ofNat_of_zero_le h0
    have hk' : k < X._matrix.length := by rw [hk] at hlt; simpa using hlt
    have hSk := flat32_of_getElem? S k _ (hScell k hk')
    have hSc : S.cell i j = (X.cell i j).add (Y.cell i j) := by
      unfold Matrix32.cell
      unfold Matrix32.flat at hSk
      rw [hSshape.2.1, hYc, ← hXc, hk]
      exact hSk
    obtain ⟨n, hn⟩ := Int.eq_ofNat_of_zero_le hi0
    obtain ⟨m, hm⟩ := Int.eq_ofNat_of_zero_le hj0
    subst hn hm
    rw [hSc, hXcell n m hi hj, hYcell n m hi hj]

end ImageProcessor

namespace ImageProcessor

/-! The class invariant on the machine types -/

/-- A raw write that succeeds keeps the shape. -/
theorem store32_shape (m s : Matrix32) (p : Nat) (v : Binary32) (h : m.store p v = .ok s) :
    s.SameShape m := by
  unfold Matrix32.store at h
  split at h
  · cases h
    exact ⟨rfl, rfl, rfl, by simp⟩
  · cases h

/-- A checked write that succeeds keeps the shape. -/
theorem assign32_shape (m s : Matrix32) (k : Int) (v : Binary32) (h : m.assign k v = .ok s) :
    s.SameShape m := by
  unfold Matrix32.assign at h
  obtain ⟨p, -, hst⟩ := bind_eq_ok h
  exact store32_shape m s p v hst

/-- The assignment from another object yields the value of that object. -/
theorem opAssign32_ok (this other : Matrix32) (h : other.WF) :
    this.opAssign other false = .ok other := by
  obtain ⟨h1, h2, h3, h4, -⟩ := h
  have hnew : newFloatArray32 other._len =
      .ok (List.replicate other._matrix.length (.finite (-1))) := by
    rw [← h4]; exact newFloatArray32_ok _
  have hnl : (List.replicate other._matrix.length (Binary32.finite (-1))).length =
      other._matrix.length := List.length_replicate _ _
  obtain ⟨r, hrun, hshape, hdone, -⟩ := forInt_cells32
    { _matrix := List.replicate other._matrix.length (.finite (-1)), _rows := other._rows,
      _cols := other._cols, _len := other._len }
    other._matrix.length
    (fun i this => do
      let v ← other.opIndexConst i
      this.assign i v) (fun k => other.flat (k : Int)) (by
      intro i s hi hs _
      have hv : other.opIndexConst (i : Int) = .ok (other.flat (i : Int)) :=
        opIndexConst32_ok other i (by rw [← h4]; exact_mod_cast hi) hi
      beta_reduce
      rw [hv, ok_bind]
      exact assign32_ok s i _ (by rw [hs.2.2.1]; simp only []; rw [← h4]; exact_mod_cast hi)
        (by rw [hs.2.2.2]; simp only []; rw [hnl]; exact hi))
  have heq : r = other := by
    apply matrix32_ext r other ⟨hshape.1, hshape.2.1, hshape.2.2.1, by rw [hshape.2.2.2]; exact hnl⟩
    intro k hk
    rw [hdone k hk, getElem?_flat32 other k hk]
  rw [h4] at hrun
  unfold Matrix32.opAssign
  rw [if_neg (by simp), hnew, ok_bind]
  dsimp only
  rw [hrun, heq]

/-- Under the class invariant the friend `scalar * matrix` is `matrix * scalar`. -/
theorem scalarMul32_eq (s : Binary32) (M : Matrix32) (hM : M.WF) : scalarMul32 s M = M.opMulScalar s := by
  unfold scalarMul32 Matrix32.opMulScalar
  by_cases hs : s.eq (Binary32.ofInt 0) = true
  · rw [if_pos hs, if_pos hs]
  · rw [if_neg hs, if_neg hs, copy32_ok M hM, ok_bind, ok_bind]

/-- The compound `matrix += scalar` succeeds and keeps the shape; the scalar is added to each
cell. -/
theorem opAddScalarAssign32_ok (M : Matrix32) (hM : M.WF) (s : Binary32) :
    ∃ R, M.opAddScalarAssign s = .ok R ∧ R.SameShape M ∧
      ∀ k : Nat, k < M._matrix.length → R._matrix[k]? = some ((M.flat k).add s) := by
  have hlenM := hM.2.2.2.1
  obtain ⟨R, hrun, hshape, hdone, -⟩ := forInt_cells32 M M._matrix.length
    (fun i this => do
      let p ← this.opIndex i
      let old ← this.load p
      this.store p (old.add s)) (fun k => (M.flat k).add s) (by
      intro i t hi ht hrest
      have hp : t.opIndex (i : Int) = .ok i :=
        opIndex32_ok t i (by rw [ht.2.2.1, ← hlenM]; exact_mod_cast hi)
      have hold : t.load i = .ok (M.flat (i : Int)) :=
        load32_of_getElem? t i _ (by rw [hrest i (le_refl i)]; exact getElem?_flat32 M i hi)
      beta_reduce
      rw [hp, ok_bind, hold, ok_bind]
      exact store32_ok t i _ (by rw [ht.2.2.2]; exact hi))
  refine ⟨R, ?_, hshape, hdone⟩
  unfold Matrix32.opAddScalarAssign
  rw [← hlenM]
  exact hrun

/-- The filter `convolution32`, when it succeeds (whatever the kernel), yields a matrix of the
shape of its first argument. -/
theorem convolution32_wf (A B R : Matrix32) (hA : A.WF) (h : convolution32 A B = .ok R) :
    R.WF ∧ R._rows = A._rows ∧ R._cols = A._cols := by
  unfold convolution32 Matrix32.getRows Matrix32.getCols at h
  rw [ctor32_ok A._rows A._cols hA.1 hA.2.1 (WF32.bound hA), ok_bind] at h
  have hpos : 0 ≤ A._rows * A._cols := by
    rw [← hA.2.2.1, ← hA.2.2.2.1]; exact Int.ofNat_nonneg _
  have hshape := forInt_preserve
    (fun s => s.SameShape (Matrix32.mk (List.replicate (A._rows * A._cols).toNat (.finite 0)) A._rows
      A._cols (A._rows * A._cols))) 0 A._rows _
    (by
      intro i s s' hs hrow
      exact forInt_preserve
        (fun s => s.SameShape (Matrix32.mk (List.replicate (A._rows * A._cols).toNat (.finite 0)) A._rows
          A._cols (A._rows * A._cols))) 0 A._cols _
        (by
          intro j t t' ht hcv
          unfold calculateValue32 at hcv
          obtain ⟨newVal, -, hcv⟩ := bind_eq_ok hcv
          obtain ⟨p, -, hst⟩ := bind_eq_ok hcv
          exact sameShape32_trans (store32_shape t t' p _ hst) ht) s s' hs hrow)
    _ R (sameShape32_refl _) h
  exact ⟨sameShape32_wf hshape ⟨hA.1, hA.2.1, rfl, by simp [hpos], WF32.bound hA⟩, hshape.1,
    hshape.2.1⟩

/-- The filter `quantization32`, when it succeeds (whatever the number of levels), yields a matrix
of the shape of the image. -/
theorem quantization32_wf (image R : Matrix32) (levels : Int) (hI : image.WF)
    (h : quantization32 image levels = .ok R) :
    R.WF ∧ R._rows = image._rows ∧ R._cols = image._cols := by
  unfold quantization32 Matrix32.getRows Matrix32.getCols at h
  rw [ctor32_ok image._rows image._cols hI.1 hI.2.1 (WF32.bound hI), ok_bind] at h
  have hpos : 0 ≤ image._rows * image._cols := by
    rw [← hI.2.2.1, ← hI.2.2.2.1]; exact Int.ofNat_nonneg _
  obtain ⟨colors0, -, h⟩ := bind_eq_ok h
  obtain ⟨colors, -, h⟩ := bind_eq_ok h
  obtain ⟨averages0, -, h⟩ := bind_eq_ok h
  obtain ⟨averages, -, h⟩ := bind_eq_ok h
  have hshape := forInt_preserve
    (fun s => s.SameShape (Matrix32.mk (List.replicate (image._rows * image._cols).toNat (.finite 0))
      image._rows image._cols (image._rows * image._cols)))
    0 (wrapInt32 (image._rows * image._cols)) _
    (by
      intro i s s' hs hb
      obtain ⟨v, -, hb⟩ := bind_eq_ok hb
      obtain ⟨w, -, hb⟩ := bind_eq_ok hb
      obtain ⟨indOfAvg, -, hb⟩ := bind_eq_ok hb
      obtain ⟨avg, -, hb⟩ := bind_eq_ok hb
      exact sameShape32_trans (assign32_shape s s' i _ hb) hs)
    _ R (sameShape32_refl _) h
  exact ⟨sameShape32_wf hshape ⟨hI.1, hI.2.1, rfl, by simp [hpos], WF32.bound hI⟩, hshape.1,
    hshape.2.1⟩

/-- The method `vectorize` keeps the class invariant: the shape becomes `(rows * cols, 1)` and the
buffer is the same. -/
theorem vectorize32_wf (M : Matrix32) (hM : M.WF) :
    M.vectorize.WF ∧ M.vectorize._rows = M._rows * M._cols ∧ M.vectorize._cols = 1 ∧
      M.vectorize._len = M._len ∧ M.vectorize._matrix = M._matrix := by
  obtain ⟨h1, h2, h3, h4, h5⟩ := hM
  refine ⟨⟨?_, le_refl _, ?_, h4, h5⟩, h3, rfl, rfl, rfl⟩
  · show 1 ≤ M._len
    rw [h3]; nlinarith
  · show M._len = M._len * 1
    ring

/-- The assignment of a temporary that satisfies the class invariant leaves `*this` satisfying
it. -/
theorem opAssign32_wf (this P R : Matrix32) (hP : P.WF) (h : this.opAssign P false = .ok R) :
    R.WF := by
  rw [opAssign32_ok this P hP] at h
  cases h
  exact hP

end ImageProcessor

namespace ImageProcessor

/-! The constructor and the product beyond the range of `int` -/

/-- The constructor on dimensions that are at least 1, whatever their product: the `int` product
`rows * cols` is `_len`; when it has wrapped below 0 the allocation fails, and otherwise the
buffer holds `_len` zeros. -/
theorem ctor32_eq (rows cols : Int) (hr : 1 ≤ rows) (hc : 1 ≤ cols) :
    Matrix32.ctor rows cols =
      if 0 ≤ wrapInt32 (rows * cols) then .ok
        { _matrix := List.replicate (wrapInt32 (rows * cols)).toNat (.finite 0), _rows := rows,
          _cols := cols, _len := wrapInt32 (rows * cols) }
      else .error .undefinedBehaviour := by
  by_cases hpos : 0 ≤ wrapInt32 (rows * cols)
  · rw [if_pos hpos]
    obtain ⟨n, hn⟩ := Int.eq_ofNat_of_zero_le hpos
    obtain ⟨r, hrun, hshape, hdone, -⟩ := forInt_cells32
      { _matrix := List.replicate n (.finite (-1)), _rows := rows, _cols := cols,
        _len := (n : Int) }
      n (fun i this => this.assign i (Binary32.ofInt 0)) (fun _ => .finite 0) (by
        intro i s hi hs _
        beta_reduce
        rw [ofInt_zero]
        exact assign32_ok s i _ (by rw [hs.2.2.1]; simp only []; exact_mod_cast hi)
          (by rw [hs.2.2.2]; simpa using hi))
    have hdata : r._matrix = List.replicate n (.finite 0) := by
      apply List.ext_getElem?
      intro k
      by_cases hk : k < n
      · rw [hdone k hk]; simp [List.getElem?_replicate, hk]
      · have h1 : r._matrix.length ≤ k := by rw [hshape.2.2.2]; simp; omega
        simp [List.getElem?_eq_none h1, List.getElem?_replicate, hk]
    have hctor : Matrix32.ctor rows cols = .ok r := by
      unfold Matrix32.ctor
      rw [if_neg (by unfold MINIMAL_MATRIX_SIZE; omega)]
      simp only [hn, newFloatArray32_ok, ok_bind]
      exact hrun
    rw [hctor, hn]
    obtain ⟨h1, h2, h3, -⟩ := hshape
    cases r
    simp_all
  · rw [if_neg hpos]
    unfold Matrix32.ctor
    rw [if_neg (by unfold MINIMAL_MATRIX_SIZE; omega)]
    simp only [newFloatArray32, if_neg hpos]
    rfl

/-- The constructor, when it succeeds on dimensions whose product is an `int`, yields a matrix
that satisfies the class invariant and has the dimensions asked for. -/
theorem ctor32_wf (rows cols : Int) (m : Matrix32) (hb : rows * cols ≤ INT_MAX)
    (h : Matrix32.ctor rows cols = .ok m) : m.WF ∧ m._rows = rows ∧ m._cols = cols := by
  by_cases hd : rows < 1 ∨ cols < 1
  · unfold Matrix32.ctor at h
    rw [if_pos (by unfold MINIMAL_MATRIX_SIZE; exact hd)] at h
    cases h
  · have hr : 1 ≤ rows := by omega
    have hc : 1 ≤ cols := by omega
    rw [ctor32_ok rows cols hr hc hb] at h
    cases h
    have hpos : 0 ≤ rows * cols := by positivity
    exact ⟨⟨hr, hc, rfl, by simp [hpos], hb⟩, rfl, rfl⟩

/-- A loop that succeeds has run every round with success, on a state that satisfies whatever
the rounds keep. -/
theorem forInt_ok_round_inv {σ : Type} (P : σ → Prop) (n : Nat)
    (body : Int → σ → Except Fatal σ)
    (hbody : ∀ i s s', P s → body i s = .ok s' → P s') (s r : σ) (hs : P s)
    (h : forInt 0 (n : Int) body s = .ok r) :
    ∀ k : Nat, k < n → ∃ t t', P t ∧ body (k : Int) t = .ok t' := by
  induction n generalizing r with
  | zero => intro k hk; exact absurd hk (Nat.not_lt_zero k)
  | succ n ih =>
    rw [forInt_succ] at h
    obtain ⟨t, ht, hlast⟩ := bind_eq_ok h
    intro k hk
    rcases Nat.lt_succ_iff_lt_or_eq.mp hk with h' | h'
    · exact ih t ht k h'
    · rw [h']
      exact ⟨t, r, forInt_preserve P 0 (n : Int) body hbody s t hs ht, hlast⟩

/-- A loop whose first round fails stops with the error of that round. -/
theorem forInt_first_error {σ : Type} (n : Nat) (hn : 0 < n) (body : Int → σ → Except Fatal σ)
    (s : σ) (e : Fatal) (h : body 0 s = .error e) : forInt 0 (n : Int) body s = .error e := by
  obtain ⟨m, rfl⟩ : ∃ m, n = m + 1 := ⟨n - 1, by omega⟩
  unfold forInt
  have h1 : (((m + 1 : Nat) : Int) - 0).toNat = m + 1 := by omega
  rw [h1, List.range_succ_eq_map, List.foldlM_cons]
  have h0 : (0 : Int) + ((0 : Nat) : Int) = 0 := by simp
  rw [h0, h]
  rfl

/-- The matrix product never returns a matrix whose size has overflowed: when the product of
the rows of `A` and the columns of `B` is not an `int`, either the allocation fails or the write
of the first cell past the wrapped size stops the run. -/
theorem opMul32_overflow (A B : Matrix32) (hA : A.WF) (hB : B.WF)
    (hb : INT_MAX < A._rows * B._cols) (R : Matrix32) : A.opMul B ≠ .ok R := by
  intro h
  unfold Matrix32.opMul at h
  split at h
  · rename_i hd
    rw [ctor32_eq A._rows B._cols hA.1 hB.2.1] at h
    by_cases hpos : 0 ≤ wrapInt32 (A._rows * B._cols)
    · rw [if_pos hpos, ok_bind] at h
      have hL : wrapInt32 (A._rows * B._cols) ≤ 2147483647 := by unfold wrapInt32; omega
      obtain ⟨Ln, hLn⟩ := Int.eq_ofNat_of_zero_le hpos
      obtain ⟨Rn, hRn⟩ := Int.eq_ofNat_of_zero_le (by have := hA.1; omega : 0 ≤ A._rows)
      obtain ⟨Cn, hCn⟩ := Int.eq_ofNat_of_zero_le (by have := hB.2.1; omega : 0 ≤ B._cols)
      obtain ⟨Kn, hKn⟩ := Int.eq_ofNat_of_zero_le (by have := hA.2.1; omega : 0 ≤ A._cols)
      have hC1 : 0 < Cn := by have := hB.2.1; omega
      have hK1 : 0 < Kn := by have := hA.2.1; omega
      have hlt : Ln < Rn * Cn := by
        have : (Ln : Int) < (Rn : Int) * (Cn : Int) := by
          rw [← hLn, ← hRn, ← hCn]; unfold INT_MAX at hb; omega
        exact_mod_cast this
      have hi0 : Ln / Cn < Rn := Nat.div_lt_of_lt_mul (by rw [Nat.mul_comm]; exact hlt)
      have hj0 : Ln % Cn < Cn := Nat.mod_lt _ hC1
      have hsplit : (Ln / Cn) * Cn + Ln % Cn = Ln := by
        rw [Nat.mul_comm]; exact Nat.div_add_mod Ln Cn
      let P : Matrix32 → Prop := fun s => s._len = (Ln : Int) ∧ s._cols = (Cn : Int)
      have hstore : ∀ (s s' : Matrix32) (p : Nat) (v : Binary32), P s → s.store p v = .ok s' →
          P s' := by
        intro s s' p v hs hst
        have := store32_shape s s' p v hst
        exact ⟨this.2.2.1.trans hs.1, this.2.1.trans hs.2⟩
      have hinner : ∀ (i j k : Int) (s s' : Matrix32), P s →
          (do
            let a ← A.opCallConst i k
            let b ← B.opCallConst k j
            let p ← s.opCall i j
            let old ← s.load p
            s.store p (old.add (a.mul b))) = .ok s' → P s' := by
        intro i j k s s' hs hrun
        obtain ⟨a, -, hrun⟩ := bind_eq_ok hrun
        obtain ⟨b, -, hrun⟩ := bind_eq_ok hrun
        obtain ⟨p, -, hrun⟩ := bind_eq_ok hrun
        obtain ⟨old, -, hrun⟩ := bind_eq_ok hrun
        exact hstore s s' p _ hs hrun
      have hmid : ∀ (i j : Int) (s s' : Matrix32), P s →
          forInt 0 A._cols (fun k newMatrix => do
            let a ← A.opCallConst i k
            let b ← B.opCallConst k j
            let p ← newMatrix.opCall i j
            let old ← newMatrix.load p
            newMatrix.store p (old.add (a.mul b))) s = .ok s' → P s' := by
        intro i j s s' hs hrun
        exact forInt_preserve P 0 A._cols _ (fun k t t' ht hb => hinner i j k t t' ht hb) s s' hs
          hrun
      have hrow : ∀ (i : Int) (s s' : Matrix32), P s →
          forInt 0 B._cols (fun j newMatrix =>
            forInt 0 A._cols (fun k newMatrix => do
              let a ← A.opCallConst i k
              let b ← B.opCallConst k j
              let p ← newMatrix.opCall i j
              let old ← newMatrix.load p
              newMatrix.store p (old.add (a.mul b))) newMatrix) s = .ok s' → P s' := by
        intro i s s' hs hrun
        exact forInt_preserve P 0 B._cols _ (fun j t t' ht hb => hmid i j t t' ht hb) s s' hs hrun
      have hP0 : P (Matrix32.mk (List.replicate (wrapInt32 (A._rows * B._cols)).toNat
          (.finite 0)) A._rows B._cols (wrapInt32 (A._rows * B._cols))) := ⟨hLn, hCn⟩
      generalize Matrix32.mk (List.replicate (wrapInt32 (A._rows * B._cols)).toNat
          (.finite 0)) A._rows B._cols (wrapInt32 (A._rows * B._cols)) = s0 at h hP0
      rw [hRn] at h
      obtain ⟨t, t', hPt, hround⟩ := forInt_ok_round_inv P Rn _
        (fun i s s' hs hb => hrow i s s' hs hb) s0 R hP0 h (Ln / Cn) hi0
      rw [hCn] at hround
      obtain ⟨u, u', hPu, hround⟩ := forInt_ok_round_inv P Cn _
        (fun j s s' hs hb => hmid _ j s s' hs hb) t t' hPt hround (Ln % Cn) hj0
      rw [hKn] at hround
      obtain ⟨v, v', hPv, hround⟩ := forInt_ok_round_inv P Kn _
        (fun k s s' hs hb => hinner _ _ k s s' hs hb) u u' hPu hround 0 hK1
      obtain ⟨a, -, hround⟩ := bind_eq_ok hround
      obtain ⟨b, -, hround⟩ := bind_eq_ok hround
      obtain ⟨p, hp, -⟩ := bind_eq_ok hround
      unfold Matrix32.opCall at hp
      split at hp
      · have hidx : ((Ln / Cn : Nat) : Int) * v._cols + ((Ln % Cn : Nat) : Int) = (Ln : Int) := by
          rw [hPv.2]; exact_mod_cast hsplit
        rw [hidx, wrapInt32_of_bounds _ (by omega) (by omega)] at hp
        unfold Matrix32.opIndex at hp
        rw [if_neg (by rw [hPv.1]; omega)] at hp
        cases hp
      · cases hp
    · rw [if_neg hpos] at h
      cases h
  · cases h

/-- The matrix product, when it succeeds, yields a matrix that satisfies the class invariant. -/
theorem opMul32_wf (A B R : Matrix32) (hA : A.WF) (hB : B.WF) (h : A.opMul B = .ok R) :
    R.WF ∧ R._rows = A._rows ∧ R._cols = B._cols := by
  by_cases hb : A._rows * B._cols ≤ INT_MAX
  · by_cases hd : A._cols = B._rows
    · obtain ⟨R', hR', hwf, hr, hc, -⟩ := opMul32_ok A B hA hB hd hb
      rw [hR'] at h
      cases h
      exact ⟨hwf, hr, hc⟩
    · unfold Matrix32.opMul at h
      rw [if_neg hd] at h
      cases h
  · exact absurd h (opMul32_overflow A B hA hB (by omega) R)

/-- The division by a scalar, when it succeeds, yields a matrix of the shape of its operand. -/
theorem opDiv32_wf (M R : Matrix32) (hM : M.WF) (s : Binary32) (h : M.opDiv s = .ok R) :
    R.WF ∧ R._rows = M._rows ∧ R._cols = M._cols := by
  unfold Matrix32.opDiv at h
  split at h
  · obtain ⟨_, -, hcopy⟩ := bind_eq_ok h
    rw [copy32_ok M hM] at hcopy
    cases hcopy
    exact ⟨hM, rfl, rfl⟩
  · unfold Matrix32.opMulScalar at h
    split at h
    · rw [ctor32_ok _ _ hM.1 hM.2.1 (WF32.bound hM)] at h
      cases h
      have hpos : 0 ≤ M._rows * M._cols := by
        rw [← hM.2.2.1, ← hM.2.2.2.1]; exact Int.ofNat_nonneg _
      exact ⟨⟨hM.1, hM.2.1, rfl, by simp [hpos], WF32.bound hM⟩, rfl, rfl⟩
    · rename_i hs
      obtain ⟨R', hR', hshape, -⟩ := opMulScalar32_ok M hM _ (by simpa using hs)
      unfold Matrix32.opMulScalar at hR'
      rw [if_neg hs] at hR'
      rw [hR'] at h
      cases h
      exact ⟨sameShape32_wf hshape hM, hshape.1, hshape.2.1⟩

/-- The scaling by a scalar succeeds and yields a matrix of the shape of its operand. -/
theorem opMulScalar32_wf (M : Matrix32) (hM : M.WF) (s : Binary32) :
    ∃ R, M.opMulScalar s = .ok R ∧ R.WF ∧ R._rows = M._rows ∧ R._cols = M._cols := by
  by_cases hs : s.eq (Binary32.ofInt 0) = true
  · refine ⟨Matrix32.mk (List.replicate (M._rows * M._cols).toNat (.finite 0)) M._rows M._cols
        (M._rows * M._cols),
      by unfold Matrix32.opMulScalar; rw [if_pos hs]
         exact ctor32_ok _ _ hM.1 hM.2.1 (WF32.bound hM), ?_, rfl, rfl⟩
    have hpos : 0 ≤ M._rows * M._cols := by
      rw [← hM.2.2.1, ← hM.2.2.2.1]; exact Int.ofNat_nonneg _
    exact ⟨hM.1, hM.2.1, rfl, by simp [hpos], WF32.bound hM⟩
  · obtain ⟨R, hR, hshape, -⟩ := opMulScalar32_ok M hM s (by simpa using hs)
    exact ⟨R, hR, sameShape32_wf hshape hM, hshape.1, hshape.2.1⟩

end ImageProcessor

namespace ImageProcessor

theorem eq_zero_iff (x : Binary32) : x.eq (Binary32.ofInt 0) = true ↔ x = .finite 0 := by
  rw [ofInt_zero]
  cases x <;> simp [Binary32.eq]

theorem ne_zero_false_iff (x : Binary32) :
    x.ne (Binary32.ofInt 0) = false ↔ x = .finite 0 := by
  unfold Binary32.ne
  rw [Bool.not_eq_false_eq_eq_true, eq_zero_iff]

end ImageProcessor

namespace ImageProcessor

/-! What `normalize` does to one cell -/

theorem clampCell32_nan : clampCell32 .nan = .nan := rfl

theorem clampCell32_posInf : clampCell32 .posInf = .finite 255 := rfl

theorem clampCell32_negInf : clampCell32 .negInf = .finite 0 := rfl

theorem clampCell32_finite (v : ℚ) :
    clampCell32 (.finite v) = .finite (if v < 0 then 0 else if 256 ≤ v then 255 else v) := by
  unfold clampCell32 Binary32.lt Binary32.ge
  by_cases h0 : v < 0
  · simp [h0]
  · by_cases h1 : 256 ≤ v
    · simp [h0, h1]
    · simp [h0, h1]

theorem clampCell32_eq_nan (v : Binary32) : clampCell32 v = .nan ↔ v = .nan := by
  cases v with
  | finite q => rw [clampCell32_finite]; simp
  | posInf => simp [clampCell32_posInf]
  | negInf => simp [clampCell32_negInf]
  | nan => simp [clampCell32_nan]

/-- The clamp of `normalize` applied twice is the clamp applied once. -/
theorem clampCell32_idem (v : Binary32) : clampCell32 (clampCell32 v) = clampCell32 v := by
  cases v with
  | finite q =>
    rw [clampCell32_finite, clampCell32_finite]
    congr 1
    by_cases h0 : q < 0
    · simp [h0]
    · by_cases h1 : 256 ≤ q
      · simp [h0, h1]
      · simp [h0, h1]
  | posInf => decide
  | negInf => decide
  | nan => rfl

theorem ne_self_eq_false_iff (x : Binary32) : x.ne x = false ↔ x ≠ .nan := by
  cases x <;> simp [Binary32.ne, Binary32.eq]

/-- The filter `normalize` on the flat cells: cell `k` of the result is the clamped cell `k`. -/
theorem normalize32_flat (M : Matrix32) (hM : M.WF) :
    ∃ R, normalize32 M = .ok R ∧ R.WF ∧ R.SameShape M ∧
      ∀ k : Int, 0 ≤ k → k < M._len → R.flat k = clampCell32 (M.flat k) := by
  obtain ⟨R, hR, hshape, hcells⟩ := normalize32_ok M hM
  refine ⟨R, hR, sameShape32_wf hshape hM, hshape, ?_⟩
  intro k hk0 hk
  obtain ⟨n, hn⟩ := Int.eq_ofNat_of_zero_le hk0
  subst hn
  have := hM.2.2.2.1
  exact flat32_of_getElem? R n _ (hcells n (by omega))

end ImageProcessor

namespace ImageProcessor

/-! Identity matrices on the machine types -/

/-- The flat cell `k` is the cell in row `k / cols` and column `k % cols`. -/
theorem flat32_eq_cell_div (M : Matrix32) (k : Int) :
    M.flat k = M.cell (k / M._cols) (k % M._cols) := by
  unfold Matrix32.cell Matrix32.flat
  have : k / M._cols * M._cols + k % M._cols = k := by
    rw [mul_comm]; exact Int.ediv_add_emod k M._cols
  rw [this]

/-- Two matrices of one shape with the same cell in every row and column are the same matrix. -/
theorem matrix32_ext_cells (R M : Matrix32) (hR : R.WF) (hM : M.WF) (hrows : R._rows = M._rows)
    (hcols : R._cols = M._cols)
    (h : ∀ i j : Int, 0 ≤ i → i < M._rows → 0 ≤ j → j < M._cols → R.cell i j = M.cell i j) :
    R = M := by
  have hlen : R._len = M._len := by rw [hR.2.2.1, hM.2.2.1, hrows, hcols]
  have hbuf : R._matrix.length = M._matrix.length := by
    have h1 := hR.2.2.2.1
    have h2 := hM.2.2.2.1
    omega
  apply matrix32_ext R M ⟨hrows, hcols, hlen, hbuf⟩
  intro k hk
  have hc : 0 < M._cols := by have := hM.2.1; omega
  have hkM : (k : Int) < M._len := by rw [← hM.2.2.2.1]; exact_mod_cast hk
  rw [getElem?_flat32 R k (by omega), getElem?_flat32 M k hk, flat32_eq_cell_div R, flat32_eq_cell_div M,
    hcols]
  congr 1
  apply h _ _ (Int.ediv_nonneg (Int.ofNat_nonneg k) hc.le) _ (Int.emod_nonneg _ (by omega))
    (Int.emod_lt_of_pos _ hc)
  apply Int.ediv_lt_of_lt_mul hc
  rw [← hM.2.2.1]; exact hkM

/-! Exact steps of binary32 arithmetic -/

theorem add_finite (a b : ℚ) :
    (Binary32.finite a).add (.finite b) = roundBinary32 (a + b) := rfl

theorem mul_finite (a b : ℚ) :
    (Binary32.finite a).mul (.finite b) = roundBinary32 (a * b) := rfl

theorem mul_zero32 (q : ℚ) : (Binary32.finite q).mul (.finite 0) = .finite 0 := by
  rw [mul_finite, mul_zero, roundBinary32_zero]

theorem mul_one32 (q : ℚ) (hq : IsBinary32 q) :
    (Binary32.finite q).mul (.finite 1) = .finite q := by
  rw [mul_finite, mul_one]
  exact hq

theorem add_zero32 (q : ℚ) (hq : IsBinary32 q) :
    (Binary32.finite q).add (.finite 0) = .finite q := by
  rw [add_finite, add_zero]
  exact hq

theorem zero_add32 (q : ℚ) (hq : IsBinary32 q) :
    (Binary32.finite 0).add (.finite q) = .finite q := by
  rw [add_finite, zero_add]
  exact hq

theorem isBinary32_zero : IsBinary32 0 := roundBinary32_zero

/-- The accumulated sum of row `n` of `A` against column `m` of an identity matrix: 0 until the
term `k = m` is added, the cell `A(n, m)` from then on; no step rounds. -/
theorem accumulatedDot_identity (A I : Matrix32) (n m : Nat) (q : ℚ)
    (hq : A.cell (n : Int) (m : Int) = .finite q) (hv : IsBinary32 q)
    (hone : ∀ k : Nat, (k : Int) < A._cols →
      I.cell (k : Int) (m : Int) = if k = m then .finite 1 else .finite 0)
    (hfin : ∀ k : Nat, (k : Int) < A._cols → ∃ r : ℚ, A.cell (n : Int) (k : Int) = .finite r)
    (K : Nat) (hK : (K : Int) ≤ A._cols) :
    accumulatedDot A I (n : Int) (m : Int) K = if m < K then .finite q else .finite 0 := by
  induction K with
  | zero => rfl
  | succ K ih =>
    have hKlt : (K : Int) < A._cols := by omega
    have ih' := ih (by omega)
    show (accumulatedDot A I (n : Int) (m : Int) K).add
      ((A.cell (n : Int) (K : Int)).mul (I.cell (K : Int) (m : Int))) = _
    rw [ih', hone K hKlt]
    by_cases hKm : K = m
    · subst hKm
      rw [if_pos rfl, if_neg (Nat.lt_irrefl _), if_pos (Nat.lt_succ_self _), hq, mul_one32 q hv,
        zero_add32 q hv]
    · obtain ⟨r, hr⟩ := hfin K hKlt
      rw [if_neg hKm, hr, mul_zero32]
      by_cases hlt : m < K
      · rw [if_pos hlt, if_pos (by omega), add_zero32 q hv]
      · rw [if_neg hlt, if_neg (by omega), add_zero32 0 isBinary32_zero]

/-- The product of a matrix of finite binary32 cells with an identity matrix of its number of
columns is that matrix. -/
theorem opMul32_identity (A I : Matrix32) (hA : A.WF) (hI : I.WF) (hIr : I._rows = A._cols)
    (hIc : I._cols = A._cols)
    (hone : ∀ i j : Int, 0 ≤ i → i < A._cols → 0 ≤ j → j < A._cols →
      I.cell i j = if i = j then .finite 1 else .finite 0)
    (hfin : ∀ i j : Int, 0 ≤ i → i < A._rows → 0 ≤ j → j < A._cols →
      ∃ q : ℚ, A.cell i j = .finite q ∧ IsBinary32 q) :
    A.opMul I = .ok A := by
  obtain ⟨R, hR, hwf, hrows, hcols, hcells⟩ := opMul32_ok A I hA hI hIr.symm
    (by rw [hIc]; exact WF32.bound hA)
  have heq : R = A := by
    apply matrix32_ext_cells R A hwf hA hrows (hcols.trans hIc)
    intro i j hi0 hi hj0 hj
    obtain ⟨n, hn⟩ := Int.eq_ofNat_of_zero_le hi0
    obtain ⟨m, hm⟩ := Int.eq_ofNat_of_zero_le hj0
    subst hn hm
    obtain ⟨q, hq, hv⟩ := hfin _ _ hi0 hi hj0 hj
    rw [hcells n m hi (by rw [hIc]; exact hj)]
    have hK : ((A._cols.toNat : Nat) : Int) = A._cols := Int.toNat_of_nonneg (by omega)
    rw [accumulatedDot_identity A I n m q hq hv
      (fun k hk => by
        rw [hone _ _ (Int.ofNat_nonneg k) hk hj0 hj]
        by_cases hkm : k = m
        · rw [if_pos hkm, if_pos (by rw [hkm])]
        · rw [if_neg hkm, if_neg (by exact_mod_cast hkm)])
      (fun k hk => by
        obtain ⟨r, hr, -⟩ := hfin _ _ hi0 hi (Int.ofNat_nonneg k) hk
        exact ⟨r, hr⟩)
      A._cols.toNat (by omega), if_pos (by omega), hq]
  rw [hR, heq]

/-- A matrix without a NaN is equal to itself under `operator==`. -/
theorem opEq32_self (A : Matrix32) (hA : A.WF)
    (h : ∀ k : Int, 0 ≤ k → k < A._len → A.flat k ≠ .nan) : A.opEq A = .ok true := by
  obtain ⟨b, hb, hiff⟩ := opEq32_ok A A hA hA
  have : b = true :=
    hiff.mpr ⟨rfl, rfl, fun k hk0 hk => (ne_self_eq_false_iff _).mpr (h k hk0 hk)⟩
  rw [hb, this]

/-- A cell at a flat offset inside the buffer is a cell at a row and a column of the matrix. -/
theorem flat32_as_cell (M : Matrix32) (hM : M.WF) (k : Int) (hk0 : 0 ≤ k) (hk : k < M._len) :
    ∃ i j : Int, 0 ≤ i ∧ i < M._rows ∧ 0 ≤ j ∧ j < M._cols ∧ M.flat k = M.cell i j := by
  have hc : 0 < M._cols := by have := hM.2.1; omega
  refine ⟨k / M._cols, k % M._cols, Int.ediv_nonneg hk0 hc.le, ?_, Int.emod_nonneg _ (by omega),
    Int.emod_lt_of_pos _ hc, flat32_eq_cell_div M k⟩
  apply Int.ediv_lt_of_lt_mul hc
  rw [← hM.2.2.1]; exact hk

end ImageProcessor

namespace ImageProcessor

/-! The symmetry of rounding -/

/-- Rounding to the nearest integer, ties to even, commutes with negation. -/
theorem rintf_neg (x : ℚ) : rintf (-x) = -rintf x := by
  have h1 : ((⌊x⌋ : Int) : ℚ) ≤ x := Int.floor_le x
  have h2 : x < ((⌊x⌋ : Int) : ℚ) + 1 := Int.lt_floor_add_one x
  by_cases hint : x = ((⌊x⌋ : Int) : ℚ)
  · have hfl : ⌊-x⌋ = -⌊x⌋ := by
      rw [Int.floor_eq_iff]
      push_cast
      constructor <;> linarith
    unfold rintf
    simp only [hfl]
    have e1 : -x - ((-⌊x⌋ : Int) : ℚ) = 0 := by push_cast; linarith
    have e2 : x - ((⌊x⌋ : Int) : ℚ) = 0 := by linarith
    rw [e1, e2]
    norm_num
  · have h1' : ((⌊x⌋ : Int) : ℚ) < x := lt_of_le_of_ne h1 (Ne.symm hint)
    have hfl : ⌊-x⌋ = -⌊x⌋ - 1 := by
      rw [Int.floor_eq_iff]
      push_cast
      constructor <;> linarith
    unfold rintf
    simp only [hfl]
    have e1 : -x - ((-⌊x⌋ - 1 : Int) : ℚ) = 1 - (x - ((⌊x⌋ : Int) : ℚ)) := by
      push_cast; ring
    rw [e1]
    by_cases ha : x - ((⌊x⌋ : Int) : ℚ) < 1 / 2
    · rw [if_pos ha, if_neg (by linarith), if_pos (by linarith)]
      push_cast; ring
    · rw [if_neg ha]
      by_cases hb : 1 / 2 < x - ((⌊x⌋ : Int) : ℚ)
      · rw [if_pos hb, if_pos (by linarith)]
        push_cast; ring
      · rw [if_neg hb, if_neg (by linarith), if_neg (by linarith)]
        by_cases hc : ⌊x⌋ % 2 = 0
        · rw [if_pos hc, if_neg (by omega)]
          push_cast; ring
        · rw [if_neg hc, if_pos (by omega)]
          push_cast; ring

theorem floorLog2_neg (x : ℚ) : floorLog2 (-x) = floorLog2 x := by
  unfold floorLog2
  simp only [Rat.neg_num, Rat.neg_den, Int.natAbs_neg, abs_neg]

/-- The negative of a binary32 value is a binary32 value. -/
theorem IsBinary32.neg {q : ℚ} (h : IsBinary32 q) : IsBinary32 (-q) := by
  unfold IsBinary32 roundBinary32 at h ⊢
  by_cases h0 : q = 0
  · subst h0
    simp
  · rw [if_neg h0] at h
    rw [if_neg (by simpa using h0)]
    simp only [floorLog2_neg] at h ⊢
    split at h
    · split at h <;> cases h
    · rename_i hbig
      have hy : rintf (q / twoPow (max (floorLog2 q) (-126) - 23)) *
          twoPow (max (floorLog2 q) (-126) - 23) = q := by
        injection h
      have hy' : rintf (-q / twoPow (max (floorLog2 q) (-126) - 23)) *
          twoPow (max (floorLog2 q) (-126) - 23) = -q := by
        rw [neg_div, rintf_neg, neg_mul, hy]
      rw [hy', abs_neg]
      rw [hy] at hbig
      rw [if_neg hbig]

end ImageProcessor

namespace ImageProcessor

/-! Which rationals binary32 holds -/

theorem twoPow_eq_zpow (e : Int) : twoPow e = (2 : ℚ) ^ e := by
  unfold twoPow
  by_cases h : 0 ≤ e
  · rw [if_pos h]
    obtain ⟨n, rfl⟩ := Int.eq_ofNat_of_zero_le h
    simp
  · rw [if_neg h]
    obtain ⟨n, hn⟩ := Int.eq_ofNat_of_zero_le (by omega : 0 ≤ -e)
    have he : e = -(n : Int) := by omega
    rw [hn, he]
    simp

theorem twoPow_pos (e : Int) : 0 < twoPow e := by
  rw [twoPow_eq_zpow]
  positivity

/-- The count of halvings is the exponent of the leading bit. -/
theorem halvings_spec (fuel n : Nat) (h1 : 1 ≤ n) (h2 : n < 2 ^ fuel) :
    2 ^ halvings fuel n ≤ n ∧ n < 2 ^ (halvings fuel n + 1) := by
  induction fuel generalizing n with
  | zero => simp at h2; omega
  | succ fuel ih =>
    unfold halvings
    by_cases hn : 2 ≤ n
    · rw [if_pos hn]
      have hhalf : n / 2 < 2 ^ fuel := by
        rw [pow_succ] at h2
        omega
      obtain ⟨l, u⟩ := ih (n / 2) (by omega) hhalf
      constructor
      · rw [pow_succ]; omega
      · rw [pow_succ]; omega
    · rw [if_neg hn]
      have : n = 1 := by omega
      subst this
      simp

theorem halvings_self (n : Nat) (h1 : 1 ≤ n) :
    2 ^ halvings n n ≤ n ∧ n < 2 ^ (halvings n n + 1) :=
  halvings_spec n n h1 (Nat.lt_two_pow n)

/-- The exponent that `floorLog2` gives is not above the true one. -/
theorem floorLog2_le (x : ℚ) (hx : x ≠ 0) : twoPow (floorLog2 x) ≤ |x| := by
  unfold floorLog2
  dsimp only
  split
  · rename_i h
    exact h
  · have hnum : 1 ≤ x.num.natAbs := by
      have : x.num ≠ 0 := Rat.num_ne_zero.mpr hx
      omega
    have hden : 1 ≤ x.den := x.den_pos
    obtain ⟨la, -⟩ := halvings_self x.num.natAbs hnum
    obtain ⟨-, ub⟩ := halvings_self x.den hden
    have habs : |x| = (x.num.natAbs : ℚ) / (x.den : ℚ) := by
      conv_lhs => rw [← Rat.num_div_den x]
      rw [abs_div, Nat.abs_cast, Nat.cast_natAbs, Int.cast_abs]
    rw [habs, twoPow_eq_zpow]
    have hdpos : (0 : ℚ) < (x.den : ℚ) := by exact_mod_cast x.den_pos
    rw [le_div_iff₀ hdpos]
    have e1 : ((halvings x.num.natAbs x.num.natAbs : Int) - (halvings x.den x.den : Int) - 1)
        = (halvings x.num.natAbs x.num.natAbs : Int) - ((halvings x.den x.den + 1 : Nat) : Int) := by
      push_cast; ring
    rw [e1, zpow_sub₀ (by norm_num : (2 : ℚ) ≠ 0), zpow_natCast, zpow_natCast]
    have la' : ((2 : ℚ) ^ halvings x.num.natAbs x.num.natAbs) ≤ (x.num.natAbs : ℚ) := by
      exact_mod_cast la
    have ub' : (x.den : ℚ) ≤ (2 : ℚ) ^ (halvings x.den x.den + 1) := by
      exact_mod_cast ub.le
    have hppos : (0 : ℚ) < (2 : ℚ) ^ (halvings x.den x.den + 1) := by positivity
    calc (2 : ℚ) ^ halvings x.num.natAbs x.num.natAbs / 2 ^ (halvings x.den x.den + 1) * (x.den : ℚ)
        ≤ (2 : ℚ) ^ halvings x.num.natAbs x.num.natAbs / 2 ^ (halvings x.den x.den + 1) *
          2 ^ (halvings x.den x.den + 1) := by
          apply mul_le_mul_of_nonneg_left ub'
          positivity
      _ = (2 : ℚ) ^ halvings x.num.natAbs x.num.natAbs := by field_simp
      _ ≤ (x.num.natAbs : ℚ) := la'

/-- A multiple `n * 2^e` of a power of two with fewer than 25 bits in `n`, an exponent of -149
or more, and a magnitude below `2^128`, is a binary32 value. -/
theorem isBinary32_of_scaled (n e : Int) (hn : |n| < 16777216) (he : -149 ≤ e) (he' : e ≤ 104) :
    IsBinary32 ((n : ℚ) * twoPow e) := by
  by_cases h0 : n = 0
  · subst h0
    simp [IsBinary32, roundBinary32]
  have hx0 : (n : ℚ) * twoPow e ≠ 0 :=
    mul_ne_zero (by exact_mod_cast h0) (twoPow_pos e).ne'
  have habs : |(n : ℚ) * twoPow e| < twoPow (e + 24) := by
    rw [abs_mul, abs_of_pos (twoPow_pos e), twoPow_eq_zpow, twoPow_eq_zpow,
      zpow_add₀ (by norm_num : (2 : ℚ) ≠ 0), mul_comm]
    apply mul_lt_mul_of_pos_left _ (by positivity)
    have : |(n : ℚ)| < 16777216 := by exact_mod_cast hn
    calc |(n : ℚ)| < 16777216 := this
      _ = (2 : ℚ) ^ (24 : Int) := by norm_num
  have hxe : (n : ℚ) * twoPow e = (n : ℚ) * (2 : ℚ) ^ e := by rw [twoPow_eq_zpow]
  generalize (n : ℚ) * twoPow e = x at hx0 habs hxe ⊢
  have hfl : floorLog2 x ≤ e + 23 := by
    have h1 := floorLog2_le _ hx0
    have h2 := lt_of_le_of_lt h1 habs
    rw [twoPow_eq_zpow, twoPow_eq_zpow] at h2
    have := (zpow_lt_zpow_iff_right₀ (by norm_num : (1 : ℚ) < 2)).mp h2
    omega
  unfold IsBinary32 roundBinary32
  rw [if_neg hx0]
  dsimp only
  have hE : max (floorLog2 x) (-126) ≤ e + 23 := max_le hfl (by omega)
  generalize max (floorLog2 x) (-126) = E at hE ⊢
  obtain ⟨d, hd⟩ := Int.eq_ofNat_of_zero_le (by omega : 0 ≤ e - (E - 23))
  have hq : x / twoPow (E - 23) = ((n * 2 ^ d : Int) : ℚ) := by
    rw [twoPow_eq_zpow, hxe, mul_div_assoc, ← zpow_sub₀ (by norm_num : (2 : ℚ) ≠ 0), hd]
    push_cast
    rw [zpow_natCast]
  rw [hq, rintf_intCast, ← hq, div_mul_cancel₀ _ (twoPow_pos _).ne']
  rw [if_neg]
  intro hbig
  have : twoPow (e + 24) ≤ twoPow 128 := by
    rw [twoPow_eq_zpow, twoPow_eq_zpow]
    exact zpow_le_zpow_right₀ (by norm_num) (by omega)
  linarith

end ImageProcessor

namespace ImageProcessor

/-- The `rintf` of a finite `float` is an integer within 1/2 of it. -/
theorem rintf32_spec (s : ℚ) :
    ∃ z : Int, rintf32 (.finite s) = .finite (z : ℚ) ∧ |(z : ℚ) - s| ≤ 1 / 2 := by
  obtain ⟨z, hz, hd⟩ := rintf_spec s
  exact ⟨z, by show Binary32.finite (rintf s) = _; rw [hz], hd⟩

end ImageProcessor

namespace ImageProcessor

theorem zeroColumn65536_wf : zeroColumn65536.WF :=
  ⟨by decide, by decide, by decide,
    by show ((List.replicate 65536 (Binary32.finite 0)).length : Int) = 65536
       rw [List.length_replicate]; rfl,
    by decide⟩

theorem zeroRow65536_wf : zeroRow65536.WF :=
  ⟨by decide, by decide, by decide,
    by show ((List.replicate 65536 (Binary32.finite 0)).length : Int) = 65536
       rw [List.length_replicate]; rfl,
    by decide⟩

/-- The product of a column of 65536 cells and a row of 65536 cells: the result would have
`2^32` cells, the `int` product wraps to 0, and the first write stops the run. -/
theorem opMul32_column_row :
    zeroColumn65536.opMul zeroRow65536 = .error .indexOutOfRange := by
  have hctor : Matrix32.ctor 65536 65536 = .ok ⟨[], 65536, 65536, 0⟩ := by decide!
  have ha : zeroColumn65536.opCallConst 0 0 = .ok (zeroColumn65536.cell 0 0) :=
    opCallConst32_ok _ zeroColumn65536_wf 0 0 (by decide) (by decide) (by decide) (by decide)
  have hb : zeroRow65536.opCallConst 0 0 = .ok (zeroRow65536.cell 0 0) :=
    opCallConst32_ok _ zeroRow65536_wf 0 0 (by decide) (by decide) (by decide) (by decide)
  have hp : (Matrix32.mk [] 65536 65536 0).opCall 0 0 = .error .indexOutOfRange := by decide
  have first : ∀ (n : Nat) (body : Int → Matrix32 → Except Fatal Matrix32) (s : Matrix32),
      0 < n → body 0 s = .error .indexOutOfRange →
      forInt 0 (n : Int) body s = .error .indexOutOfRange :=
    fun n body s hn h => forInt_first_error n hn body s _ h
  unfold Matrix32.opMul
  rw [if_pos (by decide)]
  have hr : zeroColumn65536._rows = 65536 := rfl
  have hc : zeroRow65536._cols = 65536 := rfl
  have hk : zeroColumn65536._cols = 1 := rfl
  rw [hr, hc, hk, hctor, ok_bind]
  refine first 65536 _ _ (by decide) ?_
  refine first 65536 _ _ (by decide) ?_
  refine first 1 _ _ (by decide) ?_
  rw [ha, ok_bind, hb, ok_bind, hp]
  rfl

end ImageProcessor

namespace ImageProcessor

/-! The filter `sobel` on a uniform matrix -/

theorem add_neg32 (q : ℚ) : (Binary32.finite q).add (.finite (-q)) = .finite 0 := by
  rw [add_finite, add_neg_cancel, roundBinary32_zero]

theorem rintf32_zero : rintf32 (.finite 0) = .finite 0 := by
  show Binary32.finite (rintf 0) = _
  rw [rintf_zero]

/-- A round of the stencil whose neighbour lies inside the matrix. -/
theorem stencilStep_inside (A B : Matrix32) (i j k l : Int) (acc : Binary32)
    (h : 0 ≤ i + k ∧ i + k < A._rows ∧ 0 ≤ j + l ∧ j + l < A._cols) :
    stencilStep A B i j acc (k, l) =
      acc.add ((A.cell (i + k) (j + l)).mul (B.cell (1 + k) (1 + l))) := by
  unfold stencilStep
  rw [if_pos h]

/-- A round of the stencil on a matrix of zeros and a kernel entry that is finite leaves an
accumulated 0 as it is. -/
theorem stencilStep_zero (A B : Matrix32) (i j k l : Int) (b : ℚ)
    (hA : ∀ i j : Int, 0 ≤ i → i < A._rows → 0 ≤ j → j < A._cols → A.cell i j = .finite 0)
    (hB : B.cell (1 + k) (1 + l) = .finite b) :
    stencilStep A B i j (.finite 0) (k, l) = .finite 0 := by
  unfold stencilStep
  split
  · rename_i h
    dsimp only at h ⊢
    rw [hA _ _ h.1 h.2.1 h.2.2.1 h.2.2.2, hB, mul_finite, zero_mul, roundBinary32_zero,
      add_finite, add_zero, roundBinary32_zero]
  · rfl

/-- On a matrix of zeros the accumulated stencil of a kernel of finite entries is 0. -/
theorem accumulatedStencil_zero (A B : Matrix32)
    (hA : ∀ i j : Int, 0 ≤ i → i < A._rows → 0 ≤ j → j < A._cols → A.cell i j = .finite 0)
    (hB : ∀ k l : Int, -1 ≤ k → k ≤ 1 → -1 ≤ l → l ≤ 1 →
      ∃ b : ℚ, B.cell (1 + k) (1 + l) = .finite b) (i j : Int) :
    accumulatedStencil A B i j = .finite 0 := by
  have step : ∀ k l : Int, -1 ≤ k → k ≤ 1 → -1 ≤ l → l ≤ 1 →
      stencilStep A B i j (.finite 0) (k, l) = .finite 0 := by
    intro k l h1 h2 h3 h4
    obtain ⟨b, hb⟩ := hB k l h1 h2 h3 h4
    exact stencilStep_zero A B i j k l b hA hb
  unfold accumulatedStencil stencilOffsets
  simp only [List.foldl]
  rw [step (-1) (-1) (by decide) (by decide) (by decide) (by decide),
    step (-1) 0 (by decide) (by decide) (by decide) (by decide),
    step (-1) 1 (by decide) (by decide) (by decide) (by decide),
    step 0 (-1) (by decide) (by decide) (by decide) (by decide),
    step 0 0 (by decide) (by decide) (by decide) (by decide),
    step 0 1 (by decide) (by decide) (by decide) (by decide),
    step 1 (-1) (by decide) (by decide) (by decide) (by decide),
    step 1 0 (by decide) (by decide) (by decide) (by decide),
    step 1 1 (by decide) (by decide) (by decide) (by decide)]

theorem sobelXKernel32_finite (k l : Int) (h1 : -1 ≤ k) (h2 : k ≤ 1) (h3 : -1 ≤ l) (h4 : l ≤ 1) :
    ∃ b : ℚ, sobelXKernel32.cell (1 + k) (1 + l) = .finite b := by
  have hk : k = -1 ∨ k = 0 ∨ k = 1 := by omega
  have hl : l = -1 ∨ l = 0 ∨ l = 1 := by omega
  rcases hk with h | h | h <;> rcases hl with h' | h' | h' <;> subst h <;> subst h' <;>
    exact ⟨_, rfl⟩

theorem sobelYKernel32_finite (k l : Int) (h1 : -1 ≤ k) (h2 : k ≤ 1) (h3 : -1 ≤ l) (h4 : l ≤ 1) :
    ∃ b : ℚ, sobelYKernel32.cell (1 + k) (1 + l) = .finite b := by
  have hk : k = -1 ∨ k = 0 ∨ k = 1 := by omega
  have hl : l = -1 ∨ l = 0 ∨ l = 1 := by omega
  rcases hk with h | h | h <;> rcases hl with h' | h' | h' <;> subst h <;> subst h' <;>
    exact ⟨_, rfl⟩

/-- The accumulated stencil at an interior cell of a matrix whose cells all hold `c`: the nine
products of `c` and the entries of the kernel, added in the order of the loops. -/
theorem accumulatedStencil_uniform_interior (M K : Matrix32) (c : ℚ)
    (hu : ∀ i j : Int, 0 ≤ i → i < M._rows → 0 ≤ j → j < M._cols → M.cell i j = .finite c)
    (i j : Int) (hi0 : 1 ≤ i) (hi : i + 1 < M._rows) (hj0 : 1 ≤ j) (hj : j + 1 < M._cols) :
    accumulatedStencil M K i j =
      (((((((((Binary32.finite 0).add ((Binary32.finite c).mul (K.cell (1 + -1) (1 + -1)))).add
        ((Binary32.finite c).mul (K.cell (1 + -1) (1 + 0)))).add
        ((Binary32.finite c).mul (K.cell (1 + -1) (1 + 1)))).add
        ((Binary32.finite c).mul (K.cell (1 + 0) (1 + -1)))).add
        ((Binary32.finite c).mul (K.cell (1 + 0) (1 + 0)))).add
        ((Binary32.finite c).mul (K.cell (1 + 0) (1 + 1)))).add
        ((Binary32.finite c).mul (K.cell (1 + 1) (1 + -1)))).add
        ((Binary32.finite c).mul (K.cell (1 + 1) (1 + 0)))).add
        ((Binary32.finite c).mul (K.cell (1 + 1) (1 + 1))) := by
  have step : ∀ (k l : Int) (acc : Binary32), -1 ≤ k → k ≤ 1 → -1 ≤ l → l ≤ 1 →
      stencilStep M K i j acc (k, l) =
        acc.add ((Binary32.finite c).mul (K.cell (1 + k) (1 + l))) := by
    intro k l acc h1 h2 h3 h4
    have hin : 0 ≤ i + k ∧ i + k < M._rows ∧ 0 ≤ j + l ∧ j + l < M._cols :=
      ⟨by omega, by omega, by omega, by omega⟩
    rw [stencilStep_inside M K i j k l acc hin, hu _ _ hin.1 hin.2.1 hin.2.2.1 hin.2.2.2]
  unfold accumulatedStencil stencilOffsets
  simp only [List.foldl]
  rw [step (-1) (-1) _ (by decide) (by decide) (by decide) (by decide),
    step (-1) 0 _ (by decide) (by decide) (by decide) (by decide),
    step (-1) 1 _ (by decide) (by decide) (by decide) (by decide),
    step 0 (-1) _ (by decide) (by decide) (by decide) (by decide),
    step 0 0 _ (by decide) (by decide) (by decide) (by decide),
    step 0 1 _ (by decide) (by decide) (by decide) (by decide),
    step 1 (-1) _ (by decide) (by decide) (by decide) (by decide),
    step 1 0 _ (by decide) (by decide) (by decide) (by decide),
    step 1 1 _ (by decide) (by decide) (by decide) (by decide)]

/-- The products of a constant `c` and the entries of the kernels of `sobel`, when `c / 8` and
`c / 4` are binary32 values. -/
theorem sobel_products (c : ℚ) (h8 : IsBinary32 (c / 8)) (h4 : IsBinary32 (c / 4)) :
    (Binary32.finite c).mul (.finite (1 / 8)) = .finite (c / 8) ∧
    (Binary32.finite c).mul (.finite (2 / 8)) = .finite (c / 4) ∧
    (Binary32.finite c).mul (.finite (-1 / 8)) = .finite (-(c / 8)) ∧
    (Binary32.finite c).mul (.finite (-2 / 8)) = .finite (-(c / 4)) ∧
    (Binary32.finite c).mul (.finite 0) = .finite 0 := by
  refine ⟨?_, ?_, ?_, ?_, mul_zero32 c⟩
  · rw [mul_finite, show c * (1 / 8) = c / 8 by ring]; exact h8
  · rw [mul_finite, show c * (2 / 8) = c / 4 by ring]; exact h4
  · rw [mul_finite, show c * (-1 / 8) = -(c / 8) by ring]; exact h8.neg
  · rw [mul_finite, show c * (-2 / 8) = -(c / 4) by ring]; exact h4.neg

/-- At an interior cell of a uniform matrix the accumulated stencil of the first kernel of
`sobel` is 0, when `c / 8` and `c / 4` are binary32 values. -/
theorem accumulatedStencil_sobelX (M : Matrix32) (c : ℚ)
    (hu : ∀ i j : Int, 0 ≤ i → i < M._rows → 0 ≤ j → j < M._cols → M.cell i j = .finite c)
    (h8 : IsBinary32 (c / 8)) (h4 : IsBinary32 (c / 4))
    (i j : Int) (hi0 : 1 ≤ i) (hi : i + 1 < M._rows) (hj0 : 1 ≤ j) (hj : j + 1 < M._cols) :
    accumulatedStencil M sobelXKernel32 i j = .finite 0 := by
  obtain ⟨p1, p2, pn1, pn2, p0⟩ := sobel_products c h8 h4
  rw [accumulatedStencil_uniform_interior M sobelXKernel32 c hu i j hi0 hi hj0 hj]
  have k00 : sobelXKernel32.cell (1 + -1) (1 + -1) = .finite (1 / 8) := rfl
  have k01 : sobelXKernel32.cell (1 + -1) (1 + 0) = .finite 0 := rfl
  have k02 : sobelXKernel32.cell (1 + -1) (1 + 1) = .finite (-1 / 8) := rfl
  have k10 : sobelXKernel32.cell (1 + 0) (1 + -1) = .finite (2 / 8) := rfl
  have k11 : sobelXKernel32.cell (1 + 0) (1 + 0) = .finite 0 := rfl
  have k12 : sobelXKernel32.cell (1 + 0) (1 + 1) = .finite (-2 / 8) := rfl
  have k20 : sobelXKernel32.cell (1 + 1) (1 + -1) = .finite (1 / 8) := rfl
  have k21 : sobelXKernel32.cell (1 + 1) (1 + 0) = .finite 0 := rfl
  have k22 : sobelXKernel32.cell (1 + 1) (1 + 1) = .finite (-1 / 8) := rfl
  rw [k00, k01, k02, k10, k11, k12, k20, k21, k22, p1, p2, pn1, pn2, p0]
  rw [zero_add32 _ h8, add_zero32 _ h8, add_neg32, zero_add32 _ h4, add_zero32 _ h4, add_neg32,
    zero_add32 _ h8, add_zero32 _ h8, add_neg32]

/-- At an interior cell of a uniform matrix the accumulated stencil of the second kernel of
`sobel` is 0, when `c / 8`, `c / 4`, `3 c / 8` and `c / 2` are binary32 values. -/
theorem accumulatedStencil_sobelY (M : Matrix32) (c : ℚ)
    (hu : ∀ i j : Int, 0 ≤ i → i < M._rows → 0 ≤ j → j < M._cols → M.cell i j = .finite c)
    (h8 : IsBinary32 (c / 8)) (h4 : IsBinary32 (c / 4)) (h38 : IsBinary32 (3 * c / 8))
    (h2 : IsBinary32 (c / 2))
    (i j : Int) (hi0 : 1 ≤ i) (hi : i + 1 < M._rows) (hj0 : 1 ≤ j) (hj : j + 1 < M._cols) :
    accumulatedStencil M sobelYKernel32 i j = .finite 0 := by
  obtain ⟨p1, p2, pn1, pn2, p0⟩ := sobel_products c h8 h4
  rw [accumulatedStencil_uniform_interior M sobelYKernel32 c hu i j hi0 hi hj0 hj]
  have k00 : sobelYKernel32.cell (1 + -1) (1 + -1) = .finite (1 / 8) := rfl
  have k01 : sobelYKernel32.cell (1 + -1) (1 + 0) = .finite (2 / 8) := rfl
  have k02 : sobelYKernel32.cell (1 + -1) (1 + 1) = .finite (1 / 8) := rfl
  have k10 : sobelYKernel32.cell (1 + 0) (1 + -1) = .finite 0 := rfl
  have k11 : sobelYKernel32.cell (1 + 0) (1 + 0) = .finite 0 := rfl
  have k12 : sobelYKernel32.cell (1 + 0) (1 + 1) = .finite 0 := rfl
  have k20 : sobelYKernel32.cell (1 + 1) (1 + -1) = .finite (-1 / 8) := rfl
  have k21 : sobelYKernel32.cell (1 + 1) (1 + 0) = .finite (-2 / 8) := rfl
  have k22 : sobelYKernel32.cell (1 + 1) (1 + 1) = .finite (-1 / 8) := rfl
  rw [k00, k01, k02, k10, k11, k12, k20, k21, k22, p1, p2, pn1, pn2, p0]
  have s1 : (Binary32.finite (c / 8)).add (.finite (c / 4)) = .finite (3 * c / 8) := by
    rw [add_finite, show c / 8 + c / 4 = 3 * c / 8 by ring]; exact h38
  have s2 : (Binary32.finite (3 * c / 8)).add (.finite (c / 8)) = .finite (c / 2) := by
    rw [add_finite, show 3 * c / 8 + c / 8 = c / 2 by ring]; exact h2
  have s3 : (Binary32.finite (c / 2)).add (.finite (-(c / 8))) = .finite (3 * c / 8) := by
    rw [add_finite, show c / 2 + -(c / 8) = 3 * c / 8 by ring]; exact h38
  have s4 : (Binary32.finite (3 * c / 8)).add (.finite (-(c / 4))) = .finite (c / 8) := by
    rw [add_finite, show 3 * c / 8 + -(c / 4) = c / 8 by ring]; exact h8
  rw [zero_add32 _ h8, s1, s2, add_zero32 _ h2, add_zero32 _ h2, add_zero32 _ h2, s3, s4,
    add_neg32]

end ImageProcessor

namespace ImageProcessor

theorem clampCell32_zero : clampCell32 (.finite 0) = .finite 0 := by decide

theorem uniform3x3_32_cells (c : Binary32) :
    ∀ i j : Int, 0 ≤ i → i < (uniform3x3_32 c)._rows → 0 ≤ j → j < (uniform3x3_32 c)._cols →
      (uniform3x3_32 c).cell i j = c := by
  intro i j hi0 hi hj0 hj
  have hi3 : i < 3 := hi
  have hj3 : j < 3 := hj
  have hi' : i = 0 ∨ i = 1 ∨ i = 2 := by omega
  have hj' : j = 0 ∨ j = 1 ∨ j = 2 := by omega
  rcases hi' with h | h | h <;> rcases hj' with h' | h' | h' <;> subst h <;> subst h' <;> rfl

end ImageProcessor

namespace ImageProcessor

/-- The 2 x 2 identity matrix has 1 on the diagonal and 0 elsewhere. -/
theorem identity2x2_32_cells :
    ∀ i j : Int, 0 ≤ i → i < sample2x2._cols → 0 ≤ j → j < sample2x2._cols →
      identity2x2_32.cell i j = if i = j then .finite 1 else .finite 0 := by
  intro i j hi0 hi hj0 hj
  have hi2 : i < 2 := hi
  have hj2 : j < 2 := hj
  have hi' : i = 0 ∨ i = 1 := by omega
  have hj' : j = 0 ∨ j = 1 := by omega
  rcases hi' with h | h <;> rcases hj' with h' | h' <;> subst h <;> subst h' <;> decide

/-- The cells of the 2 x 2 matrix holding 1, 2, 3, 4 are finite binary32 values. -/
theorem sample2x2_cells_finite :
    ∀ i j : Int, 0 ≤ i → i < sample2x2._rows → 0 ≤ j → j < sample2x2._cols →
      ∃ q : ℚ, sample2x2.cell i j = .finite q ∧ IsBinary32 q := by
  intro i j hi0 hi hj0 hj
  have hi2 : i < 2 := hi
  have hj2 : j < 2 := hj
  have hi' : i = 0 ∨ i = 1 := by omega
  have hj' : j = 0 ∨ j = 1 := by omega
  rcases hi' with h | h <;> rcases hj' with h' | h' <;> subst h <;> subst h'
  · exact ⟨1, by decide, by decide!⟩
  · exact ⟨2, by decide, by decide!⟩
  · exact ⟨3, by decide, by decide!⟩
  · exact ⟨4, by decide, by decide!⟩

end ImageProcessor

namespace ImageProcessor

/-! The claims -/

/-- C4 (the code departs from the claim): on the 2 x 2 matrix holding 1, 2, 3, 4 the read-only
accessor at row 0, column 2 - a column outside the matrix - does not stop with "Index out of
range." but returns 3, the cell of row 1, column 0; the mutable accessor refuses the same
position. -/
theorem C4_opCallConst_column_unchecked :
    example2x2.WF ∧ example2x2._cols = 2 ∧
    example2x2.opCallConst 0 2 = .ok 3 ∧
    example2x2.opCallConst 1 0 = .ok 3 ∧
    example2x2.opCall 0 2 = .error .indexOutOfRange := by
  decide!

end ImageProcessor


namespace ImageProcessor

/-- The cells 1, 2, 3, 4 of the 2 x 2 example matrix lie in [0, 256). -/
theorem example2x2_cells_in_range :
    ∀ k : Int, 0 ≤ k → k < example2x2._len → 0 ≤ example2x2.flat k ∧ example2x2.flat k < 256 := by
  intro k hk0 hk
  have hk4 : k < 4 := hk
  interval_cases k <;> decide!

/-- C3: for every `levels` with `1 <= levels <= 256` that divides 256 and every image whose cells
all lie in [0, 256), `quantization(image, levels)` succeeds and returns a matrix of the shape of
the image in which each cell `v` is replaced by `(b + (b + w) - 1) div 2`, where
`w = 256 div levels`, `i = floor(v / w)` and `b = i * w`. -/
theorem C3_quantization_spec (image : Matrix) (levels : Int) (hI : image.WF) (h1 : 1 ≤ levels)
    (_h2 : levels ≤ 256) (hd : levels ∣ 256)
    (hcells : ∀ k : Int, 0 ≤ k → k < image._len → 0 ≤ image.flat k ∧ image.flat k < 256) :
    ∃ R, quantization image levels = .ok R ∧ R.WF ∧ R._rows = image._rows ∧
      R._cols = image._cols ∧
      ∀ k : Int, 0 ≤ k → k < image._len →
        let w : Int := 256 / levels
        let i : Int := ⌊image.flat k / (w : ℚ)⌋
        let b : Int := i * w
        R.flat k = (((b + (b + w) - 1) / 2 : Int) : ℚ) := by
  have hbuf := hI.2.2.2
  obtain ⟨R, hR, hwf, hrows, hcols, hval⟩ := quantization_ok image levels hI h1 hd (by
    intro k hk
    exact hcells k (Int.ofNat_nonneg k) (by rw [← hbuf]; exact_mod_cast hk))
  refine ⟨R, hR, hwf, hrows, hcols, ?_⟩
  intro k hk0 hk
  obtain ⟨n, hn⟩ := Int.eq_ofNat_of_zero_le hk0
  subst hn
  exact flat_of_getElem? R n _ (hval n (by omega))

/-- C3 at a concrete input: the 2 x 2 matrix holding 1, 2, 3, 4 quantized to 4 levels. -/
theorem C3_quantization_spec_witness :
    example2x2.WF ∧ (1 : Int) ≤ 4 ∧ (4 : Int) ≤ 256 ∧ (4 : Int) ∣ 256 ∧
    (∀ k : Int, 0 ≤ k → k < example2x2._len →
      0 ≤ example2x2.flat k ∧ example2x2.flat k < 256) ∧
    ∃ R, quantization example2x2 4 = .ok R ∧ R.WF ∧ R._rows = example2x2._rows ∧
      R._cols = example2x2._cols ∧
      ∀ k : Int, 0 ≤ k → k < example2x2._len →
        let w : Int := 256 / 4
        let i : Int := ⌊example2x2.flat k / (w : ℚ)⌋
        let b : Int := i * w
        R.flat k = (((b + (b + w) - 1) / 2 : Int) : ℚ) :=
  ⟨by decide, by decide, by decide, by decide, example2x2_cells_in_range,
    C3_quantization_spec example2x2 4 (by decide) (by decide) (by decide) (by decide)
      example2x2_cells_in_range⟩

end ImageProcessor


namespace ImageProcessor

/-- Every cell of the 3 x 3 matrix whose cells all hold `c` is `c`. -/
theorem uniform3x3_cells (c : ℚ) :
    ∀ i j : Int, 0 ≤ i → i < (uniform3x3 c)._rows → 0 ≤ j → j < (uniform3x3 c)._cols →
      (uniform3x3 c).cell i j = c := by
  intro i j hi0 hi hj0 hj
  have hi3 : i < 3 := hi
  have hj3 : j < 3 := hj
  interval_cases i <;> interval_cases j <;> rfl

/-- C10 as stated fails: on the 3 x 3 matrix whose cells all hold 300 the interior cell of
`blur` is 255 (the result is clamped), and on the one whose cells all hold 1/2 it is 0 (the sum
is rounded to an integer). -/
theorem C10_blur_counterexample :
    (uniform3x3 300).WF ∧
    blur (uniform3x3 300) = .ok
      { _matrix := [169, 225, 169, 225, 255, 225, 169, 225, 169], _rows := 3, _cols := 3,
        _len := 9 } ∧
    ({ _matrix := [169, 225, 169, 225, 255, 225, 169, 225, 169], _rows := 3, _cols := 3,
        _len := 9 } : Matrix).cell 1 1 = 255 ∧
    (255 : ℚ) ≠ 300 ∧
    (uniform3x3 (1 / 2)).WF ∧
    blur (uniform3x3 (1 / 2)) = .ok
      { _matrix := [0, 0, 0, 0, 0, 0, 0, 0, 0], _rows := 3, _cols := 3, _len := 9 } ∧
    ({ _matrix := [0, 0, 0, 0, 0, 0, 0, 0, 0], _rows := 3, _cols := 3, _len := 9 } : Matrix).cell
      1 1 = 0 ∧
    (0 : ℚ) ≠ 1 / 2 := by
  decide!

/-- C10, amended: for every integer constant `c` with `0 <= c <= 255` and every matrix `M` with
`rows >= 3` and `cols >= 3` whose cells all hold `c`, `blur(M)` succeeds with a matrix of the
shape of `M` and every interior cell (`1 <= i <= rows - 2`, `1 <= j <= cols - 2`) of it is `c`. -/
theorem C10_blur_uniform (M : Matrix) (c : Int) (hM : M.WF) (hc0 : 0 ≤ c) (hc1 : c ≤ 255)
    (_hr : 3 ≤ M._rows) (_hcols : 3 ≤ M._cols)
    (hu : ∀ i j : Int, 0 ≤ i → i < M._rows → 0 ≤ j → j < M._cols → M.cell i j = (c : ℚ)) :
    ∃ R, blur M = .ok R ∧ R.WF ∧ R._rows = M._rows ∧ R._cols = M._cols ∧
      ∀ i j : Int, 1 ≤ i → i ≤ M._rows - 2 → 1 ≤ j → j ≤ M._cols - 2 →
        R.cell i j = (c : ℚ) := by
  obtain ⟨R, hR, hwf, hrows, hcols, hcells⟩ := blur_ok M hM
  refine ⟨R, hR, hwf, hrows, hcols, ?_⟩
  intro i j hi1 hi2 hj1 hj2
  rw [hcells i j (by omega) (by omega) (by omega) (by omega),
    stencilSum_uniform_interior M _ (c : ℚ) hu i j hi1 hi2 hj1 hj2, blurKernel_sum, mul_one,
    rintf_intCast]
  exact clampCell_of_mem _ (by exact_mod_cast hc0)
    (by exact_mod_cast (by omega : c < 256))

/-- C10, amended, at a concrete input: the 3 x 3 matrix whose cells all hold 7. -/
theorem C10_blur_uniform_witness :
    (uniform3x3 7).WF ∧ (0 : Int) ≤ 7 ∧ (7 : Int) ≤ 255 ∧ 3 ≤ (uniform3x3 7)._rows ∧
    3 ≤ (uniform3x3 7)._cols ∧
    (∀ i j : Int, 0 ≤ i → i < (uniform3x3 7)._rows → 0 ≤ j → j < (uniform3x3 7)._cols →
      (uniform3x3 7).cell i j = ((7 : Int) : ℚ)) ∧
    ∃ R, blur (uniform3x3 7) = .ok R ∧ R.WF ∧ R._rows = (uniform3x3 7)._rows ∧
      R._cols = (uniform3x3 7)._cols ∧
      ∀ i j : Int, 1 ≤ i → i ≤ (uniform3x3 7)._rows - 2 → 1 ≤ j →
        j ≤ (uniform3x3 7)._cols - 2 → R.cell i j = ((7 : Int) : ℚ) :=
  ⟨by decide, by decide, by decide, by decide, by decide,
    fun i j hi0 hi hj0 hj => by
      rw [uniform3x3_cells 7 i j hi0 hi hj0 hj]; norm_num,
    C10_blur_uniform (uniform3x3 7) 7 (by decide) (by decide) (by decide) (by decide) (by decide)
      (fun i j hi0 hi hj0 hj => by
        rw [uniform3x3_cells 7 i j hi0 hi hj0 hj]; norm_num)⟩

end ImageProcessor

namespace ImageProcessor

/-- C11: for every matrix `M`, `normalize(M)` succeeds, keeps the rows and the columns of `M` and
replaces each element `v` by 0 when `v < 0`, by 255 when `v >= 256`, and leaves `v` as it is
otherwise; what it returns is the updated `M` (the embedding returns the updated argument). -/
theorem C11_normalize_spec (M : Matrix) (hM : M.WF) :
    ∃ R, normalize M = .ok R ∧ R._rows = M._rows ∧ R._cols = M._cols ∧ R._len = M._len ∧
      R._matrix.length = M._matrix.length ∧
      ∀ k : Int, 0 ≤ k → k < M._len →
        R.flat k = if M.flat k < 0 then 0 else if 256 ≤ M.flat k then 255 else M.flat k := by
  obtain ⟨R, hR, hshape, hcells⟩ := normalize_ok M hM
  refine ⟨R, hR, hshape.1, hshape.2.1, hshape.2.2.1, hshape.2.2.2, ?_⟩
  intro k hk0 hk
  obtain ⟨n, hn⟩ := Int.eq_ofNat_of_zero_le hk0
  subst hn
  have hn' : n < M._matrix.length := by
    have := hM.2.2.2; omega
  exact flat_of_getElem? R n _ (hcells n hn')

/-- C11 at a concrete input: the 2 x 2 matrix holding 1, 2, 3, 4. -/
theorem C11_normalize_spec_witness :
    example2x2.WF ∧
    ∃ R, normalize example2x2 = .ok R ∧ R._rows = example2x2._rows ∧
      R._cols = example2x2._cols ∧ R._len = example2x2._len ∧
      R._matrix.length = example2x2._matrix.length ∧
      ∀ k : Int, 0 ≤ k → k < example2x2._len →
        R.flat k = if example2x2.flat k < 0 then 0
          else if 256 ≤ example2x2.flat k then 255 else example2x2.flat k :=
  ⟨by decide, C11_normalize_spec example2x2 (by decide)⟩

end ImageProcessor

namespace ImageProcessor

/-- C13: for every `L` with `1 <= L <= 256` that divides 256 and every matrix `M` whose cells all
lie in [0, 256), `quantization(M, L)` succeeds with a matrix `Q`, `quantization(Q, L)` succeeds
with a matrix `Q2`, and `Q2 == Q` is true. -/
theorem C13_quantization_idempotent (M : Matrix) (L : Int) (hM : M.WF) (h1 : 1 ≤ L)
    (_h2 : L ≤ 256) (hd : L ∣ 256)
    (hcells : ∀ k : Int, 0 ≤ k → k < M._len → 0 ≤ M.flat k ∧ M.flat k < 256) :
    ∃ Q Q2, quantization M L = .ok Q ∧ quantization Q L = .ok Q2 ∧ Q2.opEq Q = .ok true := by
  have hbuf := hM.2.2.2
  obtain ⟨Q, hQ, hQwf, hQQ⟩ := quantization_idem M L hM h1 hd (by
    intro k hk
    exact hcells k (Int.ofNat_nonneg k) (by rw [← hbuf]; exact_mod_cast hk))
  exact ⟨Q, Q, hQ, hQQ, opEq_self Q hQwf⟩

/-- C13 at a concrete input: the 2 x 2 matrix holding 1, 2, 3, 4 and 4 levels. -/
theorem C13_quantization_idempotent_witness :
    example2x2.WF ∧ (1 : Int) ≤ 4 ∧ (4 : Int) ≤ 256 ∧ (4 : Int) ∣ 256 ∧
    (∀ k : Int, 0 ≤ k → k < example2x2._len →
      0 ≤ example2x2.flat k ∧ example2x2.flat k < 256) ∧
    ∃ Q Q2, quantization example2x2 4 = .ok Q ∧ quantization Q 4 = .ok Q2 ∧
      Q2.opEq Q = .ok true :=
  ⟨by decide, by decide, by decide, by decide, example2x2_cells_in_range,
    C13_quantization_idempotent example2x2 4 (by decide) (by decide) (by decide) (by decide)
      example2x2_cells_in_range⟩

end ImageProcessor

namespace ImageProcessor

/-- C14: for every matrix `A` whose cells are all integers and the 3 x 3 kernel `B` with
`B(1, 1) = 1` and every other entry 0, `convolution(A, B)` succeeds with a matrix `R` for which
`R == A` is true (it is `A`); on the 1 x 1 matrix holding 5 it returns the 1 x 1 matrix
holding 5. -/
theorem C14_center_tap (A : Matrix) (hA : A.WF)
    (hint : ∀ k : Int, 0 ≤ k → k < A._len → ∃ z : Int, A.flat k = (z : ℚ)) :
    (∃ R, convolution A centerKernel = .ok R ∧ R.opEq A = .ok true ∧ R = A) ∧
    convolution (singleCell 5) centerKernel = .ok (singleCell 5) ∧
    centerKernel.cell 1 1 = 1 := by
  refine ⟨⟨A, convolution_center A hA hint, opEq_self A hA, rfl⟩, ?_, ?_⟩
  · decide!
  · decide!

/-- The cells 1, 2, 3, 4 of the 2 x 2 example matrix are integers. -/
theorem example2x2_cells_integer :
    ∀ k : Int, 0 ≤ k → k < example2x2._len → ∃ z : Int, example2x2.flat k = (z : ℚ) := by
  intro k hk0 hk
  have hk4 : k < 4 := hk
  interval_cases k
  · exact ⟨1, by decide!⟩
  · exact ⟨2, by decide!⟩
  · exact ⟨3, by decide!⟩
  · exact ⟨4, by decide!⟩

/-- C14 at a concrete input: the 2 x 2 matrix holding 1, 2, 3, 4. -/
theorem C14_center_tap_witness :
    example2x2.WF ∧
    (∀ k : Int, 0 ≤ k → k < example2x2._len → ∃ z : Int, example2x2.flat k = (z : ℚ)) ∧
    ((∃ R, convolution example2x2 centerKernel = .ok R ∧ R.opEq example2x2 = .ok true ∧
        R = example2x2) ∧
      convolution (singleCell 5) centerKernel = .ok (singleCell 5) ∧
      centerKernel.cell 1 1 = 1) :=
  ⟨by decide, example2x2_cells_integer,
    C14_center_tap example2x2 (by decide) example2x2_cells_integer⟩

end ImageProcessor

namespace ImageProcessor

/-- C18: for every matrix of length `L = rows * cols` and every readable input stream that
carries `n` floating-point tokens: when `n <= L` the read succeeds, the flat cell `k` holds the
token `k` for every `k < n`, the cells `n .. L - 1` keep their values and the shape is unchanged;
when `n > L` the read stops with "Index out of range.". -/
theorem C18_opExtract_spec (M : Matrix) (hM : M.WF) (tokens : List ℚ) :
    ((tokens.length : Int) ≤ M._rows * M._cols →
      ∃ R, opExtract { good := true, tokens := tokens } M = .ok R ∧
        R._rows = M._rows ∧ R._cols = M._cols ∧ R._len = M._len ∧ R.WF ∧
        (∀ k : Nat, k < tokens.length → tokens[k]? = some (R.flat k)) ∧
        (∀ k : Int, (tokens.length : Int) ≤ k → k < M._rows * M._cols → R.flat k = M.flat k)) ∧
    (M._rows * M._cols < (tokens.length : Int) →
      opExtract { good := true, tokens := tokens } M = .error .indexOutOfRange) := by
  have hlen := hM.2.2.2
  have hL : M._rows * M._cols = (M._matrix.length : Int) := by rw [hlen, hM.2.2.1]
  obtain ⟨h1, h2⟩ := extract_loop tokens M 0 hlen
  rw [hL]
  constructor
  · intro hfit
    obtain ⟨R, hR, hshape, hcells, hoth⟩ := h1 (by omega)
    have hRl : ∀ k, k < M._matrix.length → R._matrix[k]? = some (R.flat k) :=
      fun k hk => getElem?_flat R k (by rw [hshape.2.2.2]; exact hk)
    refine ⟨R, ?_, hshape.1, hshape.2.1, hshape.2.2.1, SameShape.wf hshape hM, ?_, ?_⟩
    · unfold opExtract
      simp only [Bool.not_true, Bool.false_eq_true, if_false]
      have e : ((0 : Nat) : Int) = 0 := rfl
      rw [← e, hR, ok_bind]
      rfl
    · intro k hk
      have := hcells k hk
      rw [Nat.zero_add] at this
      rw [← this]
      exact hRl k (by omega)
    · intro k hk0 hk
      obtain ⟨n, hn⟩ := Int.eq_ofNat_of_zero_le (by omega : 0 ≤ k)
      subst hn
      have hn' : n < M._matrix.length := by omega
      have := hoth n (Or.inr (by omega))
      rw [hRl n hn', getElem?_flat M n hn'] at this
      exact Option.some.inj this
  · intro hover
    unfold opExtract
    simp only [Bool.not_true, Bool.false_eq_true, if_false]
    have e : ((0 : Nat) : Int) = 0 := rfl
    rw [← e, h2 (by omega) (Nat.zero_le _), error_bind]

/-- C18 at a concrete input: the tokens 5, 6 read into the 2 x 2 matrix holding 1, 2, 3, 4. -/
theorem C18_opExtract_spec_witness :
    example2x2.WF ∧
    ((([5, 6] : List ℚ).length : Int) ≤ example2x2._rows * example2x2._cols →
      ∃ R, opExtract { good := true, tokens := [5, 6] } example2x2 = .ok R ∧
        R._rows = example2x2._rows ∧ R._cols = example2x2._cols ∧ R._len = example2x2._len ∧
        R.WF ∧
        (∀ k : Nat, k < ([5, 6] : List ℚ).length → ([5, 6] : List ℚ)[k]? = some (R.flat k)) ∧
        (∀ k : Int, (([5, 6] : List ℚ).length : Int) ≤ k →
          k < example2x2._rows * example2x2._cols → R.flat k = example2x2.flat k)) ∧
    (example2x2._rows * example2x2._cols < (([5, 6] : List ℚ).length : Int) →
      opExtract { good := true, tokens := [5, 6] } example2x2 = .error .indexOutOfRange) ∧
    opExtract { good := true, tokens := [5, 6] } example2x2 =
      .ok { _matrix := [5, 6, 3, 4], _rows := 2, _cols := 2, _len := 4 } ∧
    opExtract { good := true, tokens := [5, 6, 7, 8, 9] } example2x2 =
      .error .indexOutOfRange :=
  ⟨by decide, (C18_opExtract_spec example2x2 (by decide) [5, 6]).1,
    (C18_opExtract_spec example2x2 (by decide) [5, 6]).2, by decide!, by decide!⟩

end ImageProcessor

namespace ImageProcessor

/-- C19: for every matrix with `r` rows and `c` columns, the text output appends to the stream
the elements in flat (row-major) order, element `k` followed by a newline when `k + 1` is a
multiple of `c` and `k + 1 < r * c`, by a single space when `k + 1` is not a multiple of `c` and
`k + 1 < r * c`, and by nothing when `k + 1 = r * c`; whatever text `fmt` the stream writes for a
`float`, the 2 x 2 matrix holding 1, 2, 3, 4 is written as `fmt 1`, a space, `fmt 2`, a newline,
`fmt 3`, a space, `fmt 4`, which is "1 2\n3 4" when integers are written in decimal. -/
theorem C19_opInsert_spec (fmt : ℚ → String) (os : String) (M : Matrix) (hM : M.WF) :
    opInsert fmt os M = .ok (os ++ renderedPrefix fmt M (M._rows * M._cols).toNat) ∧
    (∀ n : Nat, renderedPrefix fmt M (n + 1) =
      renderedPrefix fmt M n ++ (fmt (M.flat (n : Int)) ++
        separatorAfter M._rows M._cols (n : Int))) ∧
    (∀ k : Int, 0 ≤ k → k < M._rows * M._cols →
      ((k + 1) % M._cols = 0 ∧ k + 1 < M._rows * M._cols →
        separatorAfter M._rows M._cols k = "\n") ∧
      (¬ (k + 1) % M._cols = 0 ∧ k + 1 < M._rows * M._cols →
        separatorAfter M._rows M._cols k = " ") ∧
      (k + 1 = M._rows * M._cols → separatorAfter M._rows M._cols k = "")) ∧
    opInsert fmt "" example2x2 =
      .ok (fmt 1 ++ " " ++ fmt 2 ++ "\n" ++ fmt 3 ++ " " ++ fmt 4) ∧
    opInsert fmtInteger "" example2x2 = .ok "1 2\n3 4" := by
  have hL : (M._rows * M._cols).toNat = M._matrix.length := by
    have h1 := hM.2.2.2
    have h2 := hM.2.2.1
    omega
  refine ⟨by rw [hL]; exact opInsert_ok fmt os M hM, fun _ => rfl, ?_, ?_, by decide!⟩
  · intro k _ _
    unfold separatorAfter
    refine ⟨fun h => by rw [if_pos h], fun h => ?_, fun h => ?_⟩
    · rw [if_neg (by intro h'; exact h.1 h'.1), if_pos h]
    · rw [if_neg (by intro h'; omega), if_neg (by intro h'; omega)]
  · rw [opInsert_ok fmt "" example2x2 (by decide)]
    have e : example2x2._matrix.length = 4 := rfl
    rw [e]
    simp only [renderedPrefix]
    have s0 : separatorAfter example2x2._rows example2x2._cols ((0 : Nat) : Int) = " " := by
      decide
    have s1 : separatorAfter example2x2._rows example2x2._cols ((1 : Nat) : Int) = "\n" := by
      decide
    have s2 : separatorAfter example2x2._rows example2x2._cols ((2 : Nat) : Int) = " " := by
      decide
    have s3 : separatorAfter example2x2._rows example2x2._cols ((3 : Nat) : Int) = "" := by
      decide
    have f0 : example2x2.flat ((0 : Nat) : Int) = 1 := by decide!
    have f1 : example2x2.flat ((1 : Nat) : Int) = 2 := by decide!
    have f2 : example2x2.flat ((2 : Nat) : Int) = 3 := by decide!
    have f3 : example2x2.flat ((3 : Nat) : Int) = 4 := by decide!
    rw [s0, s1, s2, s3, f0, f1, f2, f3]
    simp [String.append_assoc]

/-- C19 at a concrete input: the 2 x 2 matrix holding 1, 2, 3, 4 written in decimal to an empty
stream. -/
theorem C19_opInsert_spec_witness :
    example2x2.WF ∧
    opInsert fmtInteger "" example2x2 =
      .ok ("" ++ renderedPrefix fmtInteger example2x2
        (example2x2._rows * example2x2._cols).toNat) ∧
    renderedPrefix fmtInteger example2x2 (example2x2._rows * example2x2._cols).toNat =
      "1 2\n3 4" :=
  ⟨by decide, (C19_opInsert_spec fmtInteger "" example2x2 (by decide)).1, by decide!⟩

end ImageProcessor


namespace ImageProcessor

/-- C21: for every `levels` with `1 <= levels <= 256` (for which the `int` division of the code
gives `256 div levels`), the bucket index `floor(v / (256 div levels))` that `quantization` uses
to read its table of `levels` averages is below `levels` for every pixel `v` in [0, 256) exactly
when `levels` divides 256; when it does not, the pixel `v = levels * (256 div levels)` is in
[0, 256) and its index is `levels`, one past the end of the table, so that `quantization` on the
1 x 1 image holding it reads outside the table; and `quantization` returns only when the index of
every pixel is inside the table. -/
theorem C21_bucket_index (levels : Int) (h1 : 1 ≤ levels) (h2 : levels ≤ 256) :
    ((∀ v : ℚ, 0 ≤ v → v < 256 → floatToInt (v / ((256 / levels : Int) : ℚ)) < levels) ↔
      levels ∣ 256) ∧
    (¬ levels ∣ 256 →
      (0 : ℚ) ≤ ((levels * (256 / levels) : Int) : ℚ) ∧
      ((levels * (256 / levels) : Int) : ℚ) < 256 ∧
      floatToInt (((levels * (256 / levels) : Int) : ℚ) / ((256 / levels : Int) : ℚ)) = levels ∧
      quantization (singleCell ((levels * (256 / levels) : Int) : ℚ)) levels =
        .error .undefinedBehaviour) ∧
    intDiv TOTAL_COLORS_SUM levels = .ok (256 / levels) ∧
    (∀ image R : Matrix, image.WF → quantization image levels = .ok R →
      ∀ k : Int, 0 ≤ k → k < image._len →
        0 ≤ floatToInt (image.flat k / ((256 / levels : Int) : ℚ)) ∧
        floatToInt (image.flat k / ((256 / levels : Int) : ℚ)) < levels) := by
  have hw := width_pos levels h1 h2
  obtain ⟨hle, hiff⟩ := buckets_cover levels h1
  have hpast := bucket_of_first_uncovered levels (256 / levels) h1 hw
  have hrange : ¬ levels ∣ 256 → (0 : ℚ) ≤ ((levels * (256 / levels) : Int) : ℚ) ∧
      ((levels * (256 / levels) : Int) : ℚ) < 256 := by
    intro hnd
    have hlt : levels * (256 / levels) < 256 := by
      rcases lt_or_eq_of_le hle with h | h
      · exact h
      · exact absurd (hiff.mp h) hnd
    have h0 : 0 ≤ levels * (256 / levels) := Int.mul_nonneg (by omega) (by omega)
    exact ⟨by exact_mod_cast h0, by exact_mod_cast hlt⟩
  refine ⟨⟨?_, ?_⟩, ?_, ?_, ?_⟩
  · intro hall
    by_contra hnd
    obtain ⟨r0, r1⟩ := hrange hnd
    have := hall _ r0 r1
    rw [hpast] at this
    exact lt_irrefl _ this
  · intro hd v hv0 hv
    exact (bucket_bounds v levels (256 / levels) hw (hiff.mpr hd) hv0 hv).2
  · intro hnd
    obtain ⟨r0, r1⟩ := hrange hnd
    exact ⟨r0, r1, hpast, quantization_past_end levels h1 h2⟩
  · unfold intDiv TOTAL_COLORS_SUM
    rw [if_neg (by omega), Int.tdiv_eq_ediv (by norm_num) (by omega)]
  · intro image R hI h
    exact quantization_index_inside image R levels hI h1 h2 h

/-- C21 at a concrete input: 3 levels, which do not divide 256; the pixel 3 * 85 = 255 has the
index 3, and `quantization` on the 1 x 1 image holding 255 reads outside its table of 3 averages,
while with 4 levels it returns 223. -/
theorem C21_bucket_index_witness :
    (1 : Int) ≤ 3 ∧ (3 : Int) ≤ 256 ∧
    (((∀ v : ℚ, 0 ≤ v → v < 256 → floatToInt (v / ((256 / 3 : Int) : ℚ)) < 3) ↔
        (3 : Int) ∣ 256) ∧
      (¬ (3 : Int) ∣ 256 →
        (0 : ℚ) ≤ (((3 : Int) * (256 / 3) : Int) : ℚ) ∧
        (((3 : Int) * (256 / 3) : Int) : ℚ) < 256 ∧
        floatToInt ((((3 : Int) * (256 / 3) : Int) : ℚ) / ((256 / 3 : Int) : ℚ)) = 3 ∧
        quantization (singleCell (((3 : Int) * (256 / 3) : Int) : ℚ)) 3 =
          .error .undefinedBehaviour) ∧
      intDiv TOTAL_COLORS_SUM 3 = .ok (256 / 3) ∧
      (∀ image R : Matrix, image.WF → quantization image 3 = .ok R →
        ∀ k : Int, 0 ≤ k → k < image._len →
          0 ≤ floatToInt (image.flat k / ((256 / 3 : Int) : ℚ)) ∧
          floatToInt (image.flat k / ((256 / 3 : Int) : ℚ)) < 3)) ∧
    ¬ (3 : Int) ∣ 256 ∧
    quantization (singleCell 255) 3 = .error .undefinedBehaviour ∧
    quantization (singleCell 255) 4 = .ok (singleCell 223) :=
  ⟨by decide, by decide, C21_bucket_index 3 (by decide) (by decide), by decide, by decide!,
    by decide!⟩

end ImageProcessor

namespace ImageProcessor

/-! The claims settled on the machine types -/

/-- C1 (the claim as stated fails).  On the 1 x 2 matrix holding 16777216 and 1 and the 3 x 3
kernel of ones, the sum for cell `(0, 0)` is `16777216 + 1 = 16777217`, but the `float` sum of
the two products is 16777216, and so is the cell: an integer that is 1 away from the sum.  On
the 1 x 1 matrix holding plus infinity the cell of the result is plus infinity, which is no
integer. -/
theorem C1_convolution_counterexample :
    (rowOfTwo (.finite 16777216) (.finite 1)).WF ∧ IsBinary32 16777216 ∧ IsBinary32 1 ∧
    convolution32 (rowOfTwo (.finite 16777216) (.finite 1)) (uniform3x3_32 (.finite 1)) =
      .ok (rowOfTwo (.finite 16777216) (.finite 16777216)) ∧
    exactStencil (rowOfTwo (.finite 16777216) (.finite 1)) (uniform3x3_32 (.finite 1)) 0 0 =
      16777217 ∧
    ¬ (|(16777216 : ℚ) - 16777217| ≤ 1 / 2) ∧
    convolution32 (singleCell32 .posInf) (uniform3x3_32 (.finite 1)) =
      .ok (singleCell32 .posInf) := by
  decide!

/-- C1 (amended): for every matrix `A` and every 3 x 3 kernel `B`, `convolution(A, B)` succeeds
(no index error) and returns a matrix with the rows and columns of `A` in which each cell
`(i, j)` is `rintf` of the sum of `A(i + k, j + l) * B(1 + k, 1 + l)` over exactly those `k`, `l`
in {-1, 0, 1} with `0 <= i + k < rows` and `0 <= j + l < cols`, as the code accumulates it in
binary32: from 0, in the order of the loops, each product and each partial sum rounded to
nearest.  When that accumulated sum is finite the cell is an integer within 1/2 of it; in
particular the cell is an integer within 1/2 of the exact sum whenever the accumulated sum is
the exact sum. -/
theorem C1_convolution_spec (A B : Matrix32) (hA : A.WF) (hB : B.WF)
    (hB3 : B._rows = 3 ∧ B._cols = 3) :
    ∃ R, convolution32 A B = .ok R ∧ R.WF ∧ R._rows = A._rows ∧ R._cols = A._cols ∧
      ∀ i j : Int, 0 ≤ i → i < A._rows → 0 ≤ j → j < A._cols →
        R.cell i j = rintf32 (accumulatedStencil A B i j) ∧
        (∀ s : ℚ, accumulatedStencil A B i j = .finite s →
          ∃ z : Int, R.cell i j = .finite (z : ℚ) ∧ |(z : ℚ) - s| ≤ 1 / 2) ∧
        (accumulatedStencil A B i j = .finite (exactStencil A B i j) →
          ∃ z : Int, R.cell i j = .finite (z : ℚ) ∧
            |(z : ℚ) - exactStencil A B i j| ≤ 1 / 2) := by
  obtain ⟨R, hR, hwf, hr, hc, hcell⟩ := convolution32_ok A B hA hB hB3
  refine ⟨R, hR, hwf, hr, hc, ?_⟩
  intro i j hi0 hi hj0 hj
  obtain ⟨n, hn⟩ := Int.eq_ofNat_of_zero_le hi0
  obtain ⟨m, hm⟩ := Int.eq_ofNat_of_zero_le hj0
  subst hn hm
  have hfin : ∀ s : ℚ, accumulatedStencil A B (n : Int) (m : Int) = .finite s →
      ∃ z : Int, R.cell (n : Int) (m : Int) = .finite (z : ℚ) ∧ |(z : ℚ) - s| ≤ 1 / 2 := by
    intro s hs
    rw [hcell n m hi hj, hs]
    exact rintf32_spec s
  exact ⟨hcell n m hi hj, hfin, hfin _⟩

/-- C1 (amended) at a concrete input: the 2 x 2 matrix holding 1, 2, 3, 4 and the 3 x 3 kernel
whose centre entry is 1 and whose other entries are 0. -/
theorem C1_convolution_spec_witness :
    convolution32 sample2x2 centerKernel32 = .ok sample2x2 ∧
    ∃ R, convolution32 sample2x2 centerKernel32 = .ok R ∧ R.WF ∧ R._rows = 2 ∧ R._cols = 2 ∧
      ∀ i j : Int, 0 ≤ i → i < 2 → 0 ≤ j → j < 2 →
        R.cell i j = rintf32 (accumulatedStencil sample2x2 centerKernel32 i j) :=
  ⟨by decide!,
    (C1_convolution_spec sample2x2 centerKernel32 (by decide) (by decide) (by decide)).imp
      (fun _ h => ⟨h.1, h.2.1, h.2.2.1, h.2.2.2.1,
        fun i j hi0 hi hj0 hj => (h.2.2.2.2 i j hi0 hi hj0 hj).1⟩)⟩

/-- C2 (the claim as stated fails): on the 1 x 1 matrix holding 255.5, a binary32 value,
`normalize` succeeds and leaves the cell as it is (255.5 is neither below 0 nor at least 256),
and 255.5 does not lie in `[0, 255]`. -/
theorem C2_normalize_counterexample :
    (singleCell32 (.finite (511 / 2))).WF ∧ IsBinary32 (511 / 2) ∧
    normalize32 (singleCell32 (.finite (511 / 2))) = .ok (singleCell32 (.finite (511 / 2))) ∧
    ¬ ((0 : ℚ) ≤ 511 / 2 ∧ (511 / 2 : ℚ) ≤ 255) := by
  decide!

/-- C2 (amended): for every matrix `M`, `normalize(M)` succeeds, and afterwards every element
that is not a NaN is a finite value in the half-open interval `[0, 256)`: an element below 0
(minus infinity too) has become 0, an element of 256 or more (plus infinity too) has become 255,
and every other element is as it was; so it lies in `[0, 255]` unless it was strictly between
255 and 256.  A NaN element, which compares neither below 0 nor at least 256, is still a NaN. -/
theorem C2_normalize_range (M : Matrix32) (hM : M.WF) :
    ∃ R, normalize32 M = .ok R ∧
      ∀ k : Int, 0 ≤ k → k < M._len →
        (M.flat k ≠ .nan → ∃ q : ℚ, R.flat k = .finite q ∧ 0 ≤ q ∧ q < 256) ∧
        (∀ v : ℚ, M.flat k = .finite v → (v ≤ 255 ∨ 256 ≤ v) →
          ∃ q : ℚ, R.flat k = .finite q ∧ 0 ≤ q ∧ q ≤ 255) ∧
        (∀ v : ℚ, M.flat k = .finite v → 255 < v → v < 256 → R.flat k = .finite v) ∧
        (M.flat k = .posInf → R.flat k = .finite 255) ∧
        (M.flat k = .negInf → R.flat k = .finite 0) ∧
        (M.flat k = .nan → R.flat k = .nan) := by
  obtain ⟨R, hR, -, -, hcells⟩ := normalize32_flat M hM
  refine ⟨R, hR, ?_⟩
  intro k hk0 hk
  rw [hcells k hk0 hk]
  have hfin : ∀ v : ℚ, ∃ q : ℚ, clampCell32 (.finite v) = .finite q ∧ 0 ≤ q ∧ q < 256 ∧
      ((v ≤ 255 ∨ 256 ≤ v) → q ≤ 255) ∧ (255 < v → v < 256 → q = v) := by
    intro v
    refine ⟨_, clampCell32_finite v, ?_, ?_, ?_, ?_⟩
    · split_ifs <;> linarith
    · split_ifs <;> linarith
    · intro h
      split_ifs
      · norm_num
      · norm_num
      · rcases h with h | h
        · exact h
        · linarith
    · intro h1 h2
      rw [if_neg (by linarith), if_neg (by linarith)]
  refine ⟨?_, ?_, ?_, ?_, ?_, ?_⟩
  · intro hn
    cases hv : M.flat k with
    | finite v =>
      obtain ⟨q, hq, h0, h1, -⟩ := hfin v
      exact ⟨q, hq, h0, h1⟩
    | posInf => exact ⟨255, rfl, by norm_num, by norm_num⟩
    | negInf => exact ⟨0, rfl, by norm_num, by norm_num⟩
    | nan => exact absurd hv hn
  · intro v hv hrange
    rw [hv]
    obtain ⟨q, hq, h0, -, h2, -⟩ := hfin v
    exact ⟨q, hq, h0, h2 hrange⟩
  · intro v hv h1 h2
    rw [hv]
    obtain ⟨q, hq, -, -, -, h3⟩ := hfin v
    rw [hq, h3 h1 h2]
  · intro h; rw [h]; rfl
  · intro h; rw [h]; rfl
  · intro h; rw [h]; rfl

/-- C2 (amended) at a concrete input: the 2 x 3 matrix holding a NaN, 255.5, plus infinity,
minus infinity, -3 and 256. -/
theorem C2_normalize_range_witness :
    normalize32 ⟨[.nan, .finite (511 / 2), .posInf, .negInf, .finite (-3), .finite 256], 2, 3, 6⟩
      = .ok ⟨[.nan, .finite (511 / 2), .finite 255, .finite 0, .finite 0, .finite 255], 2, 3, 6⟩ ∧
    ∃ R, normalize32
        ⟨[.nan, .finite (511 / 2), .posInf, .negInf, .finite (-3), .finite 256], 2, 3, 6⟩ = .ok R ∧
      ∀ k : Int, 0 ≤ k → k < 6 →
        ((Matrix32.mk [.nan, .finite (511 / 2), .posInf, .negInf, .finite (-3), .finite 256]
            2 3 6).flat k ≠ .nan → ∃ q : ℚ, R.flat k = .finite q ∧ 0 ≤ q ∧ q < 256) :=
  ⟨by decide!,
    (C2_normalize_range
      ⟨[.nan, .finite (511 / 2), .posInf, .negInf, .finite (-3), .finite 256], 2, 3, 6⟩
      (by decide)).imp (fun _ h => ⟨h.1, fun k hk0 hk => (h.2 k hk0 hk).1⟩)⟩

/-- C5 (the claim as stated fails).  A column of 65536 cells times a row of 65536 cells: the
columns of the first are as many as the rows of the second, yet the product does not succeed;
the result would have `2^32` cells, the `int` product of its dimensions wraps to 0, and the
first write into it stops the run with "Index out of range.".  And on the 1 x 2 matrix holding
16777216 and 1 times the 2 x 1 matrix of ones, the sum for cell `(0, 0)` is 16777217, but the
cell of the result is the `float` sum 16777216. -/
theorem C5_opMul_counterexample :
    zeroColumn65536.WF ∧ zeroRow65536.WF ∧ zeroColumn65536._cols = zeroRow65536._rows ∧
    zeroColumn65536.opMul zeroRow65536 = .error .indexOutOfRange ∧
    (rowOfTwo (.finite 16777216) (.finite 1)).opMul (columnOfTwo (.finite 1) (.finite 1)) =
      .ok (singleCell32 (.finite 16777216)) ∧
    exactDot (rowOfTwo (.finite 16777216) (.finite 1)) (columnOfTwo (.finite 1) (.finite 1))
      0 0 = 16777217 :=
  ⟨zeroColumn65536_wf, zeroRow65536_wf, rfl, opMul32_column_row, by decide!, by decide!⟩

/-- C5 (amended): for matrices `A` and `B`, `A * B` succeeds exactly when `A.cols = B.rows` and
the size `A.rows * B.cols` of the result is an `int` (at most `INT_MAX`); the result then has
`A.rows` rows and `B.cols` columns, and its cell `(i, j)` is the sum over `k = 0 .. A.cols - 1`
of `A(i, k) * B(k, j)` as the code accumulates it in binary32: from 0, in that order, each
product and each partial sum rounded to nearest; so it is the exact sum whenever the accumulated
sum is.  No element access inside such a product fails.  When `A.cols` differs from `B.rows` the
run stops with "Invalid matrix dimensions.". -/
theorem C5_opMul_spec (A B : Matrix32) (hA : A.WF) (hB : B.WF) :
    ((∃ R, A.opMul B = .ok R) ↔ (A._cols = B._rows ∧ A._rows * B._cols ≤ INT_MAX)) ∧
    (∀ R, A.opMul B = .ok R →
      R.WF ∧ R._rows = A._rows ∧ R._cols = B._cols ∧
      ∀ i j : Int, 0 ≤ i → i < A._rows → 0 ≤ j → j < B._cols →
        R.cell i j = accumulatedDot A B i j A._cols.toNat ∧
        (accumulatedDot A B i j A._cols.toNat = .finite (exactDot A B i j) →
          R.cell i j = .finite (exactDot A B i j))) ∧
    (A._cols ≠ B._rows → A.opMul B = .error .invalidDimensions) := by
  have hmis : A._cols ≠ B._rows → A.opMul B = .error .invalidDimensions := by
    intro hd
    unfold Matrix32.opMul
    rw [if_neg hd]
  have hmatch : ∀ R, A.opMul B = .ok R → A._cols = B._rows ∧ A._rows * B._cols ≤ INT_MAX := by
    intro R hR
    constructor
    · by_contra hd
      rw [hmis hd] at hR
      cases hR
    · by_contra hb
      exact opMul32_overflow A B hA hB (by omega) R hR
  refine ⟨⟨?_, ?_⟩, ?_, hmis⟩
  · rintro ⟨R, hR⟩
    exact hmatch R hR
  · rintro ⟨hd, hb⟩
    obtain ⟨R, hR, -⟩ := opMul32_ok A B hA hB hd hb
    exact ⟨R, hR⟩
  · intro R hR
    obtain ⟨hd, hb⟩ := hmatch R hR
    obtain ⟨R', hR', hwf, hr, hc, hcell⟩ := opMul32_ok A B hA hB hd hb
    rw [hR'] at hR
    cases hR
    refine ⟨hwf, hr, hc, ?_⟩
    intro i j hi0 hi hj0 hj
    obtain ⟨n, hn⟩ := Int.eq_ofNat_of_zero_le hi0
    obtain ⟨m, hm⟩ := Int.eq_ofNat_of_zero_le hj0
    subst hn hm
    exact ⟨hcell n m hi hj, fun h => by rw [hcell n m hi hj, h]⟩

/-- C5 (amended) at a concrete input: the 2 x 2 matrix holding 1, 2, 3, 4 multiplied by
itself. -/
theorem C5_opMul_spec_witness :
    sample2x2.opMul sample2x2 =
      .ok ⟨[.finite 7, .finite 10, .finite 15, .finite 22], 2, 2, 4⟩ ∧
    ((∃ R, sample2x2.opMul sample2x2 = .ok R) ↔
      (sample2x2._cols = sample2x2._rows ∧ sample2x2._rows * sample2x2._cols ≤ INT_MAX)) :=
  ⟨by decide!, (C5_opMul_spec sample2x2 sample2x2 (by decide) (by decide)).1⟩

/-- C6: for every matrix `M`, `M / 0` succeeds exactly when every cell of `M` is 0 and then
returns a matrix equal to `M`; when a cell is not 0 (a NaN is not) the run stops with "Division
by zero.".  For every scalar `s` that does not compare equal to 0, `M / s` is `M * (1 / s)` with
the `float` quotient `1 / s`, and it succeeds: the result has the shape of `M`, and its flat cell
`k` is the `float` product `M[k] * (1 / s)`, or 0 when the quotient `1 / s` is itself 0 (an
infinite `s`), which `operator*` answers with a fresh zero matrix. -/
theorem C6_opDiv_spec (M : Matrix32) (hM : M.WF) :
    ((∃ R, M.opDiv (.finite 0) = .ok R) ↔
      ∀ k : Int, 0 ≤ k → k < M._len → M.flat k = .finite 0) ∧
    (∀ R, M.opDiv (.finite 0) = .ok R → R = M) ∧
    ((∃ k : Int, 0 ≤ k ∧ k < M._len ∧ M.flat k ≠ .finite 0) →
      M.opDiv (.finite 0) = .error .divisionByZero) ∧
    (∀ s : Binary32, s ≠ .finite 0 →
      M.opDiv s = M.opMulScalar ((Binary32.finite 1).div s) ∧
      ∃ R, M.opDiv s = .ok R ∧ R.WF ∧ R._rows = M._rows ∧ R._cols = M._cols ∧
        ∀ k : Int, 0 ≤ k → k < M._len →
          R.flat k = if (Binary32.finite 1).div s = .finite 0 then .finite 0
            else (M.flat k).mul ((Binary32.finite 1).div s)) := by
  have hlenM := hM.2.2.2.1
  have hz : (Binary32.finite 0).eq (Binary32.ofInt 0) = true := (eq_zero_iff _).mpr rfl
  have hnat : (∀ k : Int, 0 ≤ k → k < M._len → M.flat k = .finite 0) ↔
      ∀ k : Nat, k < M._matrix.length → (M.flat k).ne (Binary32.ofInt 0) = false := by
    constructor
    · intro h k hk
      exact (ne_zero_false_iff _).mpr (h k (Int.ofNat_nonneg k) (by rw [← hlenM]; exact_mod_cast hk))
    · intro h k hk0 hk
      obtain ⟨n, hn⟩ := Int.eq_ofNat_of_zero_le hk0
      subst hn
      exact (ne_zero_false_iff _).mp (h n (by omega))
  have hzero : M.opDiv (.finite 0) = (do
      forInt 0 M._len (fun i (_ : Unit) => do
        let v ← M.opIndexConst i
        if v.ne (Binary32.ofInt 0) then .error .divisionByZero else pure ()) ()
      M.copy) := by
    unfold Matrix32.opDiv
    rw [if_pos hz]
  refine ⟨⟨?_, ?_⟩, ?_, ?_, ?_⟩
  · rintro ⟨R, hR⟩
    rw [hzero] at hR
    rcases opDiv32_zero_check M hM with ⟨-, hall⟩ | ⟨herr, -⟩
    · exact hnat.mpr hall
    · rw [herr] at hR
      cases hR
  · intro h
    rcases opDiv32_zero_check M hM with ⟨hok, -⟩ | ⟨-, k, hk, hne⟩
    · exact ⟨M, by rw [hzero, hok, ok_bind, copy32_ok M hM]⟩
    · rw [hnat.mp h k hk] at hne
      cases hne
  · intro R hR
    rw [hzero] at hR
    rcases opDiv32_zero_check M hM with ⟨hok, -⟩ | ⟨herr, -⟩
    · rw [hok, ok_bind, copy32_ok M hM] at hR
      cases hR
      rfl
    · rw [herr] at hR
      cases hR
  · rintro ⟨k, hk0, hk, hne⟩
    rw [hzero]
    rcases opDiv32_zero_check M hM with ⟨-, hall⟩ | ⟨herr, -⟩
    · exact absurd (hnat.mpr hall k hk0 hk) hne
    · rw [herr]
      rfl
  · intro s hs
    have hs' : ¬ s.eq (Binary32.ofInt 0) = true := fun h => hs ((eq_zero_iff s).mp h)
    have hdiv : M.opDiv s = M.opMulScalar ((Binary32.ofInt 1).div s) := by
      unfold Matrix32.opDiv
      rw [if_neg hs']
    rw [ofInt_one] at hdiv
    refine ⟨hdiv, ?_⟩
    rw [hdiv]
    by_cases hq : (Binary32.finite 1).div s = .finite 0
    · rw [hq]
      refine ⟨Matrix32.mk (List.replicate (M._rows * M._cols).toNat (.finite 0)) M._rows M._cols
        (M._rows * M._cols), ?_, ?_, rfl, rfl, ?_⟩
      · unfold Matrix32.opMulScalar
        rw [if_pos hz]
        exact ctor32_ok _ _ hM.1 hM.2.1 (WF32.bound hM)
      · have hpos : 0 ≤ M._rows * M._cols := by
          rw [← hM.2.2.1, ← hlenM]; exact Int.ofNat_nonneg _
        exact ⟨hM.1, hM.2.1, rfl, by simp [hpos], WF32.bound hM⟩
      · intro k hk0 hk
        obtain ⟨n, hn⟩ := Int.eq_ofNat_of_zero_le hk0
        subst hn
        have hn' : n < (M._rows * M._cols).toNat := by rw [← hM.2.2.1]; omega
        rw [if_pos rfl]
        simp [Matrix32.flat, hn']
    · have hq' : ((Binary32.finite 1).div s).eq (Binary32.ofInt 0) = false := by
        cases h : ((Binary32.finite 1).div s).eq (Binary32.ofInt 0)
        · rfl
        · exact absurd ((eq_zero_iff _).mp h) hq
      obtain ⟨R, hR, hshape, hcells⟩ := opMulScalar32_ok M hM _ hq'
      refine ⟨R, hR, sameShape32_wf hshape hM, hshape.1, hshape.2.1, ?_⟩
      intro k hk0 hk
      obtain ⟨n, hn⟩ := Int.eq_ofNat_of_zero_le hk0
      subst hn
      rw [if_neg hq]
      exact flat32_of_getElem? R n _ (hcells n (by omega))

/-- C6 at a concrete input: the 1 x 2 matrix holding 1 and 3, divided by 3: the `float` quotient
`1 / 3` is 11184811 / 33554432, and the two `float` products are that quotient and 1. -/
theorem C6_opDiv_spec_witness :
    (rowOfTwo (.finite 1) (.finite 3)).opDiv (.finite 3) =
      .ok (rowOfTwo (.finite (11184811 / 33554432)) (.finite 1)) ∧
    (rowOfTwo (.finite 1) (.finite 3)).opDiv (.finite 3) =
      (rowOfTwo (.finite 1) (.finite 3)).opMulScalar ((Binary32.finite 1).div (.finite 3)) ∧
    (rowOfTwo (.finite 1) (.finite 3)).opDiv (.finite 0) = .error .divisionByZero :=
  ⟨by decide!,
    (((C6_opDiv_spec (rowOfTwo (.finite 1) (.finite 3)) (by decide)).2.2.2) (.finite 3)
      (by decide)).1,
    (C6_opDiv_spec (rowOfTwo (.finite 1) (.finite 3)) (by decide)).2.2.1
      ⟨0, by decide, by decide, by decide⟩⟩

/-- C7: for matrices `A` and `B` (`const` operands, so both are left as they are), `A + B`
succeeds exactly when the two have the same rows and the same columns; the result then has that
shape and its flat cell `k` is `A[k] + B[k]`, the `float` sum (the exact sum rounded to
binary32; an infinity or a NaN when the operands make it one); otherwise the run stops with
"Invalid matrix dimensions.". -/
theorem C7_opAdd_spec (A B : Matrix32) (hA : A.WF) (hB : B.WF) :
    ((∃ R, A.opAdd B = .ok R) ↔ (A._rows = B._rows ∧ A._cols = B._cols)) ∧
    (∀ R, A.opAdd B = .ok R →
      R.WF ∧ R._rows = A._rows ∧ R._cols = A._cols ∧
      ∀ k : Int, 0 ≤ k → k < A._len → R.flat k = (A.flat k).add (B.flat k)) ∧
    (¬ (A._rows = B._rows ∧ A._cols = B._cols) → A.opAdd B = .error .invalidDimensions) := by
  have hmis : ¬ (A._rows = B._rows ∧ A._cols = B._cols) →
      A.opAdd B = .error .invalidDimensions := by
    intro hd
    unfold Matrix32.opAdd
    rw [if_neg hd]
  refine ⟨⟨?_, ?_⟩, ?_, hmis⟩
  · rintro ⟨R, hR⟩
    by_contra hd
    rw [hmis hd] at hR
    cases hR
  · rintro ⟨hr, hc⟩
    obtain ⟨R, hR, -⟩ := opAdd32_ok A B hA hB hr hc
    exact ⟨R, hR⟩
  · intro R hR
    by_cases hd : A._rows = B._rows ∧ A._cols = B._cols
    · obtain ⟨R', hR', hshape, hcells⟩ := opAdd32_ok A B hA hB hd.1 hd.2
      rw [hR'] at hR
      cases hR
      refine ⟨sameShape32_wf hshape hA, hshape.1, hshape.2.1, ?_⟩
      intro k hk0 hk
      obtain ⟨n, hn⟩ := Int.eq_ofNat_of_zero_le hk0
      subst hn
      have hn' : n < A._matrix.length := by have := hA.2.2.2.1; omega
      exact flat32_of_getElem? R n _ (hcells n hn')
    · rw [hmis hd] at hR
      cases hR

/-- C7 at a concrete input: the 1 x 1 matrices holding 16777216 and 1; the `float` sum of the
two cells is 16777216. -/
theorem C7_opAdd_spec_witness :
    (singleCell32 (.finite 16777216)).opAdd (singleCell32 (.finite 1)) =
      .ok (singleCell32 (.finite 16777216)) ∧
    ∀ R, (singleCell32 (.finite 16777216)).opAdd (singleCell32 (.finite 1)) = .ok R →
      R.WF ∧ R._rows = 1 ∧ R._cols = 1 ∧
      ∀ k : Int, 0 ≤ k → k < 1 →
        R.flat k = ((singleCell32 (.finite 16777216)).flat k).add
          ((singleCell32 (.finite 1)).flat k) :=
  ⟨by decide!,
    (C7_opAdd_spec (singleCell32 (.finite 16777216)) (singleCell32 (.finite 1))
      (by decide) (by decide)).2.1⟩

/-- C8 (the claim as stated fails): `Matrix(65536, 65536)`.  Neither dimension is below 1, yet
the result is not a matrix of `rows * cols` zero cells: the `int` product `65536 * 65536` wraps
to 0, so the constructor returns an object with 65536 rows, 65536 columns, `_len` 0 and no cell,
on which the read of cell 0 stops with "Index out of range.". -/
theorem C8_ctor_counterexample :
    ¬ ((65536 : Int) < 1 ∨ (65536 : Int) < 1) ∧
    Matrix32.ctor 65536 65536 = .ok ⟨[], 65536, 65536, 0⟩ ∧
    ((([] : List Binary32).length : Int) ≠ 65536 * 65536) ∧
    (Matrix32.ctor 65536 65536 >>= fun m => m.opIndexConst 0) = .error .indexOutOfRange := by
  decide!

/-- C8 (amended): for all integers `rows` and `cols`, `Matrix(rows, cols)` stops with "Invalid
matrix dimensions." if and only if `rows < 1` or `cols < 1`; otherwise, when the product
`rows * cols` is an `int` (at most `INT_MAX`), it yields a matrix with exactly those rows and
columns, `_len = rows * cols`, and a buffer of `rows * cols` cells that are all 0.  When the
product is not an `int` it wraps: the constructor then yields a buffer of the wrapped size, or
fails to allocate when that size is negative. -/
theorem C8_ctor_spec (rows cols : Int) :
    (Matrix32.ctor rows cols = .error .invalidDimensions ↔ rows < 1 ∨ cols < 1) ∧
    (1 ≤ rows → 1 ≤ cols → rows * cols ≤ INT_MAX →
      Matrix32.ctor rows cols = .ok
        { _matrix := List.replicate (rows * cols).toNat (.finite 0), _rows := rows,
          _cols := cols, _len := rows * cols } ∧
      ((List.replicate (rows * cols).toNat (Binary32.finite 0)).length : Int) = rows * cols ∧
      (∀ k : Int, 0 ≤ k → k < rows * cols →
        (Matrix32.mk (List.replicate (rows * cols).toNat (.finite 0)) rows cols
          (rows * cols)).opIndexConst k = .ok (.finite 0)) ∧
      (Matrix32.mk (List.replicate (rows * cols).toNat (.finite 0)) rows cols
        (rows * cols)).WF) ∧
    (1 ≤ rows → 1 ≤ cols →
      Matrix32.ctor rows cols =
        if 0 ≤ wrapInt32 (rows * cols) then .ok
          { _matrix := List.replicate (wrapInt32 (rows * cols)).toNat (.finite 0),
            _rows := rows, _cols := cols, _len := wrapInt32 (rows * cols) }
        else .error .undefinedBehaviour) := by
  refine ⟨?_, ?_, fun hr hc => ctor32_eq rows cols hr hc⟩
  · constructor
    · intro h
      by_contra hd
      rw [ctor32_eq rows cols (by omega) (by omega)] at h
      split at h <;> cases h
    · intro hd
      unfold Matrix32.ctor
      rw [if_pos (by unfold MINIMAL_MATRIX_SIZE; exact hd)]
  · intro hr hc hb
    have hpos : 0 ≤ rows * cols := by positivity
    have hlen : ((List.replicate (rows * cols).toNat (Binary32.finite 0)).length : Int) =
        rows * cols := by simp [hpos]
    have hwf : (Matrix32.mk (List.replicate (rows * cols).toNat (.finite 0)) rows cols
        (rows * cols)).WF := ⟨hr, hc, rfl, hlen, hb⟩
    refine ⟨ctor32_ok rows cols hr hc hb, hlen, ?_, hwf⟩
    intro k hk0 hk
    obtain ⟨n, hn⟩ := Int.eq_ofNat_of_zero_le hk0
    subst hn
    have hn' : n < (rows * cols).toNat := by omega
    rw [opIndexConst32_ok _ n hk (by simpa using hn')]
    simp [Matrix32.flat, hn']

/-- C8, the amended claim at `Matrix(2, 3)`: six zero cells. -/
theorem C8_ctor_spec_witness :
    Matrix32.ctor 2 3 = .ok
      ⟨[.finite 0, .finite 0, .finite 0, .finite 0, .finite 0, .finite 0], 2, 3, 6⟩ :=
  ((C8_ctor_spec 2 3).2.1 (by decide) (by decide) (by decide)).1

/-- C9 (the claim as stated fails).  On the 3 x 3 matrix whose cells all hold 8, `sobel`
returns a matrix whose cells are not all 0: the cells `(1, 2)` and `(2, 1)` are 4 and the cell
`(2, 2)` is 6, because at the border the missing neighbours leave the kernels unbalanced.  And
even the interior cell need not be 0: on the 3 x 3 matrix whose cells all hold the binary32
value -134217720 the cell `(1, 1)` of the result is 1, because a partial sum of the second
kernel is rounded. -/
theorem C9_sobel_counterexample :
    (uniform3x3_32 (.finite 8)).WF ∧
    sobel32 (uniform3x3_32 (.finite 8)) =
      .ok ⟨[.finite 0, .finite 0, .finite 0, .finite 0, .finite 0, .finite 4, .finite 0,
        .finite 4, .finite 6], 3, 3, 9⟩ ∧
    IsBinary32 (-134217720) ∧
    (sobel32 (uniform3x3_32 (.finite (-134217720)))).map (fun R => R.cell 1 1) =
      .ok (.finite 1) := by
  decide!

/-- C9 (amended): for every matrix whose cells all hold one finite constant `c` (any shape),
`sobel` succeeds and returns a matrix of the same shape.  When `c = 0` every cell of the result
is 0.  Every interior cell of the result (one with all eight neighbours inside the matrix) is 0
when `c / 8`, `c / 4`, `3 c / 8` and `c / 2` are binary32 values, so that no partial sum of the
two kernels is rounded; every integer `c` of magnitude at most `2^22` is such a constant.  The
cells on the border see a truncated window and need not be 0. -/
theorem C9_sobel_uniform (M : Matrix32) (c : ℚ) (hM : M.WF)
    (hu : ∀ i j : Int, 0 ≤ i → i < M._rows → 0 ≤ j → j < M._cols → M.cell i j = .finite c) :
    ∃ R, sobel32 M = .ok R ∧ R.WF ∧ R._rows = M._rows ∧ R._cols = M._cols ∧
      (c = 0 → ∀ i j : Int, 0 ≤ i → i < M._rows → 0 ≤ j → j < M._cols →
        R.cell i j = .finite 0) ∧
      (IsBinary32 (c / 8) → IsBinary32 (c / 4) → IsBinary32 (3 * c / 8) → IsBinary32 (c / 2) →
        ∀ i j : Int, 1 ≤ i → i + 1 < M._rows → 1 ≤ j → j + 1 < M._cols →
          R.cell i j = .finite 0) ∧
      (∀ n : Int, c = (n : ℚ) → |n| ≤ 4194304 →
        ∀ i j : Int, 1 ≤ i → i + 1 < M._rows → 1 ≤ j → j + 1 < M._cols →
          R.cell i j = .finite 0) := by
  obtain ⟨R, hR, hwf, hr, hc, hcell⟩ := sobel32_ok M hM
  have hfinal : (Binary32.finite 0).add (.finite 0) = .finite 0 :=
    add_zero32 0 isBinary32_zero
  have hinterior : IsBinary32 (c / 8) → IsBinary32 (c / 4) → IsBinary32 (3 * c / 8) →
      IsBinary32 (c / 2) →
      ∀ i j : Int, 1 ≤ i → i + 1 < M._rows → 1 ≤ j → j + 1 < M._cols →
        R.cell i j = .finite 0 := by
    intro h8 h4 h38 h2 i j hi0 hi hj0 hj
    rw [hcell i j (by omega) (by omega) (by omega) (by omega),
      accumulatedStencil_sobelX M c hu h8 h4 i j hi0 hi hj0 hj,
      accumulatedStencil_sobelY M c hu h8 h4 h38 h2 i j hi0 hi hj0 hj,
      rintf32_zero, hfinal, clampCell32_zero]
  refine ⟨R, hR, hwf, hr, hc, ?_, hinterior, ?_⟩
  · intro h0 i j hi0 hi hj0 hj
    subst h0
    rw [hcell i j hi0 hi hj0 hj,
      accumulatedStencil_zero M sobelXKernel32 hu sobelXKernel32_finite,
      accumulatedStencil_zero M sobelYKernel32 hu sobelYKernel32_finite,
      rintf32_zero, hfinal, clampCell32_zero]
  · intro n hn hbound
    have e8 : c / 8 = (n : ℚ) * twoPow (-3) := by
      rw [hn, show twoPow (-3) = 1 / 8 by decide!]; ring
    have e4 : c / 4 = (n : ℚ) * twoPow (-2) := by
      rw [hn, show twoPow (-2) = 1 / 4 by decide!]; ring
    have e38 : 3 * c / 8 = ((3 * n : Int) : ℚ) * twoPow (-3) := by
      rw [hn, show twoPow (-3) = 1 / 8 by decide!]; push_cast; ring
    have e2 : c / 2 = (n : ℚ) * twoPow (-1) := by
      rw [hn, show twoPow (-1) = 1 / 2 by decide!]; ring
    have hb1 : |n| < 16777216 := by omega
    have hb3 : |3 * n| < 16777216 := by
      rw [abs_lt]
      have := abs_le.mp hbound
      constructor <;> omega
    exact hinterior
      (by rw [e8]; exact isBinary32_of_scaled n (-3) hb1 (by decide) (by decide))
      (by rw [e4]; exact isBinary32_of_scaled n (-2) hb1 (by decide) (by decide))
      (by rw [e38]; exact isBinary32_of_scaled (3 * n) (-3) hb3 (by decide) (by decide))
      (by rw [e2]; exact isBinary32_of_scaled n (-1) hb1 (by decide) (by decide))

/-- C9 (amended) at a concrete input: the 3 x 3 matrix whose cells all hold 8; its one interior
cell `(1, 1)` is 0 in the result. -/
theorem C9_sobel_uniform_witness :
    (uniform3x3_32 (.finite 8)).WF ∧
    ∃ R, sobel32 (uniform3x3_32 (.finite 8)) = .ok R ∧ R.WF ∧ R._rows = 3 ∧ R._cols = 3 ∧
      R.cell 1 1 = .finite 0 :=
  ⟨by decide,
    (C9_sobel_uniform (uniform3x3_32 (.finite 8)) 8 (by decide)
      (uniform3x3_32_cells (.finite 8))).imp
      (fun _ h => ⟨h.1, h.2.1, h.2.2.1, h.2.2.2.1,
        h.2.2.2.2.2.2 8 (by norm_num) (by decide) 1 1 (by decide) (by decide) (by decide)
          (by decide)⟩)⟩

/-- C12 (the claim as stated fails): on the 1 x 1 matrix holding a NaN, `normalize` succeeds
and leaves the NaN, a second `normalize` does the same, and `operator==` on the two results is
false, because a NaN compares unequal to itself. -/
theorem C12_normalize_counterexample :
    (singleCell32 .nan).WF ∧
    normalize32 (singleCell32 .nan) = .ok (singleCell32 .nan) ∧
    (normalize32 (singleCell32 .nan) >>= normalize32) = .ok (singleCell32 .nan) ∧
    (singleCell32 .nan).opEq (singleCell32 .nan) = .ok false := by
  decide!

/-- C12 (amended): for every matrix `M`, with `N` the result of `normalize(M)` and `N2` the
result of `normalize(N)`: both calls succeed and `N2` has the shape and the cells of `N`; and
`N2 == N` is true if and only if `M` holds no NaN.  So `normalize` is idempotent under
`operator==` for every matrix without a NaN. -/
theorem C12_normalize_idempotent (M : Matrix32) (hM : M.WF) :
    ∃ N N2, normalize32 M = .ok N ∧ normalize32 N = .ok N2 ∧ N2 = N ∧
      ((∀ k : Int, 0 ≤ k → k < M._len → M.flat k ≠ .nan) → N2.opEq N = .ok true) ∧
      ((∃ k : Int, 0 ≤ k ∧ k < M._len ∧ M.flat k = .nan) → N2.opEq N = .ok false) := by
  obtain ⟨N, hN, hNwf, hNshape, hNcells⟩ := normalize32_flat M hM
  obtain ⟨N2, hN2, hN2wf, hN2shape, hN2cells⟩ := normalize32_flat N hNwf
  have heq : N2 = N := by
    apply matrix32_ext N2 N hN2shape
    intro k hk
    have hkN : (k : Int) < N._len := by rw [← hNwf.2.2.2.1]; exact_mod_cast hk
    have hkM : (k : Int) < M._len := by rw [← hNshape.2.2.1]; exact hkN
    have h2 := hN2cells k (Int.ofNat_nonneg k) hkN
    rw [hNcells k (Int.ofNat_nonneg k) hkM, clampCell32_idem,
      ← hNcells k (Int.ofNat_nonneg k) hkM] at h2
    rw [getElem?_flat32 N k hk, getElem?_flat32 N2 k (by rw [hN2shape.2.2.2]; exact hk), h2]
  obtain ⟨b, hb, hiff⟩ := opEq32_ok N2 N hN2wf hNwf
  refine ⟨N, N2, hN, hN2, heq, ?_, ?_⟩
  · intro hall
    have : b = true := by
      apply hiff.mpr
      refine ⟨hN2shape.1, hN2shape.2.1, ?_⟩
      intro k hk0 hk
      have hkM : k < M._len := by rw [← hNshape.2.2.1, ← hN2shape.2.2.1]; exact hk
      rw [heq, ne_self_eq_false_iff, hNcells k hk0 hkM]
      intro hc
      exact hall k hk0 hkM ((clampCell32_eq_nan _).mp hc)
    rw [hb, this]
  · rintro ⟨k, hk0, hk, hnan⟩
    have : b = false := by
      cases hbv : b
      · rfl
      · exfalso
        have h := (hiff.mp hbv).2.2 k hk0 (by rw [hN2shape.2.2.1, hNshape.2.2.1]; exact hk)
        rw [heq, ne_self_eq_false_iff, hNcells k hk0 hk, hnan] at h
        exact h rfl
    rw [hb, this]

/-- C12 (amended) at a concrete input: the 2 x 2 matrix holding -3, 255.5, 300 and plus
infinity, which holds no NaN. -/
theorem C12_normalize_idempotent_witness :
    ∃ N N2, normalize32 ⟨[.finite (-3), .finite (511 / 2), .finite 300, .posInf], 2, 2, 4⟩
        = .ok N ∧ normalize32 N = .ok N2 ∧ N2 = N ∧ N2.opEq N = .ok true :=
  (C12_normalize_idempotent ⟨[.finite (-3), .finite (511 / 2), .finite 300, .posInf], 2, 2, 4⟩
    (by decide)).imp (fun _ h => h.imp (fun _ h =>
      ⟨h.1, h.2.1, h.2.2.1, h.2.2.2.1 (by
        intro k hk0 hk
        have hk' : k < 4 := hk
        have : k = 0 ∨ k = 1 ∨ k = 2 ∨ k = 3 := by omega
        rcases this with h | h | h | h <;> subst h <;> decide)⟩))

/-- C15 (the claim as stated fails): the 1 x 2 matrix `A` holding plus infinity and 0, and the
2 x 2 identity `I`.  `A * I` succeeds, but its second cell is `inf * 0 + 0 * 1`, a NaN, so the
product is the matrix holding plus infinity and a NaN, and `(A * I) == A` is false. -/
theorem C15_opMul_identity_counterexample :
    (rowOfTwo .posInf (.finite 0)).WF ∧ identity2x2_32.WF ∧
    (rowOfTwo .posInf (.finite 0)).opMul identity2x2_32 = .ok (rowOfTwo .posInf .nan) ∧
    (rowOfTwo .posInf .nan).opEq (rowOfTwo .posInf (.finite 0)) = .ok false := by
  decide!

/-- C15 (amended): for every matrix `A` with `n` columns whose cells are finite binary32 values
(no infinity, no NaN), and every `n x n` matrix `I` with 1 on the diagonal and 0 elsewhere,
`A * I` succeeds, the product has the shape and the cells of `A`, and `(A * I) == A` is true. -/
theorem C15_opMul_identity (A I : Matrix32) (hA : A.WF) (hI : I.WF) (hIr : I._rows = A._cols)
    (hIc : I._cols = A._cols)
    (hone : ∀ i j : Int, 0 ≤ i → i < A._cols → 0 ≤ j → j < A._cols →
      I.cell i j = if i = j then .finite 1 else .finite 0)
    (hfin : ∀ i j : Int, 0 ≤ i → i < A._rows → 0 ≤ j → j < A._cols →
      ∃ q : ℚ, A.cell i j = .finite q ∧ IsBinary32 q) :
    ∃ R, A.opMul I = .ok R ∧ R = A ∧ R.opEq A = .ok true := by
  refine ⟨A, opMul32_identity A I hA hI hIr hIc hone hfin, rfl, opEq32_self A hA ?_⟩
  intro k hk0 hk
  obtain ⟨i, j, hi0, hi, hj0, hj, hcell⟩ := flat32_as_cell A hA k hk0 hk
  obtain ⟨q, hq, -⟩ := hfin i j hi0 hi hj0 hj
  rw [hcell, hq]
  exact fun h => by cases h

/-- C15 (amended) at a concrete input: the 2 x 2 matrix holding 1, 2, 3, 4 and the 2 x 2
identity. -/
theorem C15_opMul_identity_witness :
    sample2x2.WF ∧ identity2x2_32.WF ∧
    ∃ R, sample2x2.opMul identity2x2_32 = .ok R ∧ R = sample2x2 ∧
      R.opEq sample2x2 = .ok true :=
  ⟨by decide, by decide,
    C15_opMul_identity sample2x2 identity2x2_32 (by decide) (by decide) rfl rfl
      identity2x2_32_cells sample2x2_cells_finite⟩

/-- C17 (the claim as stated fails): `Matrix(65536, 65536)` returns.  The matrix it returns has
65536 rows and 65536 columns but a buffer of no cell, because the `int` product of the
dimensions wraps to 0; so its buffer length is not `rows * cols`, and the invariant does not
hold for every matrix the constructors return. -/
theorem C17_shape_invariant_counterexample :
    Matrix32.ctor 65536 65536 = .ok ⟨[], 65536, 65536, 0⟩ ∧
    1 ≤ (Matrix32.mk [] 65536 65536 0)._rows ∧ 1 ≤ (Matrix32.mk [] 65536 65536 0)._cols ∧
    ¬ (((Matrix32.mk [] 65536 65536 0)._matrix.length : Int) =
      (Matrix32.mk [] 65536 65536 0)._rows * (Matrix32.mk [] 65536 65536 0)._cols) ∧
    ¬ (Matrix32.mk [] 65536 65536 0).WF := by
  decide!

/-- C17 (amended): the class invariant (`rows >= 1`, `cols >= 1`, a buffer of `rows * cols`
cells, with `_len = rows * cols` an `int`) holds for every matrix the constructors return
when the product of the dimensions asked for is an `int` (at most `INT_MAX`), and is kept by
every operation that yields or mutates a matrix: the copy, the assignment, `vectorize` (which
sets the shape to `(rows * cols, 1)` and leaves every flat cell as it is), the arithmetic
operators with their compound forms, and the filters.  The operations that cannot stop on
operands satisfying the invariant are stated as succeeding; the product of two matrices whose
result would have more than `INT_MAX` cells does not return. -/
theorem C17_shape_invariant (A B : Matrix32) (hA : A.WF) (hB : B.WF) (s : Binary32)
    (levels rows cols : Int) (sameObject : Bool) :
    (rows * cols ≤ INT_MAX →
      ∀ R, Matrix32.ctor rows cols = .ok R → R.WF ∧ R._rows = rows ∧ R._cols = cols) ∧
    (∃ R, Matrix32.default = .ok R ∧ R.WF) ∧
    (∃ R, A.copy = .ok R ∧ R.WF ∧ R = A) ∧
    (∀ R, A.opAssign B sameObject = .ok R → R.WF) ∧
    (A.vectorize.WF ∧ A.vectorize._rows = A._rows * A._cols ∧ A.vectorize._cols = 1 ∧
      ∀ k : Int, A.vectorize.flat k = A.flat k) ∧
    (∀ R, A.opMul B = .ok R → R.WF ∧ R._rows = A._rows ∧ R._cols = B._cols) ∧
    (∃ R, A.opMulScalar s = .ok R ∧ R.WF ∧ R._rows = A._rows ∧ R._cols = A._cols) ∧
    (∃ R, scalarMul32 s A = .ok R ∧ R.WF ∧ R._rows = A._rows ∧ R._cols = A._cols) ∧
    (∀ R, A.opMulAssign B = .ok R → R.WF) ∧
    (∃ R, A.opMulScalarAssign s = .ok R ∧ R.WF) ∧
    (∀ R, A.opDiv s = .ok R → R.WF ∧ R._rows = A._rows ∧ R._cols = A._cols) ∧
    (∀ R, A.opDivAssign s = .ok R → R.WF) ∧
    (∀ R, A.opAdd B = .ok R → R.WF ∧ R._rows = A._rows ∧ R._cols = A._cols) ∧
    (∀ R, A.opAddAssign B = .ok R → R.WF) ∧
    (∃ R, A.opAddScalarAssign s = .ok R ∧ R.WF ∧ R._rows = A._rows ∧ R._cols = A._cols) ∧
    (∃ R, normalize32 A = .ok R ∧ R.WF ∧ R._rows = A._rows ∧ R._cols = A._cols) ∧
    (∀ R, convolution32 A B = .ok R → R.WF ∧ R._rows = A._rows ∧ R._cols = A._cols) ∧
    (B._rows = 3 ∧ B._cols = 3 →
      ∃ R, convolution32 A B = .ok R ∧ R.WF ∧ R._rows = A._rows ∧ R._cols = A._cols) ∧
    (∀ R, quantization32 A levels = .ok R → R.WF ∧ R._rows = A._rows ∧ R._cols = A._cols) ∧
    (∃ R, blur32 A = .ok R ∧ R.WF ∧ R._rows = A._rows ∧ R._cols = A._cols) ∧
    (∃ R, sobel32 A = .ok R ∧ R.WF ∧ R._rows = A._rows ∧ R._cols = A._cols) := by
  obtain ⟨S, hS, hSwf, hSr, hSc⟩ := opMulScalar32_wf A hA s
  have hadd : ∀ R, A.opAdd B = .ok R → R.WF ∧ R._rows = A._rows ∧ R._cols = A._cols := by
    intro R h
    by_cases hd : A._rows = B._rows ∧ A._cols = B._cols
    · obtain ⟨R', hR', hshape, -⟩ := opAdd32_ok A B hA hB hd.1 hd.2
      rw [hR'] at h
      cases h
      exact ⟨sameShape32_wf hshape hA, hshape.1, hshape.2.1⟩
    · unfold Matrix32.opAdd at h
      rw [if_neg hd] at h
      cases h
  refine ⟨fun hb R h => ctor32_wf rows cols R hb h, ?_, ⟨A, copy32_ok A hA, hA, rfl⟩, ?_, ?_,
    fun R h => opMul32_wf A B R hA hB h, ⟨S, hS, hSwf, hSr, hSc⟩,
    ⟨S, by rw [scalarMul32_eq s A hA, hS], hSwf, hSr, hSc⟩,
    ?_, ?_, fun R h => opDiv32_wf A R hA s h, ?_, hadd, ?_, ?_, ?_,
    fun R h => convolution32_wf A B R hA h, ?_,
    fun R h => quantization32_wf A R levels hA h, ?_, ?_⟩
  · refine ⟨_, ctor32_ok 1 1 (le_refl _) (le_refl _) (by decide), ?_⟩
    decide
  · intro R h
    cases sameObject with
    | true =>
      unfold Matrix32.opAssign at h
      rw [if_pos rfl] at h
      cases h
      exact hA
    | false => exact opAssign32_wf A B R hB h
  · obtain ⟨hwf, hr, hc, -, hdata⟩ := vectorize32_wf A hA
    refine ⟨hwf, hr, hc, ?_⟩
    intro k
    unfold Matrix32.flat
    rw [hdata]
  · intro R h
    unfold Matrix32.opMulAssign at h
    obtain ⟨P, hP, hassign⟩ := bind_eq_ok h
    exact opAssign32_wf A P R (opMul32_wf A B P hA hB hP).1 hassign
  · refine ⟨S, ?_, hSwf⟩
    unfold Matrix32.opMulScalarAssign
    rw [hS, ok_bind, opAssign32_ok A S hSwf]
  · intro R h
    unfold Matrix32.opDivAssign at h
    obtain ⟨P, hP, hassign⟩ := bind_eq_ok h
    exact opAssign32_wf A P R (opDiv32_wf A P hA s hP).1 hassign
  · intro R h
    unfold Matrix32.opAddAssign at h
    obtain ⟨P, hP, hassign⟩ := bind_eq_ok h
    exact opAssign32_wf A P R (hadd P hP).1 hassign
  · obtain ⟨R, hR, hshape, -⟩ := opAddScalarAssign32_ok A hA s
    exact ⟨R, hR, sameShape32_wf hshape hA, hshape.1, hshape.2.1⟩
  · obtain ⟨R, hR, hshape, -⟩ := normalize32_ok A hA
    exact ⟨R, hR, sameShape32_wf hshape hA, hshape.1, hshape.2.1⟩
  · intro hB3
    obtain ⟨R, hR, hwf, hr, hc, -⟩ := convolution32_ok A B hA hB hB3
    exact ⟨R, hR, hwf, hr, hc⟩
  · obtain ⟨R, hR, hwf, hr, hc, -⟩ := blur32_ok A hA
    exact ⟨R, hR, hwf, hr, hc⟩
  · obtain ⟨R, hR, hwf, hr, hc, -⟩ := sobel32_ok A hA
    exact ⟨R, hR, hwf, hr, hc⟩

/-- C17 (amended) at a concrete input: the 3 x 3 matrix holding 10, 20, .., 90, the 3 x 3
kernel whose centre entry is 1, the scalar 2, 4 levels and the dimensions 2 and 3.  On this
input every operation of the claim returns. -/
theorem C17_shape_invariant_witness :
    sample3x3.WF ∧ centerKernel32.WF ∧
    ((∃ R, Matrix32.ctor 2 3 = .ok R) ∧ (∃ R, sample3x3.opAssign centerKernel32 false = .ok R) ∧
      (∃ R, sample3x3.opMul centerKernel32 = .ok R) ∧
      (∃ R, sample3x3.opMulAssign centerKernel32 = .ok R) ∧
      (∃ R, sample3x3.opDiv (.finite 2) = .ok R) ∧
      (∃ R, sample3x3.opDivAssign (.finite 2) = .ok R) ∧
      (∃ R, sample3x3.opAdd centerKernel32 = .ok R) ∧
      (∃ R, sample3x3.opAddAssign centerKernel32 = .ok R) ∧
      (∃ R, convolution32 sample3x3 centerKernel32 = .ok R) ∧
      (∃ R, quantization32 sample3x3 4 = .ok R)) ∧
    ((2 * 3 ≤ INT_MAX →
        ∀ R, Matrix32.ctor 2 3 = .ok R → R.WF ∧ R._rows = 2 ∧ R._cols = 3) ∧
      (∃ R, Matrix32.default = .ok R ∧ R.WF) ∧
      (∃ R, sample3x3.copy = .ok R ∧ R.WF ∧ R = sample3x3) ∧
      (∀ R, sample3x3.opAssign centerKernel32 false = .ok R → R.WF) ∧
      (sample3x3.vectorize.WF ∧
        sample3x3.vectorize._rows = sample3x3._rows * sample3x3._cols ∧
        sample3x3.vectorize._cols = 1 ∧
        ∀ k : Int, sample3x3.vectorize.flat k = sample3x3.flat k) ∧
      (∀ R, sample3x3.opMul centerKernel32 = .ok R →
        R.WF ∧ R._rows = sample3x3._rows ∧ R._cols = centerKernel32._cols) ∧
      (∃ R, sample3x3.opMulScalar (.finite 2) = .ok R ∧ R.WF ∧ R._rows = sample3x3._rows ∧
        R._cols = sample3x3._cols) ∧
      (∃ R, scalarMul32 (.finite 2) sample3x3 = .ok R ∧ R.WF ∧ R._rows = sample3x3._rows ∧
        R._cols = sample3x3._cols) ∧
      (∀ R, sample3x3.opMulAssign centerKernel32 = .ok R → R.WF) ∧
      (∃ R, sample3x3.opMulScalarAssign (.finite 2) = .ok R ∧ R.WF) ∧
      (∀ R, sample3x3.opDiv (.finite 2) = .ok R →
        R.WF ∧ R._rows = sample3x3._rows ∧ R._cols = sample3x3._cols) ∧
      (∀ R, sample3x3.opDivAssign (.finite 2) = .ok R → R.WF) ∧
      (∀ R, sample3x3.opAdd centerKernel32 = .ok R →
        R.WF ∧ R._rows = sample3x3._rows ∧ R._cols = sample3x3._cols) ∧
      (∀ R, sample3x3.opAddAssign centerKernel32 = .ok R → R.WF) ∧
      (∃ R, sample3x3.opAddScalarAssign (.finite 2) = .ok R ∧ R.WF ∧
        R._rows = sample3x3._rows ∧ R._cols = sample3x3._cols) ∧
      (∃ R, normalize32 sample3x3 = .ok R ∧ R.WF ∧ R._rows = sample3x3._rows ∧
        R._cols = sample3x3._cols) ∧
      (∀ R, convolution32 sample3x3 centerKernel32 = .ok R →
        R.WF ∧ R._rows = sample3x3._rows ∧ R._cols = sample3x3._cols) ∧
      (centerKernel32._rows = 3 ∧ centerKernel32._cols = 3 →
        ∃ R, convolution32 sample3x3 centerKernel32 = .ok R ∧ R.WF ∧
          R._rows = sample3x3._rows ∧ R._cols = sample3x3._cols) ∧
      (∀ R, quantization32 sample3x3 4 = .ok R →
        R.WF ∧ R._rows = sample3x3._rows ∧ R._cols = sample3x3._cols) ∧
      (∃ R, blur32 sample3x3 = .ok R ∧ R.WF ∧ R._rows = sample3x3._rows ∧
        R._cols = sample3x3._cols) ∧
      (∃ R, sobel32 sample3x3 = .ok R ∧ R.WF ∧ R._rows = sample3x3._rows ∧
        R._cols = sample3x3._cols)) :=
  ⟨by decide, by decide,
    ⟨⟨_, (by decide! : Matrix32.ctor 2 3 = .ok
        ⟨[.finite 0, .finite 0, .finite 0, .finite 0, .finite 0, .finite 0], 2, 3, 6⟩)⟩,
      ⟨_, (by decide! : sample3x3.opAssign centerKernel32 false = .ok centerKernel32)⟩,
      ⟨_, (by decide! : sample3x3.opMul centerKernel32 = .ok
        ⟨[.finite 0, .finite 20, .finite 0, .finite 0, .finite 50, .finite 0, .finite 0,
          .finite 80, .finite 0], 3, 3, 9⟩)⟩,
      ⟨_, (by decide! : sample3x3.opMulAssign centerKernel32 = .ok
        ⟨[.finite 0, .finite 20, .finite 0, .finite 0, .finite 50, .finite 0, .finite 0,
          .finite 80, .finite 0], 3, 3, 9⟩)⟩,
      ⟨_, (by decide! : sample3x3.opDiv (.finite 2) = .ok
        ⟨[.finite 5, .finite 10, .finite 15, .finite 20, .finite 25, .finite 30, .finite 35,
          .finite 40, .finite 45], 3, 3, 9⟩)⟩,
      ⟨_, (by decide! : sample3x3.opDivAssign (.finite 2) = .ok
        ⟨[.finite 5, .finite 10, .finite 15, .finite 20, .finite 25, .finite 30, .finite 35,
          .finite 40, .finite 45], 3, 3, 9⟩)⟩,
      ⟨_, (by decide! : sample3x3.opAdd centerKernel32 = .ok
        ⟨[.finite 10, .finite 20, .finite 30, .finite 40, .finite 51, .finite 60, .finite 70,
          .finite 80, .finite 90], 3, 3, 9⟩)⟩,
      ⟨_, (by decide! : sample3x3.opAddAssign centerKernel32 = .ok
        ⟨[.finite 10, .finite 20, .finite 30, .finite 40, .finite 51, .finite 60, .finite 70,
          .finite 80, .finite 90], 3, 3, 9⟩)⟩,
      ⟨_, (by decide! : convolution32 sample3x3 centerKernel32 = .ok sample3x3)⟩,
      ⟨_, (by decide! : quantization32 sample3x3 4 = .ok
        ⟨[.finite 31, .finite 31, .finite 31, .finite 31, .finite 31, .finite 31, .finite 95,
          .finite 95, .finite 95], 3, 3, 9⟩)⟩⟩,
    C17_shape_invariant sample3x3 centerKernel32 (by decide) (by decide) (.finite 2) 4 2 3 false⟩

end ImageProcessor
